import Mathlib

/-!
# PQk-means (`src/clustering/pqkmeans.cpp`): embedding and verified properties

The class `pqkmeans::PQKmeans` is embedded as pure functions over an explicit
object record.

* A `float` or `double` value is the rational number it denotes. Every
  operation on such values is the exact operation followed by a rounding; the
  rounding is the parameter `A : Arith` of every function that computes with
  `float` or `double`. `ieee` is the rounding of IEEE 754 (`binary32` for
  `float`, `binary64` for `double`, to nearest, ties to even, with gradual
  underflow), and `unrounded` is arithmetic without rounding. `FLT_MAX` is the
  largest finite single-precision value, as in `<cfloat>`.
* With `ieee`, a result beyond the finite range is `2^128` (`2^1024` for
  `double`) with its sign, which stands for the infinity. The program subtracts
  codeword coordinates, multiplies a value by itself or a positive count by a
  non-negative entry, adds non-negative values and compares with `<`; under
  these operations `2^128` behaves as the infinity does, and no NaN arises from
  finite codewords.
* `std::vector` is `List`; an index outside the bounds (undefined behaviour
  in C++) is the fault `Fault.outOfRange`, a failed `assert` is
  `Fault.assertion`, and a `resize` to a negative `int` converted to
  `std::size_t` is `Fault.allocation`.
* `unsigned char` code elements and `std::size_t` indices are `Nat`, `int`
  values are `Int`; the narrowing casts `(int) pydata.size()` and
  `(unsigned char) min_ks` are written out with their wrap-around.
* `std::shuffle` with `std::mt19937(0)` is standard-library code: the
  permutation it computes is the parameter `shuffle` of the functions that
  reach it.
* The progress text written to `std::cout` is kept as the list of reported
  mean errors, one per completed assignment step.
* A call of `fit` yields a `FitOutcome`: the object it leaves behind, the
  mean errors it reported, and whether it returned or aborted.

The file has three parts: the embedding of the source, the definitions used
to state properties of it, and the proofs, which end with the claims `C1` to
`C20` in order.
-/

set_option autoImplicit false
set_option maxRecDepth 100000
set_option exponentiation.threshold 2048

namespace pqkmeans

/-! ## Floating-point arithmetic -/

/-- The rounding of the machine arithmetic: `f32 x` is the `float` delivered
for an operation whose exact result is `x`, and `f64 x` the `double`. -/
structure Arith where
  f32 : ℚ → ℚ
  f64 : ℚ → ℚ

/-- Arithmetic without rounding. -/
def unrounded : Arith := ⟨fun x => x, fun x => x⟩

/-- The power `2^k` for an integer `k`. -/
def pow2 (k : Int) : ℚ :=
  if 0 ≤ k then ((2 ^ k.toNat : Nat) : ℚ) else 1 / ((2 ^ (-k).toNat : Nat) : ℚ)

/-- The integer nearest to `x`; of two nearest integers, the even one. -/
def round_even (x : ℚ) : Int :=
  if x - (⌊x⌋ : ℚ) < 1 / 2 then ⌊x⌋
  else if 1 / 2 < x - (⌊x⌋ : ℚ) then ⌊x⌋ + 1
  else if ⌊x⌋ % 2 = 0 then ⌊x⌋ else ⌊x⌋ + 1

/-- The number of binary digits of `n`, given at least that much fuel. -/
def bit_length : Nat → Nat → Nat
  | 0, _ => 0
  | fuel + 1, n => if n = 0 then 0 else bit_length fuel (n / 2) + 1

/-- The difference of the numbers of binary digits of the numerator and of
the denominator of `q`: the binary exponent of `q`, or one more. -/
def exponent_bound (q : ℚ) : Int :=
  (bit_length q.num.natAbs q.num.natAbs : Int) - (bit_length q.den q.den : Int)

/-- The binary exponent of a non-zero rational `q`: the `e` with
`2^e ≤ |q| < 2^(e+1)`. -/
def exponent (q : ℚ) : Int :=
  if pow2 (exponent_bound q) ≤ |q| then exponent_bound q else exponent_bound q - 1

/-- The spacing, around the non-zero rational `q`, of the numbers of the
binary floating-point format with `p` significant bits and least exponent
`emin`. -/
def ulp (p : Nat) (emin : Int) (q : ℚ) : ℚ :=
  pow2 (max (exponent q) emin - ((p : Int) - 1))

/-- The multiple of the spacing nearest to `q`, ties to the even multiple. -/
def nearest (p : Nat) (emin : Int) (q : ℚ) : ℚ :=
  (round_even (q / ulp p emin q) : ℚ) * ulp p emin q

/-- Rounding to the binary floating-point format with `p` significant bits
and exponents from `emin` to `emax`: to nearest, ties to even, with gradual
underflow; a result of magnitude `2^(emax+1)` or more is `2^(emax+1)` with
its sign, which stands for the infinity. -/
def round_binary (p : Nat) (emin emax : Int) (q : ℚ) : ℚ :=
  if q = 0 then 0
  else if pow2 (emax + 1) ≤ |nearest p emin q| then
    (if 0 < q then pow2 (emax + 1) else -pow2 (emax + 1))
  else nearest p emin q

/-- The arithmetic of IEEE 754: `float` is `binary32`, `double` is
`binary64`. -/
def ieee : Arith := ⟨round_binary 24 (-126) 127, round_binary 53 (-1022) 1023⟩

/-! ## The source -/

/-- Ways in which a call aborts: a failed `assert`, a vector indexed outside
its bounds, a `resize` beyond `max_size`. -/
inductive Fault where
  | assertion
  | outOfRange
  | allocation
  deriving DecidableEq

/-- A PQ code, `std::vector<unsigned char>`. -/
abbrev Code := List Nat

/-- The constant `FLT_MAX` of `<cfloat>`: `(2 - 2^(-23)) * 2^127`. -/
def FLT_MAX : ℚ := 340282346638528859811704183484516925440

/-- Checked element access `v[i]` of a vector. -/
def at? {α : Type} (v : List α) (i : Nat) : Except Fault α :=
  match v[i]? with
  | some x => .ok x
  | none => .error .outOfRange

/-- Runs a fallible loop body over a list of indices in order, collecting the
results; the first fault aborts. -/
def mapE {α β : Type} (f : α → Except Fault β) : List α → Except Fault (List β)
  | [] => .ok []
  | a :: as =>
    match f a with
    | .error e => .error e
    | .ok b =>
      match mapE f as with
      | .error e => .error e
      | .ok bs => .ok (b :: bs)

/-- Runs a fallible accumulating loop body over a list in order. -/
def foldE {α σ : Type} (f : σ → α → Except Fault σ) : σ → List α → Except Fault σ
  | s, [] => .ok s
  | s, a :: as =>
    match f s a with
    | .error e => .error e
    | .ok s1 => foldE f s1 as

/-- The conversion `(int) n` of a `std::size_t` to a 32-bit `int`. -/
def toInt32 (n : Nat) : Int := (((n + 2147483648) % 4294967296 : Nat) : Int) - 2147483648

/-- The object state of `class PQKmeans`. -/
structure PQKmeans where
  codewords_ : List (List (List ℚ))
  K_ : Int
  itr_ : Int
  M_ : Nat
  distance_matrices_among_codewords_ : List (List (List ℚ))
  centroids : List Code
  assignments : List Int

/-- `PQKmeans::L2SquaredDistance`: the subtractions, the multiplication and
the addition of `dist += (vec1[i] - vec2[i]) * (vec1[i] - vec2[i])` are `float`
operations. -/
def L2SquaredDistance (A : Arith) (vec1 vec2 : List ℚ) : Except Fault ℚ :=
  if vec1.length = vec2.length then
    .ok ((List.zip vec1 vec2).foldl
      (fun dist p => A.f32 (dist + A.f32 (A.f32 (p.1 - p.2) * A.f32 (p.1 - p.2)))) 0)
  else .error .assertion

/-- The triple loop of the constructor filling the distance matrices. -/
def build_distance_matrices (A : Arith) (codewords : List (List (List ℚ))) (M Ks : Nat) :
    Except Fault (List (List (List ℚ))) :=
  mapE (fun m =>
    mapE (fun k1 =>
      mapE (fun k2 => do
        let sub ← at? codewords m
        let v1 ← at? sub k1
        let v2 ← at? sub k2
        L2SquaredDistance A v1 v2)
        (List.range Ks))
      (List.range Ks))
    (List.range M)

/-- The constructor `PQKmeans::PQKmeans(codewords, K, itr)`. -/
def PQKmeans.ctor (A : Arith) (codewords : List (List (List ℚ))) (K itr : Int) :
    Except Fault PQKmeans :=
  match codewords with
  | [] => .error .assertion
  | [] :: _ => .error .assertion
  | ([] :: _) :: _ => .error .assertion
  | (c00 :: cs0) :: _ =>
    let M := codewords.length
    let Ks := (c00 :: cs0).length
    if Ks ≠ c00.length then .error .assertion
    else if 256 < Ks then .error .assertion
    else do
      let table ← build_distance_matrices A codewords M Ks
      pure { codewords_ := codewords, K_ := K, itr_ := itr, M_ := M,
             distance_matrices_among_codewords_ := table,
             centroids := [], assignments := [] }

/-- The entry `distance_matrices_among_codewords_[m][k1][k2]`. -/
def PQKmeans.table_at (self : PQKmeans) (m k1 k2 : Nat) : Except Fault ℚ := do
  let t ← at? self.distance_matrices_among_codewords_ m
  let row ← at? t k1
  at? row k2

/-- `PQKmeans::SymmetricDistance`: `dist += ...` is a `float` addition. -/
def SymmetricDistance (A : Arith) (self : PQKmeans) (code1 code2 : Code) : Except Fault ℚ :=
  foldE (fun dist m => do
    let a ← at? code1 m
    let b ← at? code2 m
    let d ← self.table_at m a b
    pure (A.f32 (dist + d)))
    0 (List.range self.M_)

/-- The scan of `PQKmeans::FindNNLinear`: `i` is the loop counter and the
pair is `(min_i, min_dist)`. -/
def FindNNLinear_scan (A : Arith) (self : PQKmeans) (query : Code) :
    List Code → Nat → Int × ℚ → Except Fault (Int × ℚ)
  | [], _, best => .ok best
  | c :: cs, i, best =>
    match SymmetricDistance A self query c with
    | .error e => .error e
    | .ok dist =>
      if dist < best.2 then FindNNLinear_scan A self query cs (i + 1) ((i : Int), dist)
      else FindNNLinear_scan A self query cs (i + 1) best

/-- `PQKmeans::FindNNLinear`. -/
def FindNNLinear (A : Arith) (self : PQKmeans) (query : Code) (codes : List Code) :
    Except Fault (Nat × ℚ) := do
  let best ← FindNNLinear_scan A self query codes 0 (-1, FLT_MAX)
  if best.1 = -1 then .error .assertion else pure (best.1.toNat, best.2)

/-- `PQKmeans::InitializeCentroidsByRandomPicking`; `shuffle` is the
permutation applied by `std::shuffle` with the engine `std::mt19937(0)`. -/
def InitializeCentroidsByRandomPicking (shuffle : List Nat → List Nat)
    (codes : List Code) (K : Int) : Except Fault (List Code) :=
  if K < 0 then .error .allocation
  else
    let ids := shuffle (List.range codes.length)
    mapE (fun k => do
      let id ← at? ids k
      at? codes id)
      (List.range K.toNat)

/-- The frequency histogram of subspace `m` in
`PQKmeans::ComputeCentroidBySparseVoting`. -/
def frequency_histogram (codes : List Code) (selected_ids : List Nat) (m Ks : Nat) :
    Except Fault (List Int) :=
  foldE (fun hist id => do
    let code ← at? codes id
    let c ← at? code m
    let f ← at? hist c
    pure (hist.set c (f + 1)))
    (List.replicate Ks 0) selected_ids

/-- The inner loop over `k2` of the voting step,
`vote[k2] += (float) freq * distance[m][k1][k2]`: the conversion of `freq`,
the multiplication and the addition are `float` operations. -/
def vote_add (A : Arith) (self : PQKmeans) (m k1 : Nat) (freq : Int) (Ks : Nat)
    (vote : List ℚ) : Except Fault (List ℚ) :=
  foldE (fun vote k2 => do
    let d ← self.table_at m k1 k2
    let v ← at? vote k2
    pure (vote.set k2 (A.f32 (v + A.f32 (A.f32 (freq : ℚ) * d)))))
    vote (List.range Ks)

/-- The voting loop over `k1`, which skips empty histogram buckets. -/
def vote_all (A : Arith) (self : PQKmeans) (m Ks : Nat) (hist : List Int) :
    Except Fault (List ℚ) :=
  foldE (fun vote k1 => do
    let freq ← at? hist k1
    if freq = 0 then pure vote else vote_add A self m k1 freq Ks vote)
    (List.replicate Ks 0) (List.range Ks)

/-- The scan for the minimum vote; the pair is `(min_dist, min_ks)`. -/
def vote_min (vote : List ℚ) (Ks : Nat) : Except Fault (ℚ × Int) :=
  foldE (fun (best : ℚ × Int) ks => do
    let v ← at? vote ks
    if v < best.1 then pure (v, (ks : Int)) else pure best)
    (FLT_MAX, -1) (List.range Ks)

/-- The body of the loop over the subspaces in
`PQKmeans::ComputeCentroidBySparseVoting`: the element `average_code[m]`. -/
def vote_subspace (A : Arith) (self : PQKmeans) (codes : List Code) (selected_ids : List Nat)
    (Ks m : Nat) : Except Fault Nat := do
  let hist ← frequency_histogram codes selected_ids m Ks
  let vote ← vote_all A self m Ks hist
  let best ← vote_min vote Ks
  if best.2 = -1 then .error .assertion else pure (best.2 % 256).toNat

/-- `PQKmeans::ComputeCentroidBySparseVoting`. -/
def ComputeCentroidBySparseVoting (A : Arith) (self : PQKmeans) (codes : List Code)
    (selected_ids : List Nat) : Except Fault Code := do
  let sub0 ← at? self.codewords_ 0
  mapE (vote_subspace A self codes selected_ids sub0.length) (List.range self.M_)

/-- Step (2.5) of an iteration of `fit`: the sample indices grouped by
assigned centroid, and the error sum; `error_sum += errors[n]` is a `double`
addition. -/
def group_assignments (A : Arith) (K : Int) (N : Nat) (assignments : List Int)
    (errors : List ℚ) : Except Fault (List (List Nat) × ℚ) :=
  foldE (fun (acc : List (List Nat) × ℚ) n => do
    let k ← at? assignments n
    let sel ← at? acc.1 k.toNat
    let err ← at? errors n
    pure (acc.1.set k.toNat (sel ++ [n]), A.f64 (acc.2 + err)))
    (List.replicate K.toNat [], 0) (List.range N)

/-- Steps (2) and (2.5) of an iteration of `fit`: the nearest centroid of
every sample, the grouping of the sample indices by centroid and the error
sum. -/
def assignment_step (A : Arith) (self : PQKmeans) (pydata : List Code)
    (centroids_old : List Code) : Except Fault (List Int × List (List Nat) × ℚ) := do
  let nn ← mapE (fun query => FindNNLinear A self query centroids_old) pydata
  let assignments : List Int := nn.map (fun p => (p.1 : Int))
  let errors : List ℚ := nn.map (fun p => p.2)
  let grouped ← group_assignments A self.K_ pydata.length assignments errors
  pure (assignments, grouped.1, grouped.2)

/-- Step (3) of iteration `itr` of `fit`: skipped on the last iteration,
and for every centroid without samples. -/
def update_step (A : Arith) (self : PQKmeans) (pydata : List Code) (itr : Int)
    (selected : List (List Nat)) (centroids_new : List Code) : Except Fault (List Code) :=
  if itr ≠ self.itr_ - 1 then
    foldE (fun centroids_new k => do
      let sel ← at? selected k
      if sel = [] then pure centroids_new
      else do
        let c ← ComputeCentroidBySparseVoting A self pydata sel
        if k < centroids_new.length then pure (centroids_new.set k c)
        else .error .outOfRange)
      centroids_new (List.range self.K_.toNat)
  else .ok centroids_new

/-- The main loop of `fit` with `remaining` iterations to go, so that the
loop counter is `itr = itr_ - remaining`. Returns the mean errors reported
so far together with the final `(centroids_new, assignments)` or the
fault. The reported mean `error_sum / N` is a `double` division by the
`double` that `N` converts to. -/
def fit_loop (A : Arith) (self : PQKmeans) (pydata : List Code) :
    Nat → List Code → List Int → List ℚ × Except Fault (List Code × List Int)
  | 0, centroids_new, assignments => ([], .ok (centroids_new, assignments))
  | remaining + 1, centroids_new, _ =>
    match assignment_step A self pydata centroids_new with
    | .error e => ([], .error e)
    | .ok (assignments, selected, error_sum) =>
      let mean := A.f64 (error_sum / A.f64 (pydata.length : ℚ))
      match update_step A self pydata (self.itr_ - ((remaining : Int) + 1)) selected
          centroids_new with
      | .error e => ([mean], .error e)
      | .ok centroids_next =>
        let rest := fit_loop A self pydata remaining centroids_next assignments
        (mean :: rest.1, rest.2)

/-- What a call of `fit` leaves behind: the object, the mean errors it
reported, and whether it returned or aborted. After a fault past the
refresh the process is gone; the record then keeps the refreshed object. -/
structure FitOutcome where
  self : PQKmeans
  reported : List ℚ
  status : Except Fault Unit

/-- The object after the refresh at the start of `fit`. -/
def PQKmeans.refresh (self : PQKmeans) (N : Nat) : PQKmeans :=
  { self with
    centroids := List.replicate self.K_.toNat (List.replicate self.M_ 0),
    assignments := List.replicate N 0 }

/-- `PQKmeans::fit`. -/
def fit (A : Arith) (shuffle : List Nat → List Nat) (self : PQKmeans) (pydata : List Code) :
    FitOutcome :=
  if self.K_ < toInt32 pydata.length then
    if self.K_ < 0 then
      { self := { self with centroids := [] }, reported := [], status := .error .allocation }
    else
      let refreshed := self.refresh pydata.length
      match InitializeCentroidsByRandomPicking shuffle pydata self.K_ with
      | .error e => { self := refreshed, reported := [], status := .error e }
      | .ok centroids_new =>
        match fit_loop A refreshed pydata self.itr_.toNat centroids_new
            refreshed.assignments with
        | (reported, .error e) => { self := refreshed, reported := reported, status := .error e }
        | (reported, .ok (centroids_final, assignments)) =>
          { self := { refreshed with centroids := centroids_final, assignments := assignments },
            reported := reported, status := .ok () }
  else { self := self, reported := [], status := .error .assertion }

/-! ## Definitions used to state the properties -/

/-- The number of codewords per subspace, `codewords_[0].size()`. -/
def PQKmeans.Ks (self : PQKmeans) : Nat :=
  match self.codewords_ with
  | [] => 0
  | sub0 :: _ => sub0.length

/-- A code is valid for an object: one element per subspace, each below
the number of codewords. -/
def ValidCode (self : PQKmeans) (c : Code) : Prop :=
  c.length = self.M_ ∧ ∀ x ∈ c, x < self.Ks

/-- The facts about an object that the constructor establishes and `fit`
never changes. -/
structure PQKmeans.WellFormed (A : Arith) (obj : PQKmeans) : Prop where
  M_eq : obj.M_ = obj.codewords_.length
  Ks_pos : 0 < obj.Ks
  Ks_le : obj.Ks ≤ 256
  table_ok : build_distance_matrices A obj.codewords_ obj.M_ obj.Ks =
    .ok obj.distance_matrices_among_codewords_

/-- The codewords of the example of the specification: two subspaces, four
codewords per subspace, every codeword of dimension two. -/
def example_codewords : List (List (List ℚ)) :=
  [[[0, 0], [1, 0], [0, 1], [1, 1]], [[0, 0], [2, 0], [0, 2], [2, 2]]]

/-- One subspace with two codewords of dimension two, at squared distance 25. -/
def small_codewords : List (List (List ℚ)) := [[[0, 0], [3, 4]]]

/-- Codewords whose second subspace holds more codewords than the first. -/
def uneven_codewords : List (List (List ℚ)) := [[[0]], [[0], [1]]]

/-- Codewords whose second subspace is empty. -/
def gap_codewords : List (List (List ℚ)) := [[[0]], []]

/-- The object the constructor builds from `small_codewords` with `K = 2`
and three iterations. -/
def small_object : PQKmeans :=
  { codewords_ := small_codewords, K_ := 2, itr_ := 3, M_ := 1,
    distance_matrices_among_codewords_ := [[[0, 25], [25, 0]]],
    centroids := [], assignments := [] }

/-- Three samples over `small_codewords`. -/
def small_data : List Code := [[0], [1], [1]]

/-- The object `small_object` after an earlier call of `fit`. -/
def used_object : PQKmeans :=
  { small_object with centroids := [[1], [1]], assignments := [1, 0, 0, 1] }

/-- The table entry `[m][a][b]` as a number, zero where the table has no such
entry. -/
def tbl (self : PQKmeans) (m a b : Nat) : ℚ :=
  match self.table_at m a b with
  | .ok d => d
  | .error _ => 0

/-- The exact sum over the subspaces of the table entries selected by two
codes. -/
def symD (self : PQKmeans) (code1 code2 : Code) : ℚ :=
  ((List.range self.M_).map (fun m => tbl self m (code1.getD m 0) (code2.getD m 0))).sum

/-- The centroid index assigned to sample `n`, as an index. -/
def assigned (assignments : List Int) (n : Nat) : Nat := (assignments.getD n 0).toNat

/-- The elements in subspace `m` of the selected samples, in order. -/
def column (codes : List Code) (selected_ids : List Nat) (m : Nat) : List Nat :=
  selected_ids.map (fun id => (codes.getD id []).getD m 0)

/-- The exact sum over the selected samples `s` of the table entry
`[m][s[m]][k2]`. -/
def vote_score (self : PQKmeans) (codes : List Code) (selected_ids : List Nat) (m k2 : Nat) : ℚ :=
  ((column codes selected_ids m).map (fun k1 => tbl self m k1 k2)).sum

/-- The exact sum over the selected samples of their exact symmetric
distance to a code. -/
def cluster_cost (self : PQKmeans) (codes : List Code) (selected_ids : List Nat) (c : Code) : ℚ :=
  (selected_ids.map (fun id => symD self (codes.getD id []) c)).sum

/-- The exact sum over all samples of the exact symmetric distance to the
centroid they are assigned to. -/
def total_cost (self : PQKmeans) (pydata : List Code) (assignments : List Int)
    (centroids : List Code) : ℚ :=
  ((List.range pydata.length).map (fun n =>
    symD self (pydata.getD n []) (centroids.getD (assigned assignments n) []))).sum

instance (self : PQKmeans) (c : Code) : Decidable (ValidCode self c) := by
  unfold ValidCode; infer_instance

/-- One subspace with three codewords on a line, at `0`, `1` and `3`. -/
def line_codewords : List (List (List ℚ)) := [[[0, 0, 0], [1, 0, 0], [3, 0, 0]]]

/-- The object the constructor builds from `line_codewords` with `K = 2` and
three iterations. -/
def line_object : PQKmeans :=
  { codewords_ := line_codewords, K_ := 2, itr_ := 3, M_ := 1,
    distance_matrices_among_codewords_ := [[[0, 1, 9], [1, 0, 4], [9, 4, 0]]],
    centroids := [], assignments := [] }

/-- Five samples over `line_codewords`. -/
def line_data : List Code := [[0], [2], [1], [1], [2]]

/-- Bounds under which no exact sum formed by `fit` on `N` samples reaches
`FLT_MAX`: every table entry is at most `B`, where `M * B` (a symmetric
distance adds `M` entries) and `N * B` (a vote adds at most `N` entries) are
below `FLT_MAX`. -/
def NoOverflow (self : PQKmeans) (N : Nat) (B : ℚ) : Prop :=
  0 ≤ B ∧ (∀ t ∈ self.distance_matrices_among_codewords_, ∀ row ∈ t, ∀ d ∈ row, d ≤ B) ∧
    (self.M_ : ℚ) * B < FLT_MAX ∧ (N : ℚ) * B < FLT_MAX

instance (self : PQKmeans) (N : Nat) (B : ℚ) : Decidable (NoOverflow self N B) := by
  unfold NoOverflow; infer_instance

/-- The vector a code stands for: the concatenation over the subspaces `m` of
the codewords `codewords_[m][code[m]]`. -/
def reconstruct (self : PQKmeans) (code : Code) : List ℚ :=
  (List.range self.M_).flatMap (fun m => (self.codewords_.getD m []).getD (code.getD m 0) [])

/-- One subspace with two codewords of dimension two, `2^64` apart: their
squared distance `2^128` is above `FLT_MAX`, beyond the finite range of
`float`. -/
def huge_codewords : List (List (List ℚ)) := [[[0, 0], [18446744073709551616, 0]]]

/-- The object the constructor builds from `huge_codewords` with `K = 1` and
one iteration; the table entry `2^128` stands for the infinity. -/
def huge_object : PQKmeans :=
  { codewords_ := huge_codewords, K_ := 1, itr_ := 1, M_ := 1,
    distance_matrices_among_codewords_ :=
      [[[0, 340282366920938463463374607431768211456],
        [340282366920938463463374607431768211456, 0]]],
    centroids := [], assignments := [] }

/-- Two samples over `huge_codewords`, one per codeword. -/
def huge_data : List Code := [[0], [1]]

/-- The number of selected samples whose element in subspace `m` is `k1`. -/
def frequency (codes : List Code) (selected_ids : List Nat) (m k1 : Nat) : Nat :=
  selected_ids.countP (fun id => (codes.getD id []).getD m 0 == k1)

/-- The weighted vote of the specification for the candidate `k2` in subspace
`m`: the sum over `k1 < Ks` of `frequency[k1] * distance_table[m][k1][k2]`. -/
def weighted_score (self : PQKmeans) (codes : List Code) (selected_ids : List Nat)
    (m k2 : Nat) : ℚ :=
  ((List.range self.Ks).map
    (fun k1 => (frequency codes selected_ids m k1 : ℚ) * tbl self m k1 k2)).sum

/-- One subspace whose two codewords are the same vector. -/
def dup_codewords : List (List (List ℚ)) := [[[1, 2], [1, 2]]]

/-- The object the constructor builds from `dup_codewords` with `K = 1` and
one iteration. -/
def dup_object : PQKmeans :=
  { codewords_ := dup_codewords, K_ := 1, itr_ := 1, M_ := 1,
    distance_matrices_among_codewords_ := [[[0, 0], [0, 0]]],
    centroids := [], assignments := [] }

/-- The properties of the rounding to `float` that proofs rely on: `0` and `1`
are `float` values, rounding commutes with negation, keeps non-negative
numbers non-negative and leaves a rounded number as it is. -/
structure Arith.Lawful (A : Arith) : Prop where
  zero : A.f32 0 = 0
  one : A.f32 1 = 1
  neg : ∀ x, A.f32 (-x) = -A.f32 x
  nonneg : ∀ x, 0 ≤ x → 0 ≤ A.f32 x
  idem : ∀ x, A.f32 (A.f32 x) = A.f32 x

/-- The `float` accumulation `acc += x` over a list, started at `0`. -/
def fsum (A : Arith) (l : List ℚ) : ℚ := l.foldl (fun acc x => A.f32 (acc + x)) 0

/-- The `double` accumulation `acc += x` over a list, started at `0`. -/
def dsum (A : Arith) (l : List ℚ) : ℚ := l.foldl (fun acc x => A.f64 (acc + x)) 0

/-- The vote for the candidate `k2` in subspace `m` as the source accumulates
it: over the `k1 < Ks` with a non-zero frequency, in increasing order, the
`float` accumulation of `(float) frequency[k1] * distance_table[m][k1][k2]`. -/
def float_vote (A : Arith) (self : PQKmeans) (codes : List Code) (selected_ids : List Nat)
    (m k2 : Nat) : ℚ :=
  fsum A (((List.range self.Ks).filter (fun k1 => frequency codes selected_ids m k1 != 0)).map
    (fun k1 => A.f32 (A.f32 (frequency codes selected_ids m k1 : ℚ) * tbl self m k1 k2)))

/-- No search and no vote of `fit` on these samples meets only values that are
not below `FLT_MAX`: every symmetric distance computed between two valid
codes is below `FLT_MAX`, and for every set of samples and every subspace
some candidate has a vote below `FLT_MAX`. -/
def StaysFinite (A : Arith) (self : PQKmeans) (pydata : List Code) : Prop :=
  (∀ q c d, ValidCode self q → ValidCode self c →
    SymmetricDistance A self q c = .ok d → d < FLT_MAX) ∧
  (∀ sel m, sel.Sublist (List.range pydata.length) → m < self.M_ →
    ∃ k2, k2 < self.Ks ∧ float_vote A self pydata sel m k2 < FLT_MAX)

/-- One subspace with three codewords on a line, at `-2^(-26)`, `0` and `1`:
in `float` arithmetic the first two are both at squared distance `1` from
the third. -/
def tie_codewords : List (List (List ℚ)) := [[[-1 / 67108864, 0, 0], [0, 0, 0], [1, 0, 0]]]

/-- The object the constructor builds from `tie_codewords` in IEEE arithmetic
with `K = 1` and two iterations; `1 / 4503599627370496` is `2^(-52)`. -/
def tie_object : PQKmeans :=
  { codewords_ := tie_codewords, K_ := 1, itr_ := 2, M_ := 1,
    distance_matrices_among_codewords_ :=
      [[[0, 1 / 4503599627370496, 1], [1 / 4503599627370496, 0, 1], [1, 1, 0]]],
    centroids := [], assignments := [] }

/-- Two samples over `tie_codewords`. -/
def tie_data : List Code := [[1], [2]]

/-! ## Rounding -/

theorem pow2_eq (k : Int) : pow2 k = (2 : ℚ) ^ k := by
  unfold pow2
  by_cases h : 0 ≤ k
  · rw [if_pos h]
    obtain ⟨n, rfl⟩ := Int.eq_ofNat_of_zero_le h
    simp
  · rw [if_neg h]
    obtain ⟨n, hn⟩ := Int.eq_ofNat_of_zero_le (show 0 ≤ -k by omega)
    have hk : k = -(n : Int) := by omega
    subst hk
    simp

theorem pow2_pos (k : Int) : 0 < pow2 k := by
  rw [pow2_eq]
  exact zpow_pos (by norm_num) k

theorem pow2_lt {a b : Int} : pow2 a < pow2 b ↔ a < b := by
  rw [pow2_eq, pow2_eq]
  exact zpow_lt_zpow_iff_right₀ (by norm_num)

theorem pow2_le {a b : Int} : pow2 a ≤ pow2 b ↔ a ≤ b := by
  rw [pow2_eq, pow2_eq]
  exact zpow_le_zpow_iff_right₀ (by norm_num)

theorem pow2_add (a b : Int) : pow2 (a + b) = pow2 a * pow2 b := by
  rw [pow2_eq, pow2_eq, pow2_eq]
  exact zpow_add₀ (by norm_num) a b

theorem pow2_natCast (n : Nat) : pow2 (n : Int) = (((2 : Int) ^ n : Int) : ℚ) := by
  rw [pow2_eq]
  simp

theorem bit_length_zero (fuel : Nat) : bit_length fuel 0 = 0 := by
  cases fuel <;> simp [bit_length]

/-- With enough fuel, `bit_length` is the number of binary digits. -/
theorem bit_length_spec (fuel n : Nat) (h : n ≤ fuel) (hn : 0 < n) :
    2 ^ bit_length fuel n ≤ 2 * n ∧ n < 2 ^ bit_length fuel n := by
  induction fuel generalizing n with
  | zero => omega
  | succ fuel ih =>
    unfold bit_length
    rw [if_neg (by omega)]
    by_cases h2 : n / 2 = 0
    · rw [h2, bit_length_zero]
      have : n = 1 := by omega
      subst this
      simp
    · obtain ⟨h3, h4⟩ := ih (n / 2) (by omega) (by omega)
      rw [pow_succ]
      constructor <;> omega

/-- The exponent found is the binary exponent. -/
theorem exponent_spec (q : ℚ) (hq : q ≠ 0) :
    pow2 (exponent q) ≤ |q| ∧ |q| < pow2 (exponent q + 1) := by
  have hnum : 0 < q.num.natAbs := Int.natAbs_pos.mpr (Rat.num_ne_zero.mpr hq)
  have hden : 0 < q.den := q.den_pos
  obtain ⟨ha1, ha2⟩ := bit_length_spec q.num.natAbs q.num.natAbs (le_refl _) hnum
  obtain ⟨hb1, hb2⟩ := bit_length_spec q.den q.den (le_refl _) hden
  have habs : |q| = (q.num.natAbs : ℚ) / (q.den : ℚ) := by
    rw [Nat.cast_natAbs, Int.cast_abs, ← Nat.abs_cast q.den, ← abs_div, Rat.num_div_den]
  have ha0 : (0 : ℚ) < (q.num.natAbs : ℚ) := by exact_mod_cast hnum
  have hb0 : (0 : ℚ) < (q.den : ℚ) := by exact_mod_cast hden
  have hA1 : (2 : ℚ) ^ bit_length q.num.natAbs q.num.natAbs ≤ 2 * (q.num.natAbs : ℚ) := by
    exact_mod_cast ha1
  have hA2 : (q.num.natAbs : ℚ) < (2 : ℚ) ^ bit_length q.num.natAbs q.num.natAbs := by
    exact_mod_cast ha2
  have hB1 : (2 : ℚ) ^ bit_length q.den q.den ≤ 2 * (q.den : ℚ) := by exact_mod_cast hb1
  have hB2 : (q.den : ℚ) < (2 : ℚ) ^ bit_length q.den q.den := by exact_mod_cast hb2
  have hApos : (0 : ℚ) < (2 : ℚ) ^ bit_length q.num.natAbs q.num.natAbs := by positivity
  have hBpos : (0 : ℚ) < (2 : ℚ) ^ bit_length q.den q.den := by positivity
  have hk : pow2 (exponent_bound q) =
      (2 : ℚ) ^ bit_length q.num.natAbs q.num.natAbs / (2 : ℚ) ^ bit_length q.den q.den := by
    unfold exponent_bound
    rw [pow2_eq, zpow_sub₀ (by norm_num), zpow_natCast, zpow_natCast]
  have hup : |q| < pow2 (exponent_bound q + 1) := by
    rw [pow2_add, hk, habs, show pow2 1 = 2 by rw [pow2_eq]; norm_num, div_mul_eq_mul_div,
      div_lt_div_iff₀ hb0 hBpos]
    nlinarith
  have hlow : pow2 (exponent_bound q - 1) < |q| := by
    have h1 : pow2 (exponent_bound q - 1) * pow2 1 = pow2 (exponent_bound q) := by
      rw [← pow2_add]; congr 1; ring
    rw [show pow2 1 = 2 by rw [pow2_eq]; norm_num, hk] at h1
    have h2 : pow2 (exponent_bound q - 1) =
        (2 : ℚ) ^ bit_length q.num.natAbs q.num.natAbs /
          (2 * (2 : ℚ) ^ bit_length q.den q.den) := by
      rw [eq_div_iff (by positivity)]
      rw [eq_div_iff (ne_of_gt hBpos)] at h1
      linarith
    rw [h2, habs, div_lt_div_iff₀ (by positivity) hb0]
    nlinarith
  unfold exponent
  by_cases hc : pow2 (exponent_bound q) ≤ |q|
  · rw [if_pos hc]
    exact ⟨hc, hup⟩
  · rw [if_neg hc]
    refine ⟨le_of_lt hlow, ?_⟩
    rw [show exponent_bound q - 1 + 1 = exponent_bound q by ring]
    exact not_le.mp hc

theorem exponent_le {q : ℚ} (hq : q ≠ 0) {e : Int} (h : |q| < pow2 (e + 1)) :
    exponent q ≤ e := by
  by_contra hcon
  have h1 : pow2 (e + 1) ≤ pow2 (exponent q) := pow2_le.mpr (by omega)
  have h2 := (exponent_spec q hq).1
  linarith

theorem le_exponent {q : ℚ} (hq : q ≠ 0) {e : Int} (h : pow2 e ≤ |q|) : e ≤ exponent q := by
  by_contra hcon
  have h1 : pow2 (exponent q + 1) ≤ pow2 e := pow2_le.mpr (by omega)
  have h2 := (exponent_spec q hq).2
  linarith

theorem exponent_neg (q : ℚ) : exponent (-q) = exponent q := by
  unfold exponent exponent_bound
  rw [Rat.neg_num, Int.natAbs_neg, Rat.neg_den, abs_neg]

theorem round_even_cases (x : ℚ) :
    (round_even x = ⌊x⌋ ∧ x - (⌊x⌋ : ℚ) ≤ 1 / 2) ∨
    (round_even x = ⌊x⌋ + 1 ∧ 1 / 2 ≤ x - (⌊x⌋ : ℚ)) := by
  unfold round_even
  by_cases h1 : x - (⌊x⌋ : ℚ) < 1 / 2
  · rw [if_pos h1]; exact Or.inl ⟨rfl, le_of_lt h1⟩
  · rw [if_neg h1]
    by_cases h2 : 1 / 2 < x - (⌊x⌋ : ℚ)
    · rw [if_pos h2]; exact Or.inr ⟨rfl, le_of_lt h2⟩
    · rw [if_neg h2]
      have h3 : x - (⌊x⌋ : ℚ) = 1 / 2 := le_antisymm (not_lt.mp h2) (not_lt.mp h1)
      by_cases h4 : ⌊x⌋ % 2 = 0
      · rw [if_pos h4]; exact Or.inl ⟨rfl, le_of_eq h3⟩
      · rw [if_neg h4]; exact Or.inr ⟨rfl, le_of_eq h3.symm⟩

theorem round_even_near (x : ℚ) :
    (round_even x : ℚ) ≤ x + 1 / 2 ∧ x - 1 / 2 ≤ (round_even x : ℚ) := by
  have h1 := Int.floor_le x
  have h2 := Int.lt_floor_add_one x
  rcases round_even_cases x with ⟨h, h3⟩ | ⟨h, h3⟩
  · rw [h]; constructor <;> linarith
  · rw [h]; push_cast; constructor <;> linarith

theorem round_even_intCast (n : Int) : round_even (n : ℚ) = n := by
  unfold round_even
  rw [Int.floor_intCast, if_pos (by norm_num)]

theorem round_even_nonneg {x : ℚ} (h : 0 ≤ x) : 0 ≤ round_even x := by
  have h1 := (round_even_near x).2
  have h2 : (-1 : ℚ) < (round_even x : ℚ) := by linarith
  have h3 : (-1 : Int) < round_even x := by exact_mod_cast h2
  omega

theorem round_even_neg (x : ℚ) : round_even (-x) = -round_even x := by
  have hfl := Int.floor_le x
  have hlt := Int.lt_floor_add_one x
  by_cases hint : (⌊x⌋ : ℚ) = x
  · rw [← hint, ← Int.cast_neg, round_even_intCast, round_even_intCast]
  · have hpos : 0 < x - (⌊x⌋ : ℚ) := by
      rcases lt_or_eq_of_le hfl with h | h
      · linarith
      · exact absurd h hint
    have hfloor : ⌊-x⌋ = -⌊x⌋ - 1 := by
      rw [Int.floor_eq_iff]
      push_cast
      constructor <;> linarith
    unfold round_even
    rw [hfloor]
    push_cast
    by_cases h1 : x - (⌊x⌋ : ℚ) < 1 / 2
    · rw [if_pos h1, if_neg (by linarith), if_pos (by linarith)]
      ring
    · rw [if_neg h1]
      by_cases h2 : 1 / 2 < x - (⌊x⌋ : ℚ)
      · rw [if_pos h2, if_pos (by linarith)]
        ring
      · rw [if_neg h2]
        have h3 : x - (⌊x⌋ : ℚ) = 1 / 2 := le_antisymm (not_lt.mp h2) (not_lt.mp h1)
        rw [if_neg (by linarith), if_neg (by linarith)]
        by_cases h4 : ⌊x⌋ % 2 = 0
        · rw [if_pos h4, if_neg (by omega)]
          ring
        · rw [if_neg h4, if_pos (by omega)]
          ring

theorem ulp_pos (p : Nat) (emin : Int) (q : ℚ) : 0 < ulp p emin q := pow2_pos _

theorem ulp_neg (p : Nat) (emin : Int) (q : ℚ) : ulp p emin (-q) = ulp p emin q := by
  unfold ulp
  rw [exponent_neg]

theorem nearest_neg (p : Nat) (emin : Int) (q : ℚ) : nearest p emin (-q) = -nearest p emin q := by
  unfold nearest
  rw [ulp_neg, neg_div, round_even_neg]
  push_cast
  ring

theorem round_binary_zero (p : Nat) (emin emax : Int) : round_binary p emin emax 0 = 0 := by
  unfold round_binary
  rw [if_pos rfl]

theorem round_binary_neg (p : Nat) (emin emax : Int) (q : ℚ) :
    round_binary p emin emax (-q) = -round_binary p emin emax q := by
  unfold round_binary
  by_cases hq : q = 0
  · subst hq; simp
  · rw [if_neg hq, if_neg (neg_ne_zero.mpr hq), nearest_neg, abs_neg]
    by_cases hov : pow2 (emax + 1) ≤ |nearest p emin q|
    · rw [if_pos hov, if_pos hov]
      rcases lt_or_gt_of_ne hq with h | h
      · rw [if_pos (by linarith), if_neg (by linarith)]
        ring
      · rw [if_neg (by linarith), if_pos h]
    · rw [if_neg hov, if_neg hov]

theorem nearest_nonneg (p : Nat) (emin : Int) {q : ℚ} (h : 0 ≤ q) : 0 ≤ nearest p emin q := by
  unfold nearest
  have h1 : 0 ≤ round_even (q / ulp p emin q) :=
    round_even_nonneg (div_nonneg h (le_of_lt (ulp_pos p emin q)))
  have h2 : (0 : ℚ) ≤ (round_even (q / ulp p emin q) : ℚ) := by exact_mod_cast h1
  exact mul_nonneg h2 (le_of_lt (ulp_pos p emin q))

theorem round_binary_nonneg (p : Nat) (emin emax : Int) {q : ℚ} (h : 0 ≤ q) :
    0 ≤ round_binary p emin emax q := by
  unfold round_binary
  by_cases hq : q = 0
  · rw [if_pos hq]
  · rw [if_neg hq]
    have hpos : 0 < q := lt_of_le_of_ne h (Ne.symm hq)
    by_cases hov : pow2 (emax + 1) ≤ |nearest p emin q|
    · rw [if_pos hov, if_pos hpos]
      exact le_of_lt (pow2_pos _)
    · rw [if_neg hov]
      exact nearest_nonneg p emin h

theorem nearest_of_multiple (p : Nat) (emin : Int) (q : ℚ) (z : Int)
    (h : q = (z : ℚ) * ulp p emin q) : nearest p emin q = q := by
  have hu := ulp_pos p emin q
  have hz : q / ulp p emin q = (z : ℚ) := by
    rw [div_eq_iff (ne_of_gt hu)]
    exact h
  unfold nearest
  rw [hz, round_even_intCast]
  exact h.symm

/-- A number with at most `p` significant bits and an exponent that is not
below `emin` is a multiple of the spacing around it, so it rounds to itself. -/
theorem nearest_fixed (p : Nat) (emin : Int) (hp : 1 ≤ p) (n e : Int) (he : emin ≤ e)
    (hn : n ≠ 0) (hle : |n| ≤ 2 ^ p) :
    nearest p emin ((n : ℚ) * pow2 (e - ((p : Int) - 1))) =
      (n : ℚ) * pow2 (e - ((p : Int) - 1)) := by
  have hc := pow2_pos (e - ((p : Int) - 1))
  have hn0 : (n : ℚ) ≠ 0 := by exact_mod_cast hn
  have hr0 : (n : ℚ) * pow2 (e - ((p : Int) - 1)) ≠ 0 := mul_ne_zero hn0 (ne_of_gt hc)
  have habs : |(n : ℚ) * pow2 (e - ((p : Int) - 1))| =
      |(n : ℚ)| * pow2 (e - ((p : Int) - 1)) := by
    rw [abs_mul, abs_of_pos hc]
  have hnq : |(n : ℚ)| ≤ pow2 (p : Int) := by
    rw [pow2_natCast, ← Int.cast_abs]
    exact_mod_cast hle
  have hsplit : pow2 (e + 1) = pow2 (p : Int) * pow2 (e - ((p : Int) - 1)) := by
    rw [← pow2_add]; congr 1; ring
  have hupper : |(n : ℚ) * pow2 (e - ((p : Int) - 1))| ≤ pow2 (e + 1) := by
    rw [habs, hsplit]
    exact mul_le_mul_of_nonneg_right hnq (le_of_lt hc)
  have her : exponent ((n : ℚ) * pow2 (e - ((p : Int) - 1))) ≤ e + 1 :=
    exponent_le hr0 (lt_of_le_of_lt hupper (pow2_lt.mpr (by omega)))
  by_cases hE : max (exponent ((n : ℚ) * pow2 (e - ((p : Int) - 1)))) emin ≤ e
  · obtain ⟨k, hk⟩ := Int.eq_ofNat_of_zero_le
      (show 0 ≤ e - max (exponent ((n : ℚ) * pow2 (e - ((p : Int) - 1)))) emin by omega)
    apply nearest_of_multiple p emin _ (n * 2 ^ k)
    unfold ulp
    have h1 : pow2 (e - ((p : Int) - 1)) = pow2 (k : Int) *
        pow2 (max (exponent ((n : ℚ) * pow2 (e - ((p : Int) - 1)))) emin - ((p : Int) - 1)) := by
      rw [← pow2_add]; congr 1; omega
    rw [pow2_natCast] at h1
    conv_lhs => rw [h1]
    push_cast
    ring
  · have her2 : exponent ((n : ℚ) * pow2 (e - ((p : Int) - 1))) = e + 1 := by
      have : e < max (exponent ((n : ℚ) * pow2 (e - ((p : Int) - 1)))) emin := not_le.mp hE
      rcases lt_max_iff.mp this with h | h
      · omega
      · omega
    have hlow := (exponent_spec _ hr0).1
    rw [her2] at hlow
    have heq : |(n : ℚ)| * pow2 (e - ((p : Int) - 1)) =
        pow2 (p : Int) * pow2 (e - ((p : Int) - 1)) := by
      rw [← habs, ← hsplit]
      exact le_antisymm hupper hlow
    have hnabs : |(n : ℚ)| = pow2 (p : Int) := mul_right_cancel₀ (ne_of_gt hc) heq
    obtain ⟨j, hj⟩ : ∃ j : Nat, p = j + 1 := ⟨p - 1, by omega⟩
    have hu : ulp p emin ((n : ℚ) * pow2 (e - ((p : Int) - 1))) =
        2 * pow2 (e - ((p : Int) - 1)) := by
      unfold ulp
      rw [her2, max_eq_left (by omega),
        show e + 1 - ((p : Int) - 1) = 1 + (e - ((p : Int) - 1)) by ring, pow2_add,
        show pow2 1 = 2 by rw [pow2_eq]; norm_num]
    have hp2 : pow2 (p : Int) = 2 * (((2 : Int) ^ j : Int) : ℚ) := by
      rw [pow2_natCast, hj]
      push_cast
      ring
    rcases abs_choice (n : ℚ) with h | h
    · apply nearest_of_multiple p emin _ (2 ^ j)
      rw [hu, ← h, hnabs, hp2]
      ring
    · apply nearest_of_multiple p emin _ (-(2 ^ j))
      have hneg : (n : ℚ) = -pow2 (p : Int) := by
        rw [← hnabs, h]; ring
      rw [hu, hneg, hp2]
      push_cast
      ring

/-- The rounded value has at most `p` significant bits. -/
theorem round_even_le_pow (p : Nat) (emin : Int) (q : ℚ) (hq : q ≠ 0) :
    |round_even (q / ulp p emin q)| ≤ 2 ^ p := by
  have hu := ulp_pos p emin q
  have hspec := (exponent_spec q hq).2
  have hmax : exponent q + 1 ≤ max (exponent q) emin + 1 := by
    have := le_max_left (exponent q) emin
    omega
  have h1 : |q| < pow2 (max (exponent q) emin + 1) :=
    lt_of_lt_of_le hspec (pow2_le.mpr hmax)
  have hsplit : pow2 (max (exponent q) emin + 1) = pow2 (p : Int) * ulp p emin q := by
    unfold ulp
    rw [← pow2_add]; congr 1; ring
  have h2 : |q / ulp p emin q| < pow2 (p : Int) := by
    rw [abs_div, abs_of_pos hu, div_lt_iff₀ hu, ← hsplit]
    exact h1
  rw [pow2_natCast] at h2
  obtain ⟨h3, h4⟩ := round_even_near (q / ulp p emin q)
  have h5 := abs_lt.mp h2
  push_cast at h5
  have h6 : (round_even (q / ulp p emin q) : ℚ) < (((2 : Int) ^ p + 1 : Int) : ℚ) := by
    push_cast; linarith [h5.2]
  have h7 : ((-(2 : Int) ^ p - 1 : Int) : ℚ) < (round_even (q / ulp p emin q) : ℚ) := by
    push_cast; linarith [h5.1]
  have h8 : round_even (q / ulp p emin q) < 2 ^ p + 1 := by exact_mod_cast h6
  have h9 : -(2 : Int) ^ p - 1 < round_even (q / ulp p emin q) := by exact_mod_cast h7
  rw [abs_le]
  constructor <;> omega

/-- Rounding leaves a rounded number as it is. -/
theorem round_binary_idem (p : Nat) (emin emax : Int) (hp : 1 ≤ p) (he : emin ≤ emax)
    (q : ℚ) :
    round_binary p emin emax (round_binary p emin emax q) = round_binary p emin emax q := by
  by_cases hq : q = 0
  · subst hq
    rw [round_binary_zero, round_binary_zero]
  · have hP := pow2_pos (emax + 1)
    obtain ⟨j, hj⟩ : ∃ j : Nat, p = j + 1 := ⟨p - 1, by omega⟩
    have hbig : ∀ s : Int, (s = 1 ∨ s = -1) →
        round_binary p emin emax ((s : ℚ) * pow2 (emax + 1)) = (s : ℚ) * pow2 (emax + 1) := by
      intro s hs
      have hform : (s : ℚ) * pow2 (emax + 1) =
          ((s * 2 ^ j : Int) : ℚ) * pow2 (emax + 1 - ((p : Int) - 1)) := by
        have : pow2 (emax + 1) = pow2 (j : Int) * pow2 (emax + 1 - ((p : Int) - 1)) := by
          rw [← pow2_add]; congr 1; omega
        rw [this, pow2_natCast]
        push_cast
        ring
      have hs0 : (s : ℚ) ≠ 0 := by
        rcases hs with rfl | rfl <;> norm_num
      have hne : (s : ℚ) * pow2 (emax + 1) ≠ 0 := mul_ne_zero hs0 (ne_of_gt hP)
      have hfix : nearest p emin ((s : ℚ) * pow2 (emax + 1)) = (s : ℚ) * pow2 (emax + 1) := by
        rw [hform]
        apply nearest_fixed p emin hp _ _ (by omega)
        · rcases hs with rfl | rfl <;> simp
        · have h2 : (2 : Int) ^ j ≤ 2 ^ p := by
            rw [hj, pow_succ]
            have : (0 : Int) < 2 ^ j := by positivity
            omega
          rcases hs with rfl | rfl
          · rw [one_mul, abs_of_pos (by positivity)]; exact h2
          · rw [neg_one_mul, abs_neg, abs_of_pos (by positivity)]; exact h2
      unfold round_binary
      rw [if_neg hne, hfix]
      have habs : |(s : ℚ) * pow2 (emax + 1)| = pow2 (emax + 1) := by
        rw [abs_mul, abs_of_pos hP]
        rcases hs with rfl | rfl <;> simp
      rw [if_pos (le_of_eq habs.symm)]
      rcases hs with rfl | rfl
      · rw [if_pos (by simpa using hP)]; simp
      · rw [if_neg (by simp; exact le_of_lt hP)]; simp
    have hstep : round_binary p emin emax q =
        if pow2 (emax + 1) ≤ |nearest p emin q| then
          (if 0 < q then pow2 (emax + 1) else -pow2 (emax + 1))
        else nearest p emin q := by
      unfold round_binary
      rw [if_neg hq]
    rw [hstep]
    by_cases hov : pow2 (emax + 1) ≤ |nearest p emin q|
    · rw [if_pos hov]
      by_cases hpos : 0 < q
      · rw [if_pos hpos]
        simpa using hbig 1 (Or.inl rfl)
      · rw [if_neg hpos]
        simpa using hbig (-1) (Or.inr rfl)
    · rw [if_neg hov]
      by_cases hn : round_even (q / ulp p emin q) = 0
      · have : nearest p emin q = 0 := by
          unfold nearest; rw [hn]; simp
        rw [this, round_binary_zero]
      · have hfix : nearest p emin (nearest p emin q) = nearest p emin q := by
          unfold nearest ulp
          exact nearest_fixed p emin hp _ _ (le_max_right _ _) hn
            (round_even_le_pow p emin q hq)
        have hne : nearest p emin q ≠ 0 := by
          unfold nearest
          exact mul_ne_zero (by exact_mod_cast hn) (ne_of_gt (ulp_pos p emin q))
        unfold round_binary
        rw [if_neg hne, hfix, if_neg hov]

theorem unrounded_lawful : unrounded.Lawful :=
  ⟨rfl, rfl, fun _ => rfl, fun _ h => h, fun _ => rfl⟩

/-- IEEE rounding to `float` has the properties the proofs rely on. -/
theorem ieee_lawful : ieee.Lawful :=
  ⟨round_binary_zero 24 (-126) 127, by with_unfolding_all rfl,
    round_binary_neg 24 (-126) 127, fun _ h => round_binary_nonneg 24 (-126) 127 h,
    round_binary_idem 24 (-126) 127 (by decide) (by decide)⟩

/-! ## Loop combinators -/

theorem at?_eq_ok {α : Type} {v : List α} {i : Nat} {x : α} :
    at? v i = .ok x ↔ v[i]? = some x := by
  unfold at?
  cases h : v[i]? <;> simp

theorem mapE_eq_ok {α β : Type} {f : α → Except Fault β} {l : List α} {r : List β} :
    mapE f l = .ok r ↔ List.Forall₂ (fun a b => f a = .ok b) l r := by
  induction l generalizing r with
  | nil =>
    cases r <;> simp [mapE]
  | cons a as ih =>
    unfold mapE
    cases hfa : f a with
    | error e => 
      simp only []
      constructor
      · intro h; cases h
      · intro h; cases h with | cons h1 _ => rw [hfa] at h1; cases h1
    | ok b =>
      cases hm : mapE f as with
      | error e =>
        simp only []
        constructor
        · intro h; cases h
        · intro h
          cases h with
          | cons h1 h2 => 
            have := ih.mpr h2
            rw [hm] at this; cases this
      | ok bs =>
        simp only []
        constructor
        · intro h
          cases h
          exact List.Forall₂.cons hfa (ih.mp hm)
        · intro h
          cases h with
          | cons h1 h2 =>
            have h3 := ih.mpr h2
            rw [hm] at h3; rw [hfa] at h1
            cases h1; cases h3; rfl

theorem bind_eq_ok {α β : Type} (x : Except Fault α) (f : α → Except Fault β) (r : β) :
    (x >>= f) = .ok r ↔ ∃ a, x = .ok a ∧ f a = .ok r := by
  cases x <;> simp [bind, Except.bind]

theorem pure_eq_ok {α : Type} (a r : α) : (pure a : Except Fault α) = .ok r ↔ a = r := by
  simp [pure, Except.pure]

theorem foldE_append {α σ : Type} (f : σ → α → Except Fault σ) (s : σ) (l1 l2 : List α) :
    foldE f s (l1 ++ l2) =
      match foldE f s l1 with
      | .error e => .error e
      | .ok s1 => foldE f s1 l2 := by
  induction l1 generalizing s with
  | nil => simp [foldE]
  | cons a as ih =>
    simp only [List.cons_append, foldE]
    cases f s a with
    | error e => rfl
    | ok s1 => exact ih s1

/-- Invariant rule for a counting loop `for (i = 0; i < n; ++i)`: the
invariant may mention the number of completed rounds. -/
theorem foldE_range_invariant {σ : Type} (f : σ → Nat → Except Fault σ) (P : Nat → σ → Prop)
    (n : Nat) (hstep : ∀ s i s1, i < n → P i s → f s i = .ok s1 → P (i + 1) s1)
    (s s1 : σ) (hs : P 0 s) (h : foldE f s (List.range n) = .ok s1) : P n s1 := by
  induction n generalizing s1 with
  | zero => simp [foldE] at h; cases h; exact hs
  | succ n ih =>
    rw [List.range_succ, foldE_append] at h
    cases hf : foldE f s (List.range n) with
    | error e => rw [hf] at h; cases h
    | ok s2 =>
      rw [hf] at h
      simp only [foldE] at h
      cases hfa : f s2 n with
      | error e => rw [hfa] at h; cases h
      | ok s3 =>
        rw [hfa] at h
        have h3 : s3 = s1 := by injection h
        rw [h3] at hfa
        exact hstep s2 n s1 (Nat.lt_succ_self n)
          (ih (fun s i s1 hi => hstep s i s1 (Nat.lt_succ_of_lt hi)) s2 hf) hfa

theorem mapE_length {α β : Type} {f : α → Except Fault β} {l : List α} {r : List β}
    (h : mapE f l = .ok r) : r.length = l.length :=
  (mapE_eq_ok.mp h).length_eq.symm

theorem mapE_getElem? {α β : Type} {f : α → Except Fault β} {l : List α} {r : List β}
    (h : mapE f l = .ok r) {i : Nat} {a : α} (ha : l[i]? = some a) :
    ∃ b, r[i]? = some b ∧ f a = .ok b := by
  have h2 := mapE_eq_ok.mp h
  induction h2 generalizing i with
  | nil => simp at ha
  | @cons a1 b1 l1 r1 hab _ ih =>
    cases i with
    | zero =>
      simp only [List.getElem?_cons_zero, Option.some.injEq] at ha
      subst ha
      exact ⟨b1, by simp, hab⟩
    | succ j =>
      simp only [List.getElem?_cons_succ] at ha ⊢
      unfold mapE at h
      rw [hab] at h
      cases hm : mapE f l1 with
      | error e => rw [hm] at h; cases h
      | ok bs =>
        rw [hm] at h
        have : bs = r1 := by injection h with h; injection h
        exact ih (this ▸ hm) ha

theorem mapE_range {β : Type} {f : Nat → Except Fault β} {n : Nat} {r : List β}
    (h : mapE f (List.range n) = .ok r) :
    r.length = n ∧ ∀ i, i < n → ∃ b, r[i]? = some b ∧ f i = .ok b := by
  refine ⟨by simpa using mapE_length h, fun i hi => ?_⟩
  exact mapE_getElem? h (by simp [hi])

theorem mapE_mem {α β : Type} {f : α → Except Fault β} {l : List α} {r : List β}
    (h : mapE f l = .ok r) {b : β} (hb : b ∈ r) : ∃ a, a ∈ l ∧ f a = .ok b := by
  have h2 := mapE_eq_ok.mp h
  induction h2 with
  | nil => simp at hb
  | @cons a1 b1 l1 r1 hab hrest ih =>
    rcases List.mem_cons.mp hb with rfl | hb
    · exact ⟨a1, List.mem_cons_self _ _, hab⟩
    · obtain ⟨a, ha, hfa⟩ := ih (mapE_eq_ok.mpr hrest) hb
      exact ⟨a, List.mem_cons_of_mem _ ha, hfa⟩

/-- Success rule for a counting loop: a body that succeeds under the
invariant makes the loop succeed. -/
theorem foldE_range_total {σ : Type} (f : σ → Nat → Except Fault σ) (P : Nat → σ → Prop)
    (n : Nat) (hstep : ∀ s i, i < n → P i s → ∃ s1, f s i = .ok s1 ∧ P (i + 1) s1)
    (s : σ) (hs : P 0 s) : ∃ s1, foldE f s (List.range n) = .ok s1 ∧ P n s1 := by
  induction n with
  | zero => exact ⟨s, rfl, hs⟩
  | succ n ih =>
    obtain ⟨s2, hf, hP⟩ := ih (fun s i hi => hstep s i (Nat.lt_succ_of_lt hi))
    obtain ⟨s3, hf3, hP3⟩ := hstep s2 n (Nat.lt_succ_self n) hP
    refine ⟨s3, ?_, hP3⟩
    rw [List.range_succ, foldE_append, hf]
    simp only [foldE, hf3]

theorem foldE_range_returns {σ : Type} (f : σ → Nat → Except Fault σ) (P : Nat → σ → Prop)
    (n : Nat) (s : σ) (hs : P 0 s)
    (hstep : ∀ s i, i < n → P i s → ∃ s1, f s i = .ok s1 ∧ P (i + 1) s1) :
    ∃ s1, foldE f s (List.range n) = .ok s1 := by
  obtain ⟨s1, h, -⟩ := foldE_range_total f P n hstep s hs
  exact ⟨s1, h⟩

/-- Success rule for a loop over a list. -/
theorem foldE_total {α σ : Type} (f : σ → α → Except Fault σ) (P : σ → Prop) (l : List α)
    (hstep : ∀ s a, a ∈ l → P s → ∃ s1, f s a = .ok s1 ∧ P s1)
    (s : σ) (hs : P s) : ∃ s1, foldE f s l = .ok s1 ∧ P s1 := by
  induction l generalizing s with
  | nil => exact ⟨s, rfl, hs⟩
  | cons a as ih =>
    obtain ⟨s2, hf, hP⟩ := hstep s a (List.mem_cons_self _ _) hs
    obtain ⟨s3, hf3, hP3⟩ := ih (fun s a ha => hstep s a (List.mem_cons_of_mem _ ha)) s2 hP
    exact ⟨s3, by simp only [foldE, hf, hf3], hP3⟩

theorem foldE_returns {α σ : Type} (f : σ → α → Except Fault σ) (P : σ → Prop) (l : List α)
    (s : σ) (hs : P s) (hstep : ∀ s a, a ∈ l → P s → ∃ s1, f s a = .ok s1 ∧ P s1) :
    ∃ s1, foldE f s l = .ok s1 := by
  obtain ⟨s1, h, -⟩ := foldE_total f P l hstep s hs
  exact ⟨s1, h⟩

/-! ## The constructor and its distance matrices -/

theorem L2_fold_comm {A : Arith} (hA : A.Lawful) (v w : List ℚ) (acc : ℚ) :
    (List.zip v w).foldl
      (fun dist p => A.f32 (dist + A.f32 (A.f32 (p.1 - p.2) * A.f32 (p.1 - p.2)))) acc =
    (List.zip w v).foldl
      (fun dist p => A.f32 (dist + A.f32 (A.f32 (p.1 - p.2) * A.f32 (p.1 - p.2)))) acc := by
  induction v generalizing w acc with
  | nil => cases w <;> simp
  | cons a v ih =>
    cases w with
    | nil => simp
    | cons b w =>
      simp only [List.zip_cons_cons, List.foldl_cons]
      rw [ih]
      have hneg : A.f32 (b - a) = -A.f32 (a - b) := by
        rw [← hA.neg]; congr 1; ring
      rw [hneg, neg_mul_neg]

theorem L2_fold_self {A : Arith} (hA : A.Lawful) (v : List ℚ) :
    (List.zip v v).foldl
      (fun dist p => A.f32 (dist + A.f32 (A.f32 (p.1 - p.2) * A.f32 (p.1 - p.2)))) 0 = 0 := by
  induction v with
  | nil => simp
  | cons a v ih =>
    simp only [List.zip_cons_cons, List.foldl_cons, sub_self]
    rw [hA.zero, mul_zero, hA.zero, add_zero, hA.zero]
    exact ih

/-- The squared distance does not depend on the order of its arguments. -/
theorem L2SquaredDistance_comm {A : Arith} (hA : A.Lawful) {v w : List ℚ} {d : ℚ}
    (h : L2SquaredDistance A v w = .ok d) : L2SquaredDistance A w v = .ok d := by
  unfold L2SquaredDistance at h ⊢
  by_cases hl : v.length = w.length
  · rw [if_pos hl] at h
    rw [if_pos hl.symm, L2_fold_comm hA w v]
    exact h
  · rw [if_neg hl] at h; cases h

/-- The squared distance of a vector to itself is zero. -/
theorem L2SquaredDistance_self {A : Arith} (hA : A.Lawful) (v : List ℚ) :
    L2SquaredDistance A v v = .ok 0 := by
  unfold L2SquaredDistance
  rw [if_pos rfl, L2_fold_self hA]

/-- What a successful run of the triple loop stores at `[m][k1][k2]`. -/
theorem build_distance_matrices_at {A : Arith} {cw : List (List (List ℚ))} {M Ks : Nat}
    {table : List (List (List ℚ))} (h : build_distance_matrices A cw M Ks = .ok table)
    {m k1 k2 : Nat} (hm : m < M) (h1 : k1 < Ks) (h2 : k2 < Ks) :
    ∃ sub v1 v2 t row d, cw[m]? = some sub ∧ sub[k1]? = some v1 ∧ sub[k2]? = some v2 ∧
      L2SquaredDistance A v1 v2 = .ok d ∧
      table[m]? = some t ∧ t[k1]? = some row ∧ row[k2]? = some d := by
  unfold build_distance_matrices at h
  obtain ⟨t, ht, hft⟩ := (mapE_range h).2 m hm
  obtain ⟨row, hrow, hfrow⟩ := (mapE_range hft).2 k1 h1
  obtain ⟨d, hd, hfd⟩ := (mapE_range hfrow).2 k2 h2
  simp only [bind_eq_ok] at hfd
  obtain ⟨sub, hsub, v1, hv1, v2, hv2, hL⟩ := hfd
  exact ⟨sub, v1, v2, t, row, d, at?_eq_ok.mp hsub, at?_eq_ok.mp hv1,
    at?_eq_ok.mp hv2, hL, ht, hrow, hd⟩

/-- The shape of the matrices after a successful run of the triple loop. -/
theorem build_distance_matrices_shape {A : Arith} {cw : List (List (List ℚ))} {M Ks : Nat}
    {table : List (List (List ℚ))} (h : build_distance_matrices A cw M Ks = .ok table) :
    table.length = M ∧ ∀ t ∈ table, t.length = Ks ∧ ∀ row ∈ t, row.length = Ks := by
  unfold build_distance_matrices at h
  refine ⟨(mapE_range h).1, fun t ht => ?_⟩
  obtain ⟨m, _, hft⟩ := mapE_mem h ht
  refine ⟨(mapE_range hft).1, fun row hrow => ?_⟩
  obtain ⟨k1, _, hfrow⟩ := mapE_mem hft hrow
  exact (mapE_range hfrow).1

/-- Inversion of a successful construction. -/
theorem ctor_ok_inv {A : Arith} {cw : List (List (List ℚ))} {K itr : Int} {self : PQKmeans}
    (h : PQKmeans.ctor A cw K itr = .ok self) :
    self.codewords_ = cw ∧ self.K_ = K ∧ self.itr_ = itr ∧ self.centroids = [] ∧
      self.assignments = [] ∧ self.WellFormed A ∧
      ∃ c00 cs0 rest, cw = (c00 :: cs0) :: rest ∧ c00 ≠ [] ∧ (c00 :: cs0).length = c00.length := by
  unfold PQKmeans.ctor at h
  split at h
  · cases h
  · cases h
  · cases h
  · rename_i c00 cs0 rest hne
    simp only [] at h
    split at h
    · cases h
    · rename_i hdim
      split at h
      · cases h
      · rename_i h256
        simp only [bind_eq_ok, pure_eq_ok] at h
        obtain ⟨table, htable, h⟩ := h
        · subst h
          refine ⟨rfl, rfl, rfl, rfl, rfl, ⟨rfl, ?_, ?_, ?_⟩, c00, cs0, rest, rfl, ?_, ?_⟩
          · simp [PQKmeans.Ks]
          · simp only [PQKmeans.Ks]; omega
          · simpa [PQKmeans.Ks] using htable
          · intro hc; exact hne hc
          · simpa using hdim

theorem table_at_eq_ok {self : PQKmeans} {m k1 k2 : Nat} {d : ℚ} :
    self.table_at m k1 k2 = .ok d ↔
      ∃ t row, self.distance_matrices_among_codewords_[m]? = some t ∧ t[k1]? = some row ∧
        row[k2]? = some d := by
  unfold PQKmeans.table_at
  simp only [bind_eq_ok, at?_eq_ok]
  constructor
  · rintro ⟨t, ht, row, hrow, hd⟩; exact ⟨t, row, ht, hrow, hd⟩
  · rintro ⟨t, row, ht, hrow, hd⟩; exact ⟨t, ht, row, hrow, hd⟩

/-- In a well-formed object the entry `[m][k1][k2]` of the distance matrices
is the squared distance of the two codewords. -/
theorem PQKmeans.WellFormed.table_at_ok {A : Arith} {self : PQKmeans} (hw : self.WellFormed A) {m k1 k2 : Nat}
    (hm : m < self.M_) (h1 : k1 < self.Ks) (h2 : k2 < self.Ks) :
    ∃ sub v1 v2 d, self.codewords_[m]? = some sub ∧ sub[k1]? = some v1 ∧
      sub[k2]? = some v2 ∧ L2SquaredDistance A v1 v2 = .ok d ∧ self.table_at m k1 k2 = .ok d := by
  obtain ⟨sub, v1, v2, t, row, d, hsub, hv1, hv2, hL, ht, hrow, hd⟩ :=
    build_distance_matrices_at hw.table_ok hm h1 h2
  exact ⟨sub, v1, v2, d, hsub, hv1, hv2, hL, table_at_eq_ok.mpr ⟨t, row, ht, hrow, hd⟩⟩

/-- In a well-formed object a successful table lookup has both codeword
indices below `Ks`. -/
theorem PQKmeans.WellFormed.table_at_lt {A : Arith} {self : PQKmeans} (hw : self.WellFormed A) {m k1 k2 : Nat}
    {d : ℚ} (h : self.table_at m k1 k2 = .ok d) : m < self.M_ ∧ k1 < self.Ks ∧ k2 < self.Ks := by
  obtain ⟨t, row, ht, hrow, hd⟩ := table_at_eq_ok.mp h
  obtain ⟨hlen, hshape⟩ := build_distance_matrices_shape hw.table_ok
  have hm := (List.getElem?_eq_some_iff.mp ht)
  have h1 := (List.getElem?_eq_some_iff.mp hrow)
  have h2 := (List.getElem?_eq_some_iff.mp hd)
  have htm : t ∈ self.distance_matrices_among_codewords_ := List.mem_iff_getElem?.mpr ⟨_, ht⟩
  have hrm : row ∈ t := List.mem_iff_getElem?.mpr ⟨_, hrow⟩
  obtain ⟨ht1, ht2⟩ := hshape t htm
  refine ⟨hlen ▸ hm.1, ht1 ▸ h1.1, ?_⟩
  rw [← ht2 row hrm]; exact h2.1

theorem mapE_ok_of_forall {α β : Type} {f : α → Except Fault β} {l : List α}
    (h : ∀ a ∈ l, ∃ b, f a = .ok b) : ∃ r, mapE f l = .ok r := by
  induction l with
  | nil => exact ⟨[], rfl⟩
  | cons a as ih =>
    obtain ⟨b, hb⟩ := h a (List.mem_cons_self _ _)
    obtain ⟨bs, hbs⟩ := ih (fun x hx => h x (List.mem_cons_of_mem _ hx))
    exact ⟨b :: bs, by simp [mapE, hb, hbs]⟩

theorem build_distance_matrices_ok {A : Arith} {cw : List (List (List ℚ))} {M Ks : Nat}
    (h : ∀ m k1 k2, m < M → k1 < Ks → k2 < Ks →
      ∃ sub v1 v2, cw[m]? = some sub ∧ sub[k1]? = some v1 ∧ sub[k2]? = some v2 ∧
        v1.length = v2.length) :
    ∃ table, build_distance_matrices A cw M Ks = .ok table := by
  unfold build_distance_matrices
  refine mapE_ok_of_forall fun m hm => mapE_ok_of_forall fun k1 h1 =>
    mapE_ok_of_forall fun k2 h2 => ?_
  obtain ⟨sub, v1, v2, hsub, hv1, hv2, hlen⟩ :=
    h m k1 k2 (List.mem_range.mp hm) (List.mem_range.mp h1) (List.mem_range.mp h2)
  refine ⟨(List.zip v1 v2).foldl
    (fun dist p => A.f32 (dist + A.f32 (A.f32 (p.1 - p.2) * A.f32 (p.1 - p.2)))) 0, ?_⟩
  simp only [bind_eq_ok]
  refine ⟨sub, at?_eq_ok.mpr hsub, v1, at?_eq_ok.mpr hv1, v2, at?_eq_ok.mpr hv2, ?_⟩
  unfold L2SquaredDistance
  rw [if_pos hlen]

theorem ctor_assertion_cases {A : Arith} (cw : List (List (List ℚ))) (K itr : Int)
    (h : cw = [] ∨ cw.head? = some [] ∨ ∃ sub0, cw.head? = some sub0 ∧ 256 < sub0.length) :
    PQKmeans.ctor A cw K itr = .error .assertion := by
  unfold PQKmeans.ctor
  split
  · rfl
  · rfl
  · rfl
  · rename_i c00 cs0 rest hne
    rcases h with h | h | ⟨sub0, h, h256⟩
    · cases h
    · simp at h
    · simp only [List.head?_cons, Option.some.injEq] at h
      subst h
      simp only []
      by_cases hd : (c00 :: cs0).length ≠ c00.length
      · rw [if_pos hd]
      · rw [if_neg hd, if_pos h256]

theorem ctor_not_ok_of_empty_subspace {A : Arith} (cw : List (List (List ℚ))) (K itr : Int)
    (h : [] ∈ cw) (self : PQKmeans) : PQKmeans.ctor A cw K itr ≠ .ok self := by
  intro hc
  obtain ⟨hcw, -, -, -, -, hw, -⟩ := ctor_ok_inv hc
  obtain ⟨m, hm⟩ := List.mem_iff_getElem?.mp h
  have hmlt : m < self.M_ := by
    rw [hw.M_eq, hcw]; exact (List.getElem?_eq_some_iff.mp hm).1
  obtain ⟨sub, v1, v2, d, hsub, hv1, -⟩ := hw.table_at_ok hmlt hw.Ks_pos hw.Ks_pos
  rw [hcw, hm] at hsub
  cases hsub
  simp at hv1

theorem small_object_ctor : PQKmeans.ctor ieee small_codewords 2 3 = .ok small_object := by
  with_unfolding_all rfl

theorem toInt32_of_lt {n : Nat} (h : n < 2147483648) : toInt32 n = (n : Int) := by
  unfold toInt32
  omega

theorem refresh_congr {s1 s2 : PQKmeans} (hcw : s1.codewords_ = s2.codewords_)
    (hK : s1.K_ = s2.K_) (hitr : s1.itr_ = s2.itr_) (hM : s1.M_ = s2.M_)
    (htab : s1.distance_matrices_among_codewords_ = s2.distance_matrices_among_codewords_)
    (N : Nat) : s1.refresh N = s2.refresh N := by
  cases s1; cases s2
  simp only [PQKmeans.refresh] at *
  subst hcw hK hitr hM htab
  rfl

/-! ## Symmetric distance and nearest-centroid search -/

theorem tbl_of_ok {self : PQKmeans} {m a b : Nat} {d : ℚ} (h : self.table_at m a b = .ok d) :
    tbl self m a b = d := by
  unfold tbl; rw [h]

theorem getD_of_getElem? {α : Type} {l : List α} {i : Nat} {x d : α} (h : l[i]? = some x) :
    l.getD i d = x := by
  rw [List.getD_eq_getElem?_getD, h]; rfl

theorem fsum_concat (A : Arith) (l : List ℚ) (x : ℚ) :
    fsum A (l ++ [x]) = A.f32 (fsum A l + x) := by
  unfold fsum
  rw [List.foldl_append]
  rfl

theorem dsum_concat (A : Arith) (l : List ℚ) (x : ℚ) :
    dsum A (l ++ [x]) = A.f64 (dsum A l + x) := by
  unfold dsum
  rw [List.foldl_append]
  rfl

theorem foldl_add_eq (l : List ℚ) (acc : ℚ) :
    l.foldl (fun acc x => acc + x) acc = acc + l.sum := by
  induction l generalizing acc with
  | nil => simp
  | cons x l ih =>
    simp only [List.foldl_cons, List.sum_cons]
    rw [ih]
    ring

/-- Without rounding the `float` accumulation is the sum. -/
theorem fsum_unrounded (l : List ℚ) : fsum unrounded l = l.sum := by
  have h := foldl_add_eq l 0
  rw [zero_add] at h
  exact h

/-- Without rounding the `double` accumulation is the sum. -/
theorem dsum_unrounded (l : List ℚ) : dsum unrounded l = l.sum := by
  have h := foldl_add_eq l 0
  rw [zero_add] at h
  exact h

/-- A successful `SymmetricDistance` is the `float` accumulation of the table
entries, and every lookup it made was in range. -/
theorem SymmetricDistance_ok {A : Arith} {self : PQKmeans} {code1 code2 : Code} {d : ℚ}
    (h : SymmetricDistance A self code1 code2 = .ok d) :
    d = fsum A ((List.range self.M_).map
        (fun m => tbl self m (code1.getD m 0) (code2.getD m 0))) ∧
      ∀ m, m < self.M_ → ∃ a b dm, code1[m]? = some a ∧ code2[m]? = some b ∧
        self.table_at m a b = .ok dm := by
  unfold SymmetricDistance at h
  have key := foldE_range_invariant _
    (fun i (acc : ℚ) =>
      acc = fsum A ((List.range i).map
        (fun m => tbl self m (code1.getD m 0) (code2.getD m 0))) ∧
      ∀ m, m < i → ∃ a b dm, code1[m]? = some a ∧ code2[m]? = some b ∧
        self.table_at m a b = .ok dm)
    self.M_ ?_ 0 d ⟨rfl, fun m hm => absurd hm (Nat.not_lt_zero m)⟩ h
  · exact key
  · intro s i s1 _ hP hstep
    simp only [bind_eq_ok, pure_eq_ok, at?_eq_ok] at hstep
    obtain ⟨a, ha, b, hb, dm, hdm, rfl⟩ := hstep
    refine ⟨?_, ?_⟩
    · rw [List.range_succ, List.map_append, List.map_singleton, fsum_concat, ← hP.1,
        getD_of_getElem? ha, getD_of_getElem? hb, tbl_of_ok hdm]
    · intro m hm
      rcases Nat.lt_succ_iff_lt_or_eq.mp hm with hlt | rfl
      · exact hP.2 m hlt
      · exact ⟨a, b, dm, ha, hb, hdm⟩

/-- Without rounding, a successful `SymmetricDistance` is the sum of the table
entries. -/
theorem SymmetricDistance_sum {self : PQKmeans} {code1 code2 : Code} {d : ℚ}
    (h : SymmetricDistance unrounded self code1 code2 = .ok d) : d = symD self code1 code2 := by
  rw [(SymmetricDistance_ok h).1, fsum_unrounded]
  rfl

/-- The scan of `FindNNLinear`, started at counter `i`: the result is no
larger than the start value and than every distance of the list, and it is
either the start pair or the first position of the list holding the result. -/
theorem FindNNLinear_scan_ok {A : Arith} {self : PQKmeans} {query : Code} (cs : List Code) (i : Nat)
    (best best1 : Int × ℚ) (h : FindNNLinear_scan A self query cs i best = .ok best1) :
    best1.2 ≤ best.2 ∧
    (∀ (j : Nat) (c : Code), cs[j]? = some c → ∃ dj, SymmetricDistance A self query c = .ok dj ∧ best1.2 ≤ dj) ∧
    (best1 = best ∨ ∃ (j : Nat) (c : Code), cs[j]? = some c ∧ best1.1 = ((i + j : Nat) : Int) ∧
      SymmetricDistance A self query c = .ok best1.2 ∧ best1.2 < best.2 ∧
      ∀ (j1 : Nat) (c1 : Code) (d1 : ℚ), j1 < j → cs[j1]? = some c1 → SymmetricDistance A self query c1 = .ok d1 →
        best1.2 < d1) := by
  induction cs generalizing i best with
  | nil =>
    simp only [FindNNLinear_scan] at h
    injection h with h
    subst h
    exact ⟨le_refl _, fun j c hj => by simp at hj, Or.inl rfl⟩
  | cons c cs ih =>
    unfold FindNNLinear_scan at h
    cases hd : SymmetricDistance A self query c with
    | error e => rw [hd] at h; cases h
    | ok dist =>
      rw [hd] at h
      simp only [] at h
      by_cases hlt : dist < best.2
      · rw [if_pos hlt] at h
        obtain ⟨hA, hB, hC⟩ := ih (i + 1) _ h
        simp only [] at hA hC
        refine ⟨le_of_lt (lt_of_le_of_lt hA hlt), ?_, ?_⟩
        · intro j c1 hj
          cases j with
          | zero =>
            simp only [List.getElem?_cons_zero, Option.some.injEq] at hj
            subst hj
            exact ⟨dist, hd, hA⟩
          | succ j => exact hB j c1 (by simpa using hj)
        · right
          rcases hC with hC | ⟨j, c1, hj, hidx, hsd, hlt2, hfirst⟩
          · refine ⟨0, c, by simp, by rw [hC]; simp, by rw [hC]; exact hd, by rw [hC]; exact hlt, ?_⟩
            intro j1 c1 d1 hj1
            exact absurd hj1 (Nat.not_lt_zero _)
          · refine ⟨j + 1, c1, by simpa using hj, by rw [hidx]; push_cast; ring, hsd,
              lt_trans hlt2 hlt, ?_⟩
            intro j1 c2 d1 hj1 hc2 hd1
            cases j1 with
            | zero =>
              simp only [List.getElem?_cons_zero, Option.some.injEq] at hc2
              subst hc2
              rw [hd] at hd1
              injection hd1 with hd1
              subst hd1
              exact hlt2
            | succ j1 =>
              exact hfirst j1 c2 d1 (by omega) (by simpa using hc2) hd1
      · rw [if_neg hlt] at h
        obtain ⟨hA, hB, hC⟩ := ih (i + 1) _ h
        refine ⟨hA, ?_, ?_⟩
        · intro j c1 hj
          cases j with
          | zero =>
            simp only [List.getElem?_cons_zero, Option.some.injEq] at hj
            subst hj
            exact ⟨dist, hd, le_trans hA (not_lt.mp hlt)⟩
          | succ j => exact hB j c1 (by simpa using hj)
        · rcases hC with hC | ⟨j, c1, hj, hidx, hsd, hlt2, hfirst⟩
          · exact Or.inl hC
          · right
            refine ⟨j + 1, c1, by simpa using hj, by rw [hidx]; push_cast; ring, hsd, hlt2, ?_⟩
            intro j1 c2 d1 hj1 hc2 hd1
            cases j1 with
            | zero =>
              simp only [List.getElem?_cons_zero, Option.some.injEq] at hc2
              subst hc2
              rw [hd] at hd1
              injection hd1 with hd1
              subst hd1
              exact lt_of_lt_of_le hlt2 (not_lt.mp hlt)
            | succ j1 =>
              exact hfirst j1 c2 d1 (by omega) (by simpa using hc2) hd1

/-- A successful `FindNNLinear` returns the first position of the candidate
list at minimum symmetric distance, together with that distance. -/
theorem FindNNLinear_ok {A : Arith} {self : PQKmeans} {query : Code} {codes : List Code} {i : Nat} {d : ℚ}
    (h : FindNNLinear A self query codes = .ok (i, d)) :
    (∃ c, codes[i]? = some c ∧ SymmetricDistance A self query c = .ok d) ∧
    (∀ (j : Nat) (c : Code), codes[j]? = some c → ∃ dj, SymmetricDistance A self query c = .ok dj ∧ d ≤ dj) ∧
    (∀ (j : Nat) (c : Code) (dj : ℚ), j < i → codes[j]? = some c → SymmetricDistance A self query c = .ok dj → d < dj) ∧
    d < FLT_MAX := by
  unfold FindNNLinear at h
  simp only [bind_eq_ok] at h
  obtain ⟨best, hscan, hret⟩ := h
  by_cases hm : best.1 = -1
  · rw [if_pos hm] at hret; cases hret
  · rw [if_neg hm, pure_eq_ok] at hret
    injection hret with h1 h2
    obtain ⟨-, hB, hC⟩ := FindNNLinear_scan_ok codes 0 _ best hscan
    rcases hC with hC | ⟨j, c, hj, hidx, hsd, hlt, hfirst⟩
    · rw [hC] at hm; exact absurd rfl hm
    · have hij : i = j := by
        rw [← h1, hidx]; simp
      subst hij
      subst h2
      exact ⟨⟨c, hj, hsd⟩, hB, fun j1 c1 dj hj1 hc1 hd1 => hfirst j1 c1 dj hj1 hc1 hd1, hlt⟩

/-! ## The assignment step -/

theorem map_getD_range {α : Type} (l : List α) (d : α) :
    (List.range l.length).map (fun n => l.getD n d) = l := by
  apply List.ext_getElem
  · simp
  · intro n h1 h2
    simp [List.getD_eq_getElem?_getD, List.getElem?_eq_getElem h2]

theorem filter_range_succ (p : Nat → Bool) (i : Nat) :
    (List.range (i + 1)).filter p = (List.range i).filter p ++ (if p i then [i] else []) := by
  rw [List.range_succ, List.filter_append]
  by_cases h : p i <;> simp [h]

/-- Step (2.5), when it succeeds: every centroid index below `K` gets the
increasing list of the samples assigned to it, and the error sum is the
`double` accumulation of the per-sample errors. -/
theorem group_assignments_ok {A : Arith} {K : Int} {N : Nat} {assignments : List Int} {errors : List ℚ}
    {selected : List (List Nat)} {error_sum : ℚ}
    (h : group_assignments A K N assignments errors = .ok (selected, error_sum)) :
    selected.length = K.toNat ∧
    (∀ k, k < K.toNat →
      selected[k]? = some ((List.range N).filter (fun n => assigned assignments n = k))) ∧
    error_sum = dsum A ((List.range N).map (fun n => errors.getD n 0)) ∧
    (∀ n, n < N → n < assignments.length ∧ assigned assignments n < K.toNat) := by
  unfold group_assignments at h
  have key := foldE_range_invariant _
    (fun i (acc : List (List Nat) × ℚ) =>
      acc.1.length = K.toNat ∧
      (∀ k, k < K.toNat →
        acc.1[k]? = some ((List.range i).filter (fun n => assigned assignments n = k))) ∧
      acc.2 = dsum A ((List.range i).map (fun n => errors.getD n 0)) ∧
      (∀ n, n < i → n < assignments.length ∧ assigned assignments n < K.toNat))
    N ?_ _ _ ⟨by simp, fun k hk => by simp [hk], rfl,
      fun n hn => absurd hn (Nat.not_lt_zero n)⟩ h
  · exact key
  · intro acc i acc1 _ hP hstep
    obtain ⟨hlen, hsel, hsum, hidx⟩ := hP
    simp only [bind_eq_ok, pure_eq_ok, at?_eq_ok] at hstep
    obtain ⟨k, hk, sel, hs, err, herr, rfl⟩ := hstep
    have hki : assigned assignments i = k.toNat := by
      unfold assigned; rw [getD_of_getElem? hk]
    have hklt : k.toNat < K.toNat := by
      rw [← hlen]; exact (List.getElem?_eq_some_iff.mp hs).1
    refine ⟨by simp [hlen], ?_, ?_, ?_⟩
    · intro k1 hk1
      rw [filter_range_succ, List.getElem?_set]
      by_cases hkk : k.toNat = k1
      · subst hkk
        rw [hsel _ hk1] at hs
        injection hs with hs
        simp [hlen, hk1, hki, hs]
      · have : ¬ assigned assignments i = k1 := by rw [hki]; exact hkk
        simp [hkk, this, hsel k1 hk1]
    · simp only []
      rw [List.range_succ, List.map_append, List.map_singleton, dsum_concat, ← hsum,
        getD_of_getElem? herr]
    · intro n hn
      rcases Nat.lt_succ_iff_lt_or_eq.mp hn with hlt | rfl
      · exact hidx n hlt
      · exact ⟨(List.getElem?_eq_some_iff.mp hk).1, by rw [hki]; exact hklt⟩

/-- Steps (2) and (2.5), when they succeed: the assignments are the indices
found by `FindNNLinear` for the samples in order, the samples are grouped by
these indices and the error sum is the `double` accumulation of the
distances found. -/
theorem assignment_step_ok {A : Arith} {self : PQKmeans} {pydata centroids_old : List Code}
    {assignments : List Int} {selected : List (List Nat)} {error_sum : ℚ}
    (h : assignment_step A self pydata centroids_old = .ok (assignments, selected, error_sum)) :
    ∃ nn, mapE (fun query => FindNNLinear A self query centroids_old) pydata = .ok nn ∧
      assignments = nn.map (fun p => (p.1 : Int)) ∧
      error_sum = dsum A (nn.map (fun p => p.2)) ∧
      selected.length = self.K_.toNat ∧
      (∀ k, k < self.K_.toNat →
        selected[k]? =
          some ((List.range pydata.length).filter (fun n => assigned assignments n = k))) ∧
      (∀ n, n < pydata.length → assigned assignments n < self.K_.toNat) := by
  unfold assignment_step at h
  simp only [bind_eq_ok, pure_eq_ok] at h
  obtain ⟨nn, hnn, grouped, hg, hret⟩ := h
  injection hret with h1 h2
  injection h2 with h2 h3
  have hg2 : group_assignments A self.K_ pydata.length (nn.map (fun p => (p.1 : Int)))
      (nn.map (fun p => p.2)) = .ok (grouped.1, grouped.2) := hg
  obtain ⟨hlen, hsel, hsum, hidx⟩ := group_assignments_ok hg2
  have hnnlen : nn.length = pydata.length := mapE_length hnn
  refine ⟨nn, hnn, h1.symm, ?_, ?_, ?_, ?_⟩
  · rw [← h3, hsum]
    have := map_getD_range (nn.map (fun p => p.2)) 0
    rw [List.length_map, hnnlen] at this
    rw [this]
  · rw [← h2]; exact hlen
  · intro k hk
    rw [← h2, ← h1]; exact hsel k hk
  · intro n hn
    rw [← h1]; exact (hidx n hn).2

/-! ## Sparse voting -/

theorem getD_set {α : Type} (l : List α) (i j : Nat) (a d : α) (hi : i < l.length) :
    (l.set i a).getD j d = if i = j then a else l.getD j d := by
  simp only [List.getD_eq_getElem?_getD, List.getElem?_set]
  by_cases h : i = j
  · subst h; simp [hi]
  · simp [h]

/-- The histogram loop, started from any histogram: every selected sample
has an element in subspace `m` that indexes the histogram, and every bucket
grows by the number of selected samples with that element. -/
theorem frequency_histogram_fold {codes : List Code} {m : Nat} (selected_ids : List Nat)
    (hist0 hist : List Int)
    (h : foldE (fun hist id => do
        let code ← at? codes id
        let c ← at? code m
        let f ← at? hist c
        pure (hist.set c (f + 1))) hist0 selected_ids = .ok hist) :
    hist.length = hist0.length ∧
    (∀ c ∈ column codes selected_ids m, c < hist0.length) ∧
    (∀ id ∈ selected_ids, ∃ code c, codes[id]? = some code ∧ code[m]? = some c) ∧
    ∀ k1, hist.getD k1 0 = hist0.getD k1 0 + ((column codes selected_ids m).count k1 : Int) := by
  induction selected_ids generalizing hist0 with
  | nil =>
    simp only [foldE] at h
    injection h with h
    subst h
    simp [column]
  | cons id ids ih =>
    unfold foldE at h
    split at h
    · cases h
    · rename_i hist1 hstep
      simp only [bind_eq_ok, pure_eq_ok, at?_eq_ok] at hstep
      obtain ⟨code, hcode, c, hc, f, hf, rfl⟩ := hstep
      obtain ⟨hlen, hcol, hids, hcount⟩ := ih _ h
      have hclt : c < hist0.length := (List.getElem?_eq_some_iff.mp hf).1
      have hcv : (codes.getD id []).getD m 0 = c := by
        rw [getD_of_getElem? hcode, getD_of_getElem? hc]
      rw [List.length_set] at hlen hcol
      refine ⟨hlen, ?_, ?_, ?_⟩
      · intro x hx
        simp only [column, List.map_cons, List.mem_cons] at hx
        rcases hx with rfl | hx
        · rw [hcv]; exact hclt
        · exact hcol x hx
      · intro id1 hid1
        rcases List.mem_cons.mp hid1 with rfl | hid1
        · exact ⟨code, c, hcode, hc⟩
        · exact hids id1 hid1
      · intro k1
        rw [hcount k1, getD_set _ _ _ _ _ hclt]
        have hcons : column codes (id :: ids) m = c :: column codes ids m := by
          unfold column; rw [List.map_cons, hcv]
        rw [hcons, List.count_cons]
        by_cases hck : c = k1
        · subst hck
          rw [if_pos rfl, getD_of_getElem? hf]
          simp only [beq_self_eq_true, if_true]
          push_cast
          ring
        · rw [if_neg hck]
          have : ¬ ((c == k1) = true) := by simpa using hck
          rw [if_neg this]
          simp

/-- The histogram of subspace `m`, when the loop succeeds. -/
theorem frequency_histogram_ok {codes : List Code} {selected_ids : List Nat} {m Ks : Nat}
    {hist : List Int} (h : frequency_histogram codes selected_ids m Ks = .ok hist) :
    hist.length = Ks ∧
    (∀ c ∈ column codes selected_ids m, c < Ks) ∧
    (∀ id ∈ selected_ids, ∃ code c, codes[id]? = some code ∧ code[m]? = some c) ∧
    ∀ k1, hist.getD k1 0 = ((column codes selected_ids m).count k1 : Int) := by
  unfold frequency_histogram at h
  obtain ⟨hlen, hcol, hids, hcount⟩ := frequency_histogram_fold selected_ids _ _ h
  simp only [List.length_replicate] at hlen hcol
  refine ⟨hlen, hcol, hids, fun k1 => ?_⟩
  rw [hcount k1]
  simp only [List.getD_eq_getElem?_getD, List.getElem?_replicate]
  by_cases hk : k1 < Ks <;> simp [hk]

/-- The inner voting loop replaces every `vote[k2]` with `k2 < Ks` by the
`float` sum of it and the `float` product `(float) freq * table[m][k1][k2]`. -/
theorem vote_add_ok {A : Arith} {self : PQKmeans} {m k1 : Nat} {freq : Int} {Ks : Nat}
    {vote vote1 : List ℚ} (h : vote_add A self m k1 freq Ks vote = .ok vote1) :
    vote1.length = vote.length ∧
    ∀ k2, vote1.getD k2 0 =
      if k2 < Ks then A.f32 (vote.getD k2 0 + A.f32 (A.f32 (freq : ℚ) * tbl self m k1 k2))
      else vote.getD k2 0 := by
  unfold vote_add at h
  have key := foldE_range_invariant _
    (fun i (v : List ℚ) => v.length = vote.length ∧
      ∀ k2, v.getD k2 0 =
        if k2 < i then A.f32 (vote.getD k2 0 + A.f32 (A.f32 (freq : ℚ) * tbl self m k1 k2))
        else vote.getD k2 0)
    Ks ?_ _ _ ⟨rfl, fun k2 => by simp⟩ h
  · exact key
  · intro v i v1 _ hP hstep
    obtain ⟨hlen, hval⟩ := hP
    simp only [bind_eq_ok, pure_eq_ok, at?_eq_ok] at hstep
    obtain ⟨d, hd, vv, hvv, rfl⟩ := hstep
    have hilt : i < v.length := (List.getElem?_eq_some_iff.mp hvv).1
    refine ⟨by simp [hlen], fun k2 => ?_⟩
    rw [getD_set _ _ _ _ _ hilt]
    by_cases hik : i = k2
    · subst hik
      have h1 := hval i
      rw [if_neg (Nat.lt_irrefl i), getD_of_getElem? hvv] at h1
      rw [if_pos rfl, if_pos (Nat.lt_succ_self i), h1, tbl_of_ok hd]
    · rw [if_neg hik, hval k2]
      by_cases hlt : k2 < i
      · rw [if_pos hlt, if_pos (by omega)]
      · rw [if_neg hlt, if_neg (by omega)]

/-- The voting loop, when it succeeds: `vote[k2]` is the `float` accumulation,
over the `k1` with a non-empty bucket in increasing order, of the products
`(float) frequency[k1] * table[m][k1][k2]`. -/
theorem vote_all_ok {A : Arith} {self : PQKmeans} {m Ks : Nat} {hist : List Int}
    {vote : List ℚ} (h : vote_all A self m Ks hist = .ok vote) :
    vote.length = Ks ∧
    ∀ k2, k2 < Ks → vote.getD k2 0 =
      fsum A (((List.range Ks).filter (fun k1 => hist.getD k1 0 != 0)).map
        (fun k1 => A.f32 (A.f32 ((hist.getD k1 0 : Int) : ℚ) * tbl self m k1 k2))) := by
  unfold vote_all at h
  have key := foldE_range_invariant _
    (fun i (v : List ℚ) => v.length = Ks ∧
      ∀ k2, k2 < Ks → v.getD k2 0 =
        fsum A (((List.range i).filter (fun k1 => hist.getD k1 0 != 0)).map
          (fun k1 => A.f32 (A.f32 ((hist.getD k1 0 : Int) : ℚ) * tbl self m k1 k2))))
    Ks ?_ _ _ ⟨by simp, fun k2 hk2 => by simp [List.getD_eq_getElem?_getD, hk2, fsum]⟩ h
  · exact key
  · intro v i v1 _ hP hstep
    obtain ⟨hlen, hval⟩ := hP
    simp only [bind_eq_ok, at?_eq_ok] at hstep
    obtain ⟨freq, hfreq, hstep⟩ := hstep
    have hf : hist.getD i 0 = freq := getD_of_getElem? hfreq
    by_cases h0 : freq = 0
    · rw [if_pos h0, pure_eq_ok] at hstep
      subst hstep
      refine ⟨hlen, fun k2 hk2 => ?_⟩
      have hp : (hist.getD i 0 != 0) = false := by rw [hf, h0]; rfl
      rw [filter_range_succ]
      simp only [hp, Bool.false_eq_true, if_false, List.append_nil]
      exact hval k2 hk2
    · rw [if_neg h0] at hstep
      obtain ⟨hlen1, hval1⟩ := vote_add_ok hstep
      refine ⟨by rw [hlen1, hlen], fun k2 hk2 => ?_⟩
      have hp : (hist.getD i 0 != 0) = true := by rw [hf]; simpa using h0
      rw [filter_range_succ]
      simp only [hp, if_true]
      rw [List.map_append, List.map_singleton, fsum_concat, ← hval k2 hk2, hf, hval1 k2,
        if_pos hk2]

/-- The scan for the minimum vote, when it succeeds: either nothing was
below `FLT_MAX`, or the result is the first position of the minimum. -/
theorem vote_min_ok {vote : List ℚ} {Ks : Nat} {best : ℚ × Int}
    (h : vote_min vote Ks = .ok best) :
    (best.2 = -1 ∧ ∀ k, k < Ks → FLT_MAX ≤ vote.getD k 0) ∨
    ∃ k0, k0 < Ks ∧ best.2 = (k0 : Int) ∧ best.1 = vote.getD k0 0 ∧
      (∀ k, k < Ks → best.1 ≤ vote.getD k 0) ∧ ∀ k, k < k0 → best.1 < vote.getD k 0 := by
  unfold vote_min at h
  have key := foldE_range_invariant _
    (fun i (b : ℚ × Int) =>
      (∀ k, k < i → b.1 ≤ vote.getD k 0) ∧
      ((b.2 = -1 ∧ b.1 = FLT_MAX) ∨ ∃ k0, k0 < i ∧ b.2 = (k0 : Int) ∧ b.1 = vote.getD k0 0 ∧
        ∀ k, k < k0 → b.1 < vote.getD k 0))
    Ks ?_ _ _ ⟨fun k hk => absurd hk (Nat.not_lt_zero k), Or.inl ⟨rfl, rfl⟩⟩ h
  · obtain ⟨hle, hor⟩ := key
    rcases hor with ⟨h1, h2⟩ | ⟨k0, hk0, h2, h3, h4⟩
    · exact Or.inl ⟨h1, fun k hk => h2 ▸ hle k hk⟩
    · exact Or.inr ⟨k0, hk0, h2, h3, hle, h4⟩
  · intro b i b1 _ hP hstep
    obtain ⟨hle, hor⟩ := hP
    simp only [bind_eq_ok, at?_eq_ok] at hstep
    obtain ⟨v, hv, hstep⟩ := hstep
    have hvi : vote.getD i 0 = v := getD_of_getElem? hv
    by_cases hlt : v < b.1
    · rw [if_pos hlt, pure_eq_ok] at hstep
      subst hstep
      refine ⟨fun k hk => ?_, Or.inr ⟨i, Nat.lt_succ_self i, rfl, hvi.symm, fun k hk => ?_⟩⟩
      · rcases Nat.lt_succ_iff_lt_or_eq.mp hk with hk | rfl
        · exact le_of_lt (lt_of_lt_of_le hlt (hle k hk))
        · rw [hvi]
      · exact lt_of_lt_of_le hlt (hle k hk)
    · rw [if_neg hlt, pure_eq_ok] at hstep
      subst hstep
      refine ⟨fun k hk => ?_, ?_⟩
      · rcases Nat.lt_succ_iff_lt_or_eq.mp hk with hk | rfl
        · exact hle k hk
        · rw [hvi]; exact not_lt.mp hlt
      · rcases hor with h1 | ⟨k0, hk0, h2, h3, h4⟩
        · exact Or.inl h1
        · exact Or.inr ⟨k0, Nat.lt_succ_of_lt hk0, h2, h3, h4⟩

theorem sum_range_indicator (g : Nat → ℚ) (c n : Nat) :
    ((List.range n).map (fun k => if c = k then g k else 0)).sum = if c < n then g c else 0 := by
  induction n with
  | zero => simp
  | succ n ih =>
    rw [List.sum_range_succ, ih]
    by_cases h1 : c < n
    · simp [h1, show c < n + 1 by omega, show c ≠ n by omega]
    · by_cases h2 : c = n
      · subst h2; simp
      · simp [h1, h2, show ¬ c < n + 1 by omega]

/-- Weighting the table column by the histogram is summing it over the
samples. -/
theorem sum_count_mul (g : Nat → ℚ) (Ks : Nat) (col : List Nat) (hcol : ∀ c ∈ col, c < Ks) :
    ((List.range Ks).map (fun k1 => (((col.count k1 : Nat) : Int) : ℚ) * g k1)).sum =
      (col.map g).sum := by
  induction col with
  | nil => simp
  | cons c col ih =>
    have hc : c < Ks := hcol c (List.mem_cons_self _ _)
    have ih1 := ih (fun x hx => hcol x (List.mem_cons_of_mem _ hx))
    have hfun : (fun k1 => ((((c :: col).count k1 : Nat) : Int) : ℚ) * g k1) =
        (fun k1 => (((col.count k1 : Nat) : Int) : ℚ) * g k1 + (if c = k1 then g k1 else 0)) := by
      funext k1
      rw [List.count_cons]
      by_cases h : c = k1
      · subst h; simp; ring
      · have : ¬ ((c == k1) = true) := by simpa using h
        rw [if_neg this, if_neg h]; simp
    rw [hfun, List.sum_map_add, ih1, sum_range_indicator, if_pos hc, List.map_cons, List.sum_cons]
    ring

theorem frequency_eq_count (codes : List Code) (selected_ids : List Nat) (m k1 : Nat) :
    frequency codes selected_ids m k1 = (column codes selected_ids m).count k1 := by
  unfold frequency column List.count
  rw [List.countP_map]
  rfl

/-- After the histogram and voting loops, `vote[k2]` is the vote as the
source accumulates it. -/
theorem vote_all_score {A : Arith} {self : PQKmeans} {codes : List Code}
    {selected_ids : List Nat} {m : Nat} {hist : List Int} {vote : List ℚ}
    (hhist : frequency_histogram codes selected_ids m self.Ks = .ok hist)
    (hvote : vote_all A self m self.Ks hist = .ok vote) (k2 : Nat) (hk2 : k2 < self.Ks) :
    vote.getD k2 0 = float_vote A self codes selected_ids m k2 := by
  obtain ⟨-, -, -, hcount⟩ := frequency_histogram_ok hhist
  obtain ⟨-, hval⟩ := vote_all_ok hvote
  rw [hval k2 hk2]
  unfold float_vote
  have hfun : ∀ k1, hist.getD k1 0 = ((frequency codes selected_ids m k1 : Nat) : Int) := by
    intro k1
    rw [hcount k1, frequency_eq_count]
  have hfilter : (List.range self.Ks).filter (fun k1 => hist.getD k1 0 != 0) =
      (List.range self.Ks).filter (fun k1 => frequency codes selected_ids m k1 != 0) := by
    apply List.filter_congr
    intro k1 _
    show (hist.getD k1 0 != 0) = (frequency codes selected_ids m k1 != 0)
    rw [hfun k1]
    by_cases h0 : frequency codes selected_ids m k1 = 0
    · rw [h0]; rfl
    · have e1 : (((frequency codes selected_ids m k1 : Nat) : Int) != 0) = true :=
        bne_iff_ne.mpr (by exact_mod_cast h0)
      have e2 : (frequency codes selected_ids m k1 != 0) = true := bne_iff_ne.mpr h0
      rw [e1, e2]
  rw [hfilter]
  congr 1
  apply List.map_congr_left
  intro k1 _
  rw [hfun k1, Int.cast_natCast]

theorem sum_filter_map {α : Type} (l : List α) (f : α → Nat) (g : α → ℚ)
    (h : ∀ a, f a = 0 → g a = 0) :
    ((l.filter (fun a => f a != 0)).map g).sum = (l.map g).sum := by
  induction l with
  | nil => rfl
  | cons a l ih =>
    rw [List.filter_cons]
    by_cases h0 : f a = 0
    · have hp : (f a != 0) = false := by rw [h0]; rfl
      simp only [hp, Bool.false_eq_true, if_false]
      rw [List.map_cons, List.sum_cons, ih, h a h0, zero_add]
    · have hp : (f a != 0) = true := bne_iff_ne.mpr h0
      simp only [hp, if_true]
      rw [List.map_cons, List.map_cons, List.sum_cons, List.sum_cons, ih]

/-- Without rounding, the vote the source accumulates is the weighted vote:
the skipped empty buckets weigh nothing. -/
theorem float_vote_unrounded (self : PQKmeans) (codes : List Code) (selected_ids : List Nat)
    (m k2 : Nat) :
    float_vote unrounded self codes selected_ids m k2 =
      weighted_score self codes selected_ids m k2 := by
  unfold float_vote weighted_score
  rw [fsum_unrounded]
  exact sum_filter_map _ (fun k1 => frequency codes selected_ids m k1)
    (fun k1 => (frequency codes selected_ids m k1 : ℚ) * tbl self m k1 k2)
    (fun k1 h => by simp [h])

/-- The weighted vote is the sum over the selected samples of the table
entries. -/
theorem weighted_score_eq (self : PQKmeans) {codes : List Code} {selected_ids : List Nat}
    {m : Nat} (hcol : ∀ c ∈ column codes selected_ids m, c < self.Ks) (k2 : Nat) :
    weighted_score self codes selected_ids m k2 = vote_score self codes selected_ids m k2 := by
  unfold weighted_score vote_score
  rw [← sum_count_mul (fun k1 => tbl self m k1 k2) self.Ks (column codes selected_ids m) hcol]
  congr 1
  apply List.map_congr_left
  intro k1 _
  rw [frequency_eq_count]
  simp

/-- The element chosen for subspace `m`, when the vote succeeds: it is below
`Ks`, and it is the first minimiser over `[0, Ks)` of the votes as the source
accumulates them. -/
theorem vote_subspace_ok {A : Arith} {self : PQKmeans} {codes : List Code}
    {selected_ids : List Nat} {m x : Nat} (hKs : self.Ks ≤ 256)
    (h : vote_subspace A self codes selected_ids self.Ks m = .ok x) :
    x < self.Ks ∧
    (∀ c ∈ column codes selected_ids m, c < self.Ks) ∧
    (∀ id ∈ selected_ids, ∃ code c, codes[id]? = some code ∧ code[m]? = some c) ∧
    (∀ k2, k2 < self.Ks → float_vote A self codes selected_ids m x ≤
      float_vote A self codes selected_ids m k2) ∧
    (∀ k2, k2 < x → float_vote A self codes selected_ids m x <
      float_vote A self codes selected_ids m k2) := by
  unfold vote_subspace at h
  simp only [bind_eq_ok] at h
  obtain ⟨hist, hhist, vote, hvote, best, hbest, hret⟩ := h
  obtain ⟨-, hcol, hids, hcount⟩ := frequency_histogram_ok hhist
  have hscore := vote_all_score hhist hvote
  by_cases hm : best.2 = -1
  · rw [if_pos hm] at hret; cases hret
  · rw [if_neg hm, pure_eq_ok] at hret
    rcases vote_min_ok hbest with ⟨h1, -⟩ | ⟨k0, hk0, h2, h3, h4, h5⟩
    · exact absurd h1 hm
    · have hx : x = k0 := by
        rw [← hret, h2]
        omega
      subst hx
      refine ⟨hk0, hcol, hids, ?_, ?_⟩
      · intro k2 hk2
        rw [← hscore x hk0, ← hscore k2 hk2, ← h3]
        exact h4 k2 hk2
      · intro k2 hk2
        rw [← hscore x hk0, ← hscore k2 (by omega), ← h3]
        exact h5 k2 hk2

theorem Ks_of_at? {self : PQKmeans} {sub0 : List (List ℚ)} (h : at? self.codewords_ 0 = .ok sub0) :
    self.Ks = sub0.length := by
  rw [at?_eq_ok] at h
  unfold PQKmeans.Ks
  cases hc : self.codewords_ with
  | nil => rw [hc] at h; simp at h
  | cons a as =>
    rw [hc] at h
    simp only [List.getElem?_cons_zero, Option.some.injEq] at h
    rw [h]

/-- A successful sparse vote returns a valid code whose element in every
subspace is the first minimiser of the votes as the source accumulates
them. -/
theorem ComputeCentroidBySparseVoting_ok {A B : Arith} {self : PQKmeans}
    (hw : self.WellFormed B) {codes : List Code} {selected_ids : List Nat} {v : Code}
    (h : ComputeCentroidBySparseVoting A self codes selected_ids = .ok v) :
    ValidCode self v ∧
    ∀ m, m < self.M_ → ∃ x, v[m]? = some x ∧ x < self.Ks ∧
      (∀ c ∈ column codes selected_ids m, c < self.Ks) ∧
      (∀ k2, k2 < self.Ks → float_vote A self codes selected_ids m x ≤
        float_vote A self codes selected_ids m k2) ∧
      (∀ k2, k2 < x → float_vote A self codes selected_ids m x <
        float_vote A self codes selected_ids m k2) := by
  unfold ComputeCentroidBySparseVoting at h
  simp only [bind_eq_ok] at h
  obtain ⟨sub0, hsub0, hmap⟩ := h
  have hKs := Ks_of_at? hsub0
  rw [← hKs] at hmap
  obtain ⟨hlen, hall⟩ := mapE_range hmap
  refine ⟨⟨hlen, fun x hx => ?_⟩, fun m hm => ?_⟩
  · obtain ⟨m, _, hx2⟩ := mapE_mem hmap hx
    exact (vote_subspace_ok hw.Ks_le hx2).1
  · obtain ⟨x, hx, hvote⟩ := hall m hm
    obtain ⟨h1, h2, -, h4, h5⟩ := vote_subspace_ok hw.Ks_le hvote
    exact ⟨x, hx, h1, h2, h4, h5⟩

/-- Without rounding, the element chosen in every subspace is the first
minimiser of the summed table entries of the selected samples. -/
theorem ComputeCentroidBySparseVoting_sum {A : Arith} {self : PQKmeans}
    (hw : self.WellFormed A) {codes : List Code} {selected_ids : List Nat} {v : Code}
    (h : ComputeCentroidBySparseVoting unrounded self codes selected_ids = .ok v) :
    ∀ m, m < self.M_ → ∃ x, v[m]? = some x ∧ x < self.Ks ∧
      (∀ k2, k2 < self.Ks → vote_score self codes selected_ids m x ≤
        vote_score self codes selected_ids m k2) ∧
      (∀ k2, k2 < x → vote_score self codes selected_ids m x <
        vote_score self codes selected_ids m k2) := by
  have hKs := hw.Ks_le
  unfold ComputeCentroidBySparseVoting at h
  simp only [bind_eq_ok] at h
  obtain ⟨sub0, hsub0, hmap⟩ := h
  rw [← Ks_of_at? hsub0] at hmap
  obtain ⟨-, hall⟩ := mapE_range hmap
  intro m hm
  obtain ⟨x, hx, hvote⟩ := hall m hm
  obtain ⟨h1, hcol, -, h4, h5⟩ := vote_subspace_ok hKs hvote
  refine ⟨x, hx, h1, fun k2 hk2 => ?_, fun k2 hk2 => ?_⟩
  · have := h4 k2 hk2
    rwa [float_vote_unrounded, float_vote_unrounded, weighted_score_eq self hcol,
      weighted_score_eq self hcol] at this
  · have := h5 k2 hk2
    rwa [float_vote_unrounded, float_vote_unrounded, weighted_score_eq self hcol,
      weighted_score_eq self hcol] at this

theorem sum_map_sum_comm {α β : Type} (f : α → β → ℚ) (l1 : List α) (l2 : List β) :
    (l1.map (fun a => (l2.map (fun b => f a b)).sum)).sum =
      (l2.map (fun b => (l1.map (fun a => f a b)).sum)).sum := by
  induction l1 with
  | nil => simp
  | cons a l1 ih =>
    simp only [List.map_cons, List.sum_cons]
    rw [ih, List.sum_map_add]

/-- The cost of a cluster for a code is the sum over the subspaces of the
vote scores of the code's elements. -/
theorem cluster_cost_eq (self : PQKmeans) (codes : List Code) (selected_ids : List Nat)
    (c : Code) :
    cluster_cost self codes selected_ids c =
      ((List.range self.M_).map
        (fun m => vote_score self codes selected_ids m (c.getD m 0))).sum := by
  unfold cluster_cost symD vote_score column
  rw [sum_map_sum_comm]
  congr 1
  apply List.map_congr_left
  intro m _
  rw [List.map_map]
  rfl

/-- Whole-code optimality of a successful sparse vote without rounding: no
code with elements below `Ks` has a smaller cluster cost. -/
theorem ComputeCentroidBySparseVoting_optimal {A : Arith} {self : PQKmeans}
    (hw : self.WellFormed A) {codes : List Code} {selected_ids : List Nat} {v : Code}
    (h : ComputeCentroidBySparseVoting unrounded self codes selected_ids = .ok v)
    (c : Code) (hc : ∀ m, m < self.M_ → c.getD m 0 < self.Ks) :
    cluster_cost self codes selected_ids v ≤ cluster_cost self codes selected_ids c := by
  rw [cluster_cost_eq, cluster_cost_eq]
  apply List.sum_le_sum
  intro m hm
  have hm1 := List.mem_range.mp hm
  obtain ⟨x, hx, -, hmin, -⟩ := ComputeCentroidBySparseVoting_sum hw h m hm1
  rw [getD_of_getElem? hx]
  exact hmin _ (hc m hm1)

/-! ## The update step -/

theorem getD_lt_of_forall {code : Code} {Ks : Nat} (hpos : 0 < Ks) (h : ∀ x ∈ code, x < Ks)
    (m : Nat) : code.getD m 0 < Ks := by
  rw [List.getD_eq_getElem?_getD]
  cases hm : code[m]? with
  | none => exact hpos
  | some x => exact h x (List.mem_iff_getElem?.mpr ⟨m, hm⟩)

/-- The update step keeps the number of centroids, and keeps the code of every
centroid whose list of samples is empty (or that lies beyond `K`). -/
theorem update_step_frame {A : Arith} {self : PQKmeans} {pydata : List Code} {itr : Int}
    {selected : List (List Nat)} {centroids_new centroids_next : List Code}
    (h : update_step A self pydata itr selected centroids_new = .ok centroids_next) :
    centroids_next.length = centroids_new.length ∧
    ∀ k, (self.K_.toNat ≤ k ∨ selected[k]? = some [] ∨ itr = self.itr_ - 1) →
      centroids_next[k]? = centroids_new[k]? := by
  unfold update_step at h
  by_cases hlast : itr ≠ self.itr_ - 1
  · rw [if_pos hlast] at h
    have key := foldE_range_invariant _
      (fun i (C : List Code) => C.length = centroids_new.length ∧
        ∀ k, (i ≤ k ∨ selected[k]? = some []) → C[k]? = centroids_new[k]?)
      self.K_.toNat ?_ _ _ ⟨rfl, fun k _ => rfl⟩ h
    · refine ⟨key.1, fun k hk => ?_⟩
      rcases hk with hk | hk | hk
      · exact key.2 k (Or.inl hk)
      · exact key.2 k (Or.inr hk)
      · exact absurd hk hlast
    · intro C i C1 _ hP hstep
      obtain ⟨hlen, hframe⟩ := hP
      simp only [bind_eq_ok, at?_eq_ok] at hstep
      obtain ⟨sel, hsel, hstep⟩ := hstep
      by_cases hempty : sel = []
      · rw [if_pos hempty, pure_eq_ok] at hstep
        subst hstep
        refine ⟨hlen, fun k hk => ?_⟩
        rcases hk with hk | hk
        · exact hframe k (Or.inl (by omega))
        · exact hframe k (Or.inr hk)
      · rw [if_neg hempty] at hstep
        simp only [bind_eq_ok] at hstep
        obtain ⟨c, hc, hstep⟩ := hstep
        by_cases hi : i < C.length
        · rw [if_pos hi, pure_eq_ok] at hstep
          subst hstep
          refine ⟨by simp [hlen], fun k hk => ?_⟩
          have hik : i ≠ k := by
            rcases hk with hk | hk
            · omega
            · intro hik
              subst hik
              rw [hsel] at hk
              injection hk with hk
              exact hempty hk
          rw [List.getElem?_set, if_neg hik]
          rcases hk with hk | hk
          · exact hframe k (Or.inl (by omega))
          · exact hframe k (Or.inr hk)
        · rw [if_neg hi] at hstep; cases hstep
  · rw [if_neg hlast] at h
    injection h with h
    subst h
    exact ⟨rfl, fun k _ => rfl⟩

/-- Replacing the code of centroid `k` changes the total cost only through
the samples assigned to `k`. -/
theorem total_cost_set (self : PQKmeans) (pydata : List Code) (assignments : List Int)
    (C : List Code) (k : Nat) (c : Code) (hk : k < C.length) :
    total_cost self pydata assignments (C.set k c) =
      cluster_cost self pydata
        ((List.range pydata.length).filter (fun n => assigned assignments n = k)) c +
      (((List.range pydata.length).filter (fun n => ¬ assigned assignments n = k)).map
        (fun n => symD self (pydata.getD n []) (C.getD (assigned assignments n) []))).sum := by
  unfold total_cost cluster_cost
  rw [← List.sum_map_ite (fun n => assigned assignments n = k)]
  congr 1
  apply List.map_congr_left
  intro n _
  rw [getD_set _ _ _ _ _ hk]
  by_cases h : assigned assignments n = k
  · rw [if_pos h, if_pos h.symm]
  · rw [if_neg h, if_neg (fun h1 => h h1.symm)]

theorem set_getD_self {α : Type} (l : List α) (k : Nat) (d : α) (hk : k < l.length) :
    l.set k (l.getD k d) = l := by
  apply List.ext_getElem?
  intro j
  rw [List.getElem?_set]
  by_cases h : k = j
  · subst h
    simp [hk, List.getD_eq_getElem?_getD]
  · simp [h]

/-- The update step keeps all centroids valid. -/
theorem update_step_valid {A B : Arith} {self : PQKmeans} (hw : self.WellFormed B)
    {pydata : List Code} {itr : Int} {selected : List (List Nat)}
    {centroids_new centroids_next : List Code}
    (hvalid : ∀ c ∈ centroids_new, ValidCode self c)
    (h : update_step A self pydata itr selected centroids_new = .ok centroids_next) :
    ∀ c ∈ centroids_next, ValidCode self c := by
  unfold update_step at h
  by_cases hlast : itr ≠ self.itr_ - 1
  · rw [if_pos hlast] at h
    have key := foldE_range_invariant _
      (fun _ (C : List Code) => ∀ c ∈ C, ValidCode self c)
      self.K_.toNat ?_ _ _ hvalid h
    · exact key
    · intro C i C1 hi hval hstep
      simp only [bind_eq_ok, at?_eq_ok] at hstep
      obtain ⟨sel, hs, hstep⟩ := hstep
      by_cases hempty : sel = []
      · rw [if_pos hempty, pure_eq_ok] at hstep
        subst hstep
        exact hval
      · rw [if_neg hempty] at hstep
        simp only [bind_eq_ok] at hstep
        obtain ⟨c, hc, hstep⟩ := hstep
        by_cases hiC : i < C.length
        · rw [if_pos hiC, pure_eq_ok] at hstep
          subst hstep
          have hcv := (ComputeCentroidBySparseVoting_ok hw hc).1
          intro x hx
          rcases List.mem_or_eq_of_mem_set hx with hx | hx
          · exact hval x hx
          · rw [hx]; exact hcv
        · rw [if_neg hiC] at hstep; cases hstep
  · rw [if_neg hlast] at h
    injection h with h
    subst h
    exact hvalid

/-- Without rounding, the update step, run on the grouping of an assignment,
does not increase the total cost of that assignment. -/
theorem update_step_cost {A : Arith} {self : PQKmeans} (hw : self.WellFormed A)
    {pydata : List Code} {itr : Int} {assignments : List Int} {selected : List (List Nat)}
    {centroids_new centroids_next : List Code}
    (hsel : ∀ k, k < self.K_.toNat → selected[k]? =
      some ((List.range pydata.length).filter (fun n => assigned assignments n = k)))
    (hvalid : ∀ c ∈ centroids_new, ValidCode self c)
    (h : update_step unrounded self pydata itr selected centroids_new = .ok centroids_next) :
    total_cost self pydata assignments centroids_next ≤
      total_cost self pydata assignments centroids_new := by
  unfold update_step at h
  by_cases hlast : itr ≠ self.itr_ - 1
  · rw [if_pos hlast] at h
    have key := foldE_range_invariant _
      (fun _ (C : List Code) => (∀ c ∈ C, ValidCode self c) ∧
        total_cost self pydata assignments C ≤ total_cost self pydata assignments centroids_new)
      self.K_.toNat ?_ _ _ ⟨hvalid, le_refl _⟩ h
    · exact key.2
    · intro C i C1 hi hP hstep
      obtain ⟨hval, hcost⟩ := hP
      simp only [bind_eq_ok, at?_eq_ok] at hstep
      obtain ⟨sel, hs, hstep⟩ := hstep
      by_cases hempty : sel = []
      · rw [if_pos hempty, pure_eq_ok] at hstep
        subst hstep
        exact ⟨hval, hcost⟩
      · rw [if_neg hempty] at hstep
        simp only [bind_eq_ok] at hstep
        obtain ⟨c, hc, hstep⟩ := hstep
        by_cases hiC : i < C.length
        · rw [if_pos hiC, pure_eq_ok] at hstep
          subst hstep
          rw [hsel i hi] at hs
          injection hs with hs
          subst hs
          have hcv : ValidCode self c := (ComputeCentroidBySparseVoting_ok hw hc).1
          refine ⟨fun x hx => ?_, le_trans ?_ hcost⟩
          · rcases List.mem_or_eq_of_mem_set hx with hx | hx
            · exact hval x hx
            · rw [hx]; exact hcv
          · have hold : ValidCode self (C.getD i []) := by
              apply hval
              rw [List.getD_eq_getElem?_getD, List.getElem?_eq_getElem hiC]
              exact List.getElem_mem _
            have hopt := ComputeCentroidBySparseVoting_optimal hw hc (C.getD i [])
              (fun m _ => getD_lt_of_forall hw.Ks_pos hold.2 m)
            have h1 := total_cost_set self pydata assignments C i c hiC
            have h2 := total_cost_set self pydata assignments C i (C.getD i []) hiC
            rw [set_getD_self C i [] hiC] at h2
            rw [h1, h2]
            exact add_le_add_right hopt _
        · rw [if_neg hiC] at hstep; cases hstep
  · rw [if_neg hlast] at h
    injection h with h
    subst h
    exact le_refl _

/-! ## Cost of an assignment step -/

theorem assigned_map_cast (nn : List (Nat × ℚ)) (n : Nat) (p : Nat × ℚ) (h : nn[n]? = some p) :
    assigned (nn.map (fun p => (p.1 : Int))) n = p.1 := by
  unfold assigned
  rw [List.getD_eq_getElem?_getD, List.getElem?_map, h]
  simp

/-- What the search results of an assignment step say about every sample. -/
theorem assignment_step_sample {A : Arith} {self : PQKmeans} {pydata centroids_old : List Code}
    {nn : List (Nat × ℚ)}
    (hnn : mapE (fun query => FindNNLinear A self query centroids_old) pydata = .ok nn)
    (n : Nat) (hn : n < pydata.length) :
    ∃ i d, nn[n]? = some (i, d) ∧
      FindNNLinear A self (pydata.getD n []) centroids_old = .ok (i, d) ∧
      i < centroids_old.length := by
  obtain ⟨p, hp, hfind⟩ := mapE_getElem? hnn (List.getElem?_eq_getElem hn)
  have hx : pydata.getD n [] = pydata[n] := getD_of_getElem? (List.getElem?_eq_getElem hn)
  rw [← hx] at hfind
  obtain ⟨⟨c, hc, hsd⟩, -, -, -⟩ := FindNNLinear_ok (i := p.1) (d := p.2) hfind
  exact ⟨p.1, p.2, hp, hfind, (List.getElem?_eq_some_iff.mp hc).1⟩

/-- Without rounding, the distance found for a sample is the sum of table
entries for its centroid, and no centroid has a smaller sum. -/
theorem assignment_step_sample_sum {self : PQKmeans} {pydata centroids_old : List Code}
    {nn : List (Nat × ℚ)}
    (hnn : mapE (fun query => FindNNLinear unrounded self query centroids_old) pydata = .ok nn)
    (n : Nat) (hn : n < pydata.length) :
    ∃ i d, nn[n]? = some (i, d) ∧
      d = symD self (pydata.getD n []) (centroids_old.getD i []) ∧
      ∀ j, j < centroids_old.length →
        d ≤ symD self (pydata.getD n []) (centroids_old.getD j []) := by
  obtain ⟨i, d, hp, hfind, -⟩ := assignment_step_sample hnn n hn
  obtain ⟨⟨c, hc, hsd⟩, hmin, -, -⟩ := FindNNLinear_ok hfind
  refine ⟨i, d, hp, ?_, fun j hj => ?_⟩
  · rw [getD_of_getElem? hc]; exact SymmetricDistance_sum hsd
  · obtain ⟨dj, hdj, hle⟩ := hmin j _ (List.getElem?_eq_getElem hj)
    rw [getD_of_getElem? (List.getElem?_eq_getElem hj), ← SymmetricDistance_sum hdj]
    exact hle

/-- An assignment step, when it succeeds, assigns every sample a centroid
index below the number of centroids. -/
theorem assignment_step_shape {A : Arith} {self : PQKmeans}
    {pydata centroids_old : List Code}
    {assignments : List Int} {selected : List (List Nat)} {error_sum : ℚ}
    (h : assignment_step A self pydata centroids_old = .ok (assignments, selected, error_sum)) :
    assignments.length = pydata.length ∧
    (∀ a ∈ assignments, 0 ≤ a ∧ a < (centroids_old.length : Int)) ∧
    (∀ n, n < pydata.length → assigned assignments n < centroids_old.length) := by
  obtain ⟨nn, hnn, hasg, -, -, -, -⟩ := assignment_step_ok h
  have hlen : nn.length = pydata.length := mapE_length hnn
  subst hasg
  refine ⟨by simp [hlen], ?_, ?_⟩
  · intro a ha
    obtain ⟨p, hp, rfl⟩ := List.mem_map.mp ha
    obtain ⟨n, hn⟩ := List.mem_iff_getElem?.mp hp
    have hnlt : n < pydata.length := hlen ▸ (List.getElem?_eq_some_iff.mp hn).1
    obtain ⟨i, d, hid, -, hi⟩ := assignment_step_sample hnn n hnlt
    rw [hn] at hid
    injection hid with hid
    subst hid
    exact ⟨by simp, by exact_mod_cast hi⟩
  · intro n hn
    obtain ⟨i, d, hid, -, hi⟩ := assignment_step_sample hnn n hn
    rw [assigned_map_cast nn n _ hid]
    exact hi

/-- Without rounding, the error sum of an assignment step is the total cost
of its assignment, which no other assignment to these centroids beats. -/
theorem assignment_step_cost {self : PQKmeans} {pydata centroids_old : List Code}
    {assignments : List Int} {selected : List (List Nat)} {error_sum : ℚ}
    (h : assignment_step unrounded self pydata centroids_old =
      .ok (assignments, selected, error_sum)) :
    error_sum = total_cost self pydata assignments centroids_old ∧
    ∀ other : List Int, (∀ n, n < pydata.length → assigned other n < centroids_old.length) →
      error_sum ≤ total_cost self pydata other centroids_old := by
  obtain ⟨nn, hnn, hasg, hsum, -, -, -⟩ := assignment_step_ok h
  rw [dsum_unrounded] at hsum
  have hlen : nn.length = pydata.length := mapE_length hnn
  subst hasg
  refine ⟨?_, ?_⟩
  · rw [hsum]
    unfold total_cost
    congr 1
    apply List.ext_getElem
    · simp [hlen]
    · intro n h1 h2
      have hn : n < pydata.length := by simpa using h2
      obtain ⟨i, d, hid, hd, -⟩ := assignment_step_sample_sum hnn n hn
      simp only [List.getElem_map, List.getElem_range]
      rw [assigned_map_cast nn n _ hid, ← hd]
      have := List.getElem?_eq_getElem (l := nn) (by rw [hlen]; exact hn)
      rw [hid] at this
      injection this with this
      rw [← this]
  · intro other hother
    rw [hsum]
    unfold total_cost
    have hnn2 : nn.map (fun p => p.2) = (List.range pydata.length).map
        (fun n => (nn.getD n (0, 0)).2) := by
      rw [← hlen]
      conv_lhs => rw [← map_getD_range nn (0, 0)]
      rw [List.map_map]
      rfl
    rw [hnn2]
    apply List.sum_le_sum
    intro n hn
    have hn1 := List.mem_range.mp hn
    obtain ⟨i, d, hid, -, hmin⟩ := assignment_step_sample_sum hnn n hn1
    rw [getD_of_getElem? hid]
    exact hmin _ (hother n hn1)

/-! ## The main loop -/

/-- Unfolding of one round of the main loop that ran to its end. -/
theorem fit_loop_succ_ok {A : Arith} {self : PQKmeans} {pydata : List Code} {r : Nat}
    {cn : List Code} {asg0 : List Int} {log : List ℚ} {res : List Code × List Int}
    (h : fit_loop A self pydata (r + 1) cn asg0 = (log, .ok res)) :
    ∃ asg sel esum cnext, assignment_step A self pydata cn = .ok (asg, sel, esum) ∧
      update_step A self pydata (self.itr_ - ((r : Int) + 1)) sel cn = .ok cnext ∧
      log = A.f64 (esum / A.f64 (pydata.length : ℚ)) ::
        (fit_loop A self pydata r cnext asg).1 ∧
      (fit_loop A self pydata r cnext asg).2 = .ok res := by
  unfold fit_loop at h
  split at h
  · injection h with h1 h2; cases h2
  · rename_i asg sel esum hstep
    simp only [] at h
    split at h
    · injection h with h1 h2; cases h2
    · rename_i cnext hupd
      injection h with h1 h2
      exact ⟨asg, sel, esum, cnext, hstep, hupd, h1.symm, h2⟩

/-- The main loop keeps the number of centroids; the assignments it returns
are those it was started with when no round ran, and otherwise one index
below the number of centroids for every sample. -/
theorem fit_loop_shape {A : Arith} {self : PQKmeans} {pydata : List Code} (r : Nat)
    (cn : List Code) (asg0 : List Int) (log : List ℚ) (res : List Code × List Int)
    (h : fit_loop A self pydata r cn asg0 = (log, .ok res)) :
    res.1.length = cn.length ∧
    ((r = 0 ∧ res.2 = asg0) ∨
      (res.2.length = pydata.length ∧ ∀ a ∈ res.2, 0 ≤ a ∧ a < (cn.length : Int))) := by
  induction r generalizing cn asg0 log with
  | zero =>
    simp only [fit_loop] at h
    injection h with h1 h2
    injection h2 with h2
    subst h2
    exact ⟨rfl, Or.inl ⟨rfl, rfl⟩⟩
  | succ r ih =>
    obtain ⟨asg, sel, esum, cnext, hstep, hupd, -, hrest⟩ := fit_loop_succ_ok h
    obtain ⟨hlen, hor⟩ := ih cnext asg _ (Prod.ext rfl hrest)
    have hl := (update_step_frame hupd).1
    obtain ⟨h1, h2, -⟩ := assignment_step_shape hstep
    refine ⟨by rw [hlen, hl], Or.inr ?_⟩
    rcases hor with ⟨-, h3⟩ | ⟨h3, h4⟩
    · rw [h3]; exact ⟨h1, h2⟩
    · rw [hl] at h4; exact ⟨h3, h4⟩

/-- The main loop keeps all centroids valid. -/
theorem fit_loop_valid {A : Arith} {self : PQKmeans} (hw : self.WellFormed A) {pydata : List Code} (r : Nat)
    (cn : List Code) (asg0 : List Int) (log : List ℚ) (res : List Code × List Int)
    (hvalid : ∀ c ∈ cn, ValidCode self c)
    (h : fit_loop A self pydata r cn asg0 = (log, .ok res)) :
    ∀ c ∈ res.1, ValidCode self c := by
  induction r generalizing cn asg0 log with
  | zero =>
    simp only [fit_loop] at h
    injection h with h1 h2
    injection h2 with h2
    subst h2
    exact hvalid
  | succ r ih =>
    obtain ⟨asg, sel, esum, cnext, hstep, hupd, -, hrest⟩ := fit_loop_succ_ok h
    exact ih cnext asg _ (update_step_valid hw hvalid hupd) (Prod.ext rfl hrest)

/-- After at least one round of the main loop, the returned assignments are
the search results of the samples against the returned centroids. -/
theorem fit_loop_last {A : Arith} {self : PQKmeans} {pydata : List Code} (r : Nat)
    (cn : List Code) (asg0 : List Int) (log : List ℚ) (res : List Code × List Int)
    (h : fit_loop A self pydata (r + 1) cn asg0 = (log, .ok res)) :
    ∃ nn, mapE (fun query => FindNNLinear A self query res.1) pydata = .ok nn ∧
      res.2 = nn.map (fun p => (p.1 : Int)) := by
  induction r generalizing cn asg0 log with
  | zero =>
    obtain ⟨asg, sel, esum, cnext, hstep, hupd, -, hrest⟩ := fit_loop_succ_ok h
    simp only [fit_loop] at hrest
    injection hrest with hrest
    subst hrest
    obtain ⟨nn, hnn, hasg, -⟩ := assignment_step_ok hstep
    have hsame : cnext = cn := by
      unfold update_step at hupd
      rw [if_neg (by simp)] at hupd
      injection hupd with hupd
      exact hupd.symm
    exact ⟨nn, by rw [hsame]; exact hnn, hasg⟩
  | succ r ih =>
    obtain ⟨asg, sel, esum, cnext, hstep, hupd, -, hrest⟩ := fit_loop_succ_ok h
    exact ih cnext asg _ (Prod.ext rfl hrest)

/-- Without rounding, the mean errors reported by the main loop never
increase, and the first of them is at most the mean cost of any assignment to
the centroids the loop starts from. -/
theorem fit_loop_monotone {A : Arith} {self : PQKmeans} (hw : self.WellFormed A)
    (pydata : List Code) (r : Nat)
    (cn : List Code) (asg0 : List Int) (hvalid : ∀ c ∈ cn, ValidCode self c) :
    List.Chain' (fun a b => b ≤ a) (fit_loop unrounded self pydata r cn asg0).1 ∧
    ∀ e, (fit_loop unrounded self pydata r cn asg0).1.head? = some e →
      ∀ other : List Int, (∀ n, n < pydata.length → assigned other n < cn.length) →
        e ≤ total_cost self pydata other cn / (pydata.length : ℚ) := by
  have hN : (0 : ℚ) ≤ (pydata.length : ℚ) := Nat.cast_nonneg _
  have hmean : ∀ x : ℚ, unrounded.f64 (x / unrounded.f64 (pydata.length : ℚ)) =
      x / (pydata.length : ℚ) := fun _ => rfl
  induction r generalizing cn asg0 with
  | zero => simp [fit_loop]
  | succ r ih =>
    unfold fit_loop
    split
    · simp
    · rename_i asg sel esum hstep
      obtain ⟨-, -, hidx⟩ := assignment_step_shape hstep
      obtain ⟨hcost, hmin⟩ := assignment_step_cost hstep
      have hhead : ∀ other : List Int,
          (∀ n, n < pydata.length → assigned other n < cn.length) →
          esum / (pydata.length : ℚ) ≤ total_cost self pydata other cn / (pydata.length : ℚ) :=
        fun other ho => div_le_div_of_nonneg_right (hmin other ho) hN
      simp only [hmean]
      split
      · refine ⟨List.chain'_singleton _, fun e he other ho => ?_⟩
        simp only [List.head?_cons, Option.some.injEq] at he
        subst he
        exact hhead other ho
      · rename_i cnext hupd
        obtain ⟨nn, -, -, -, -, hsel, -⟩ := assignment_step_ok hstep
        have hvalid1 : ∀ c ∈ cnext, ValidCode self c := update_step_valid hw hvalid hupd
        have hle := update_step_cost hw hsel hvalid hupd
        have hl := (update_step_frame hupd).1
        obtain ⟨hchain, hfirst⟩ := ih cnext asg hvalid1
        refine ⟨List.chain'_cons'.mpr ⟨fun e he => ?_, hchain⟩, fun e he other ho => ?_⟩
        · have h1 := hfirst e he asg (fun n hn => by rw [hl]; exact hidx n hn)
          rw [hcost]
          exact le_trans h1 (div_le_div_of_nonneg_right hle hN)
        · simp only [List.head?_cons, Option.some.injEq] at he
          subst he
          exact hhead other ho

/-! ## `fit` as a whole -/

/-- The initial centroids, when the picking succeeds: `K` codes, each one of
the samples. -/
theorem InitializeCentroidsByRandomPicking_ok {shuffle : List Nat → List Nat}
    {codes : List Code} {K : Int} {centroids : List Code}
    (h : InitializeCentroidsByRandomPicking shuffle codes K = .ok centroids) :
    0 ≤ K ∧ centroids.length = K.toNat ∧ ∀ c ∈ centroids, c ∈ codes := by
  unfold InitializeCentroidsByRandomPicking at h
  by_cases hK : K < 0
  · rw [if_pos hK] at h; cases h
  · rw [if_neg hK] at h
    simp only [] at h
    refine ⟨not_lt.mp hK, (mapE_range h).1, fun c hc => ?_⟩
    obtain ⟨k, -, hk⟩ := mapE_mem h hc
    simp only [bind_eq_ok, at?_eq_ok] at hk
    obtain ⟨id, -, hid⟩ := hk
    exact List.mem_iff_getElem?.mpr ⟨id, hid⟩

/-- Inversion of a call of `fit` that returned. -/
theorem fit_ok_inv {A : Arith} {shuffle : List Nat → List Nat} {self : PQKmeans} {pydata : List Code}
    (h : (fit A shuffle self pydata).status = .ok ()) :
    ∃ cn0 cn asg,
      InitializeCentroidsByRandomPicking shuffle pydata self.K_ = .ok cn0 ∧
      fit_loop A (self.refresh pydata.length) pydata self.itr_.toNat cn0
        (List.replicate pydata.length 0) = ((fit A shuffle self pydata).reported, .ok (cn, asg)) ∧
      (fit A shuffle self pydata).self =
        { self.refresh pydata.length with centroids := cn, assignments := asg } := by
  unfold fit at h ⊢
  by_cases h1 : self.K_ < toInt32 pydata.length
  · rw [if_pos h1] at h ⊢
    by_cases h2 : self.K_ < 0
    · rw [if_pos h2] at h; cases h
    · rw [if_neg h2] at h ⊢
      simp only [] at h ⊢
      cases hinit : InitializeCentroidsByRandomPicking shuffle pydata self.K_ with
      | error e => rw [hinit] at h; cases h
      | ok cn0 =>
        rw [hinit] at h
        simp only [] at h ⊢
        rcases hloop : fit_loop A (self.refresh pydata.length) pydata self.itr_.toNat cn0
            (self.refresh pydata.length).assignments with ⟨log, res⟩
        rw [hloop] at h
        cases res with
        | error e => cases h
        | ok res =>
          obtain ⟨cn, asg⟩ := res
          exact ⟨cn0, cn, asg, rfl, hloop, rfl⟩
  · rw [if_neg h1] at h; cases h

/-- The errors reported by any call of `fit` are those of its main loop. -/
theorem fit_reported {A : Arith} (shuffle : List Nat → List Nat) (self : PQKmeans) (pydata : List Code) :
    (fit A shuffle self pydata).reported = [] ∨
    ∃ cn0, InitializeCentroidsByRandomPicking shuffle pydata self.K_ = .ok cn0 ∧
      (fit A shuffle self pydata).reported =
        (fit_loop A (self.refresh pydata.length) pydata self.itr_.toNat cn0
          (List.replicate pydata.length 0)).1 := by
  unfold fit
  by_cases h1 : self.K_ < toInt32 pydata.length
  · rw [if_pos h1]
    by_cases h2 : self.K_ < 0
    · rw [if_pos h2]; exact Or.inl rfl
    · rw [if_neg h2]
      simp only []
      cases hinit : InitializeCentroidsByRandomPicking shuffle pydata self.K_ with
      | error e => exact Or.inl rfl
      | ok cn0 =>
        right
        refine ⟨cn0, rfl, ?_⟩
        simp only []
        rcases hloop : fit_loop A (self.refresh pydata.length) pydata self.itr_.toNat cn0
            (self.refresh pydata.length).assignments with ⟨log, res⟩
        have hloop2 : fit_loop A (self.refresh pydata.length) pydata self.itr_.toNat cn0
            (List.replicate pydata.length 0) = (log, res) := hloop
        rw [hloop2]
        cases res with
        | error e => rfl
        | ok res => rfl
  · rw [if_neg h1]; exact Or.inl rfl

theorem refresh_wellFormed {A : Arith} {self : PQKmeans} (hw : self.WellFormed A) (N : Nat) :
    (self.refresh N).WellFormed A :=
  ⟨hw.M_eq, hw.Ks_pos, hw.Ks_le, hw.table_ok⟩

theorem line_object_ctor : PQKmeans.ctor ieee line_codewords 2 3 = .ok line_object := by
  with_unfolding_all rfl

theorem line_object_ctor_exact :
    PQKmeans.ctor unrounded line_codewords 2 3 = .ok line_object := by
  with_unfolding_all rfl

theorem line_fit_ok : (fit ieee id line_object line_data).status = .ok () := by
  with_unfolding_all rfl

theorem SymmetricDistance_congr {A : Arith} {s1 s2 : PQKmeans} (hM : s1.M_ = s2.M_)
    (htab : s1.distance_matrices_among_codewords_ = s2.distance_matrices_among_codewords_)
    (code1 code2 : Code) : SymmetricDistance A s1 code1 code2 = SymmetricDistance A s2 code1 code2 := by
  unfold SymmetricDistance PQKmeans.table_at
  rw [hM, htab]

theorem FindNNLinear_scan_congr {A : Arith} {s1 s2 : PQKmeans} (hM : s1.M_ = s2.M_)
    (htab : s1.distance_matrices_among_codewords_ = s2.distance_matrices_among_codewords_)
    (query : Code) (cs : List Code) (i : Nat) (best : Int × ℚ) :
    FindNNLinear_scan A s1 query cs i best = FindNNLinear_scan A s2 query cs i best := by
  induction cs generalizing i best with
  | nil => rfl
  | cons c cs ih =>
    unfold FindNNLinear_scan
    rw [SymmetricDistance_congr hM htab]
    cases SymmetricDistance A s2 query c with
    | error e => rfl
    | ok dist =>
      simp only []
      rw [ih, ih]

theorem FindNNLinear_congr {A : Arith} (s1 s2 : PQKmeans) (hM : s1.M_ = s2.M_)
    (htab : s1.distance_matrices_among_codewords_ = s2.distance_matrices_among_codewords_)
    (query : Code) (cs : List Code) : FindNNLinear A s1 query cs = FindNNLinear A s2 query cs := by
  unfold FindNNLinear
  rw [FindNNLinear_scan_congr hM htab]

theorem chain_getElem? {α : Type} {R : α → α → Prop} {l : List α} (h : List.Chain' R l)
    (t : Nat) (a b : α) (h1 : l[t]? = some a) (h2 : l[t + 1]? = some b) : R a b := by
  induction l generalizing t with
  | nil => simp at h1
  | cons x l ih =>
    rw [List.chain'_cons'] at h
    cases t with
    | zero =>
      simp only [List.getElem?_cons_zero, Option.some.injEq] at h1
      subst h1
      simp only [zero_add, List.getElem?_cons_succ] at h2
      apply h.1
      rw [List.head?_eq_getElem?]
      exact h2
    | succ t =>
      simp only [List.getElem?_cons_succ] at h1 h2
      exact ih h.2 t h1 h2

/-! ## Runs that return -/

theorem tbl_le {self : PQKmeans} {N : Nat} {B : ℚ} (h : NoOverflow self N B) (m a b : Nat) :
    tbl self m a b ≤ B := by
  unfold tbl
  cases hd : self.table_at m a b with
  | error e => exact h.1
  | ok d =>
    obtain ⟨t, row, ht, hrow, hdd⟩ := table_at_eq_ok.mp hd
    exact h.2.1 t (List.mem_iff_getElem?.mpr ⟨m, ht⟩) row (List.mem_iff_getElem?.mpr ⟨a, hrow⟩)
      d (List.mem_iff_getElem?.mpr ⟨b, hdd⟩)

theorem valid_getElem? {self : PQKmeans} {code : Code} (h : ValidCode self code) {m : Nat}
    (hm : m < self.M_) : ∃ a, code[m]? = some a ∧ a < self.Ks := by
  have hlt : m < code.length := by rw [h.1]; exact hm
  exact ⟨code[m], List.getElem?_eq_getElem hlt, h.2 _ (List.getElem_mem _)⟩

/-- On valid codes `SymmetricDistance` returns. -/
theorem SymmetricDistance_returns {A B : Arith} {self : PQKmeans} (hw : self.WellFormed B)
    {code1 code2 : Code} (h1 : ValidCode self code1) (h2 : ValidCode self code2) :
    ∃ d, SymmetricDistance A self code1 code2 = .ok d := by
  unfold SymmetricDistance
  apply foldE_range_returns _ (fun _ (_ : ℚ) => True) _ _ trivial
  intro s i hi _
  obtain ⟨a, ha, halt⟩ := valid_getElem? h1 hi
  obtain ⟨b, hb, hblt⟩ := valid_getElem? h2 hi
  obtain ⟨-, -, -, d, -, -, -, -, hd⟩ := hw.table_at_ok hi halt hblt
  refine ⟨A.f32 (s + d), ?_, trivial⟩
  simp only [bind_eq_ok, pure_eq_ok]
  exact ⟨a, at?_eq_ok.mpr ha, b, at?_eq_ok.mpr hb, d, hd, rfl⟩

/-- Without rounding, `SymmetricDistance` returns on valid codes the sum of
the table entries. -/
theorem SymmetricDistance_total {B : Arith} {self : PQKmeans} (hw : self.WellFormed B)
    {code1 code2 : Code} (h1 : ValidCode self code1) (h2 : ValidCode self code2) :
    SymmetricDistance unrounded self code1 code2 = .ok (symD self code1 code2) := by
  obtain ⟨d, hd⟩ := SymmetricDistance_returns (A := unrounded) hw h1 h2
  rw [hd, SymmetricDistance_sum hd]

theorem symD_le {self : PQKmeans} {N : Nat} {B : ℚ} (h : NoOverflow self N B)
    (code1 code2 : Code) : symD self code1 code2 ≤ (self.M_ : ℚ) * B := by
  unfold symD
  have := List.sum_le_card_nsmul
    ((List.range self.M_).map (fun m => tbl self m (code1.getD m 0) (code2.getD m 0))) B
    (by
      intro x hx
      obtain ⟨m, -, rfl⟩ := List.mem_map.mp hx
      exact tbl_le h m _ _)
  simpa using this

theorem FindNNLinear_scan_total {A B : Arith} {self : PQKmeans} (hw : self.WellFormed B) {query : Code}
    (hq : ValidCode self query) (cs : List Code) (hcs : ∀ c ∈ cs, ValidCode self c) (i : Nat)
    (best : Int × ℚ) : ∃ best1, FindNNLinear_scan A self query cs i best = .ok best1 := by
  induction cs generalizing i best with
  | nil => exact ⟨best, rfl⟩
  | cons c cs ih =>
    unfold FindNNLinear_scan
    obtain ⟨d, hd⟩ := SymmetricDistance_returns (A := A) hw hq (hcs c (List.mem_cons_self _ _))
    rw [hd]
    simp only []
    have ih1 := ih (fun x hx => hcs x (List.mem_cons_of_mem _ hx))
    split
    · exact ih1 _ _
    · exact ih1 _ _

/-- On valid codes `FindNNLinear` returns as soon as one candidate is at a
distance below `FLT_MAX`. -/
theorem FindNNLinear_returns {A B : Arith} {self : PQKmeans} (hw : self.WellFormed B) {query : Code}
    (hq : ValidCode self query) (cs : List Code) (hcs : ∀ c ∈ cs, ValidCode self c)
    (h : ∃ c ∈ cs, ∃ dc, SymmetricDistance A self query c = .ok dc ∧ dc < FLT_MAX) :
    ∃ i d, FindNNLinear A self query cs = .ok (i, d) := by
  obtain ⟨best1, hscan⟩ := FindNNLinear_scan_total hw hq cs hcs 0 (-1, FLT_MAX)
  obtain ⟨-, hB, hC⟩ := FindNNLinear_scan_ok cs 0 _ best1 hscan
  have hne1 : best1.1 ≠ -1 := by
    intro hm1
    rcases hC with hC | ⟨j, c, -, hidx, -⟩
    · obtain ⟨c, hc, dc, hdc, hlt⟩ := h
      obtain ⟨j, hj⟩ := List.mem_iff_getElem?.mp hc
      obtain ⟨dj, hdj, hle⟩ := hB j c hj
      rw [hdc] at hdj
      injection hdj with hdj
      rw [hC] at hle
      simp only [] at hle
      linarith
    · rw [hidx] at hm1
      omega
  refine ⟨best1.1.toNat, best1.2, ?_⟩
  unfold FindNNLinear
  simp only [bind_eq_ok]
  exact ⟨best1, hscan, by rw [if_neg hne1]; rfl⟩

/-- On valid codes `FindNNLinear` fails its assertion when no candidate is at
a distance below `FLT_MAX`. -/
theorem FindNNLinear_fails {A B : Arith} {self : PQKmeans} (hw : self.WellFormed B) {query : Code}
    (hq : ValidCode self query) (cs : List Code) (hcs : ∀ c ∈ cs, ValidCode self c)
    (h : ∀ c ∈ cs, ∃ dc, SymmetricDistance A self query c = .ok dc ∧ FLT_MAX ≤ dc) :
    FindNNLinear A self query cs = .error .assertion := by
  obtain ⟨best1, hscan⟩ := FindNNLinear_scan_total hw hq cs hcs 0 (-1, FLT_MAX)
  by_cases hm : best1.1 = -1
  · unfold FindNNLinear
    rw [hscan]
    simp only [bind, Except.bind]
    rw [if_pos hm]
  · exfalso
    have hfind : FindNNLinear A self query cs = .ok (best1.1.toNat, best1.2) := by
      unfold FindNNLinear
      simp only [bind_eq_ok]
      exact ⟨best1, hscan, by rw [if_neg hm]; rfl⟩
    obtain ⟨⟨c, hc, hsd⟩, -, -, hlt⟩ := FindNNLinear_ok hfind
    obtain ⟨dc, hdc, hle⟩ := h c (List.mem_iff_getElem?.mpr ⟨_, hc⟩)
    rw [hsd] at hdc
    injection hdc with hdc
    linarith

/-- Step (2.5) succeeds when every sample has an assignment in `[0, K)`
and an error. -/
theorem group_assignments_total {A : Arith} {K : Int} {N : Nat} {assignments : List Int} {errors : List ℚ}
    (hlen : assignments.length = N) (herr : errors.length = N)
    (hidx : ∀ a ∈ assignments, 0 ≤ a ∧ a < K) :
    ∃ r, group_assignments A K N assignments errors = .ok r := by
  unfold group_assignments
  apply foldE_range_returns _
    (fun _ (acc : List (List Nat) × ℚ) => acc.1.length = K.toNat) _ _ (by simp)
  intro acc i hi hP
  have hi1 : i < assignments.length := by rw [hlen]; exact hi
  have hi2 : i < errors.length := by rw [herr]; exact hi
  obtain ⟨h0, hK⟩ := hidx _ (List.getElem_mem hi1)
  have hk : assignments[i].toNat < acc.1.length := by rw [hP]; omega
  refine ⟨(acc.1.set assignments[i].toNat (acc.1[assignments[i].toNat] ++ [i]),
    A.f64 (acc.2 + errors[i])), ?_, by simp [hP]⟩
  simp only [bind_eq_ok, pure_eq_ok, at?_eq_ok]
  exact ⟨_, List.getElem?_eq_getElem hi1, _, List.getElem?_eq_getElem hk,
    _, List.getElem?_eq_getElem hi2, rfl⟩

/-- The assignment step succeeds on valid samples and `K` valid centroids
when every sample has a centroid at a distance below `FLT_MAX`. -/
theorem assignment_step_returns {A B : Arith} {self : PQKmeans} (hw : self.WellFormed B)
    {pydata centroids_old : List Code}
    (hdata : ∀ c ∈ pydata, ValidCode self c) (hcs : ∀ c ∈ centroids_old, ValidCode self c)
    (hlen : centroids_old.length = self.K_.toNat)
    (hfin : ∀ q ∈ pydata, ∃ c ∈ centroids_old, ∃ dc,
      SymmetricDistance A self q c = .ok dc ∧ dc < FLT_MAX) :
    ∃ r, assignment_step A self pydata centroids_old = .ok r := by
  have hall : ∀ q ∈ pydata, ∃ p, (fun query => FindNNLinear A self query centroids_old) q = .ok p := by
    intro q hq
    obtain ⟨i, d, h⟩ := FindNNLinear_returns hw (hdata q hq) centroids_old hcs (hfin q hq)
    exact ⟨(i, d), h⟩
  obtain ⟨nn, hnn⟩ := mapE_ok_of_forall hall
  have hnnlen := mapE_length hnn
  have hidx : ∀ a ∈ nn.map (fun p => (p.1 : Int)), 0 ≤ a ∧ a < self.K_ := by
    intro a ha
    obtain ⟨p, hp, rfl⟩ := List.mem_map.mp ha
    obtain ⟨q, -, hq⟩ := mapE_mem hnn hp
    obtain ⟨⟨c, hc, -⟩, -⟩ := FindNNLinear_ok (i := p.1) (d := p.2) hq
    have := (List.getElem?_eq_some_iff.mp hc).1
    rw [hlen] at this
    omega
  have hl1 : (nn.map (fun p => (p.1 : Int))).length = pydata.length := by simp [hnnlen]
  have hl2 : (nn.map (fun p => p.2)).length = pydata.length := by simp [hnnlen]
  obtain ⟨g, hg⟩ := group_assignments_total (A := A) hl1 hl2 hidx
  refine ⟨(nn.map (fun p => (p.1 : Int)), g.1, g.2), ?_⟩
  unfold assignment_step
  simp only [bind_eq_ok, pure_eq_ok]
  exact ⟨nn, hnn, g, hg, rfl⟩

theorem Ks_eq_head {A : Arith} {self : PQKmeans} (hw : self.WellFormed A) :
    ∃ sub0, at? self.codewords_ 0 = .ok sub0 ∧ sub0.length = self.Ks := by
  have hpos := hw.Ks_pos
  unfold PQKmeans.Ks at hpos ⊢
  cases hc : self.codewords_ with
  | nil => rw [hc] at hpos; simp at hpos
  | cons sub0 rest => exact ⟨sub0, at?_eq_ok.mpr (by simp), rfl⟩

theorem vote_score_le {self : PQKmeans} {N : Nat} {B : ℚ} (hno : NoOverflow self N B)
    (codes : List Code) (selected_ids : List Nat) (hlen : selected_ids.length ≤ N) (m k2 : Nat) :
    vote_score self codes selected_ids m k2 ≤ (N : ℚ) * B := by
  unfold vote_score
  have h1 := List.sum_le_card_nsmul
    ((column codes selected_ids m).map (fun k1 => tbl self m k1 k2)) B
    (by
      intro x hx
      obtain ⟨k1, -, rfl⟩ := List.mem_map.mp hx
      exact tbl_le hno m _ _)
  simp only [List.length_map, column, nsmul_eq_mul] at h1
  have h2 : (selected_ids.length : ℚ) ≤ (N : ℚ) := by exact_mod_cast hlen
  exact le_trans h1 (mul_le_mul_of_nonneg_right h2 hno.1)

/-- The vote for a subspace succeeds when the selected samples are valid and
some candidate has a vote below `FLT_MAX`. -/
theorem vote_subspace_returns {A B : Arith} {self : PQKmeans} (hw : self.WellFormed B) {codes : List Code}
    {selected_ids : List Nat}
    (hsel : ∀ id ∈ selected_ids, ∃ code, codes[id]? = some code ∧ ValidCode self code)
    {m : Nat} (hm : m < self.M_)
    (hlt : ∃ k, k < self.Ks ∧ float_vote A self codes selected_ids m k < FLT_MAX) :
    ∃ x, vote_subspace A self codes selected_ids self.Ks m = .ok x := by
  have hhist : ∃ hist, frequency_histogram codes selected_ids m self.Ks = .ok hist := by
    unfold frequency_histogram
    apply foldE_returns _ (fun (hist : List Int) => hist.length = self.Ks) _ _ (by simp)
    intro hist id hid hP
    obtain ⟨code, hcode, hval⟩ := hsel id hid
    obtain ⟨c, hc, hclt⟩ := valid_getElem? hval hm
    have hch : c < hist.length := by rw [hP]; exact hclt
    refine ⟨hist.set c (hist[c] + 1), ?_, by simp [hP]⟩
    simp only [bind_eq_ok, pure_eq_ok, at?_eq_ok]
    exact ⟨_, hcode, c, hc, _, List.getElem?_eq_getElem hch, rfl⟩
  obtain ⟨hist, hhist⟩ := hhist
  have hhlen := (frequency_histogram_ok hhist).1
  have hadd : ∀ k1 freq (vote : List ℚ), k1 < self.Ks → vote.length = self.Ks →
      ∃ vote1, vote_add A self m k1 freq self.Ks vote = .ok vote1 := by
    intro k1 freq vote hk1 hvl
    unfold vote_add
    apply foldE_range_returns _ (fun _ (v : List ℚ) => v.length = self.Ks) _ _ hvl
    intro v k2 hk2 hP
    obtain ⟨-, -, -, d, -, -, -, -, hd⟩ := hw.table_at_ok hm hk1 hk2
    have hk2v : k2 < v.length := by rw [hP]; exact hk2
    refine ⟨v.set k2 (A.f32 (v[k2] + A.f32 (A.f32 (freq : ℚ) * d))), ?_, by simp [hP]⟩
    simp only [bind_eq_ok, pure_eq_ok, at?_eq_ok]
    exact ⟨d, hd, _, List.getElem?_eq_getElem hk2v, rfl⟩
  have hvote : ∃ vote, vote_all A self m self.Ks hist = .ok vote := by
    unfold vote_all
    apply foldE_range_returns _ (fun _ (v : List ℚ) => v.length = self.Ks) _ _ (by simp)
    intro v k1 hk1 hP
    have hk1h : k1 < hist.length := by rw [hhlen]; exact hk1
    by_cases h0 : hist[k1] = 0
    · refine ⟨v, ?_, hP⟩
      simp only [bind_eq_ok, at?_eq_ok]
      exact ⟨_, List.getElem?_eq_getElem hk1h, by rw [if_pos h0]; rfl⟩
    · obtain ⟨v1, hv1⟩ := hadd k1 hist[k1] v hk1 hP
      refine ⟨v1, ?_, by rw [(vote_add_ok hv1).1, hP]⟩
      simp only [bind_eq_ok, at?_eq_ok]
      exact ⟨_, List.getElem?_eq_getElem hk1h, by rw [if_neg h0]; exact hv1⟩
  obtain ⟨vote, hvote⟩ := hvote
  have hvlen := (vote_all_ok hvote).1
  have hmin : ∃ best, vote_min vote self.Ks = .ok best := by
    unfold vote_min
    apply foldE_range_returns _ (fun _ (_ : ℚ × Int) => True) _ _ trivial
    intro b ks hks _
    have hksv : ks < vote.length := by rw [hvlen]; exact hks
    by_cases hlt1 : vote[ks] < b.1
    · refine ⟨(vote[ks], (ks : Int)), ?_, trivial⟩
      simp only [bind_eq_ok, at?_eq_ok]
      exact ⟨_, List.getElem?_eq_getElem hksv, by rw [if_pos hlt1]; rfl⟩
    · refine ⟨b, ?_, trivial⟩
      simp only [bind_eq_ok, at?_eq_ok]
      exact ⟨_, List.getElem?_eq_getElem hksv, by rw [if_neg hlt1]; rfl⟩
  obtain ⟨best, hbest⟩ := hmin
  have hne : best.2 ≠ -1 := by
    intro h1
    rcases vote_min_ok hbest with ⟨-, hall⟩ | ⟨k0, -, h2, -⟩
    · obtain ⟨k, hk, hklt⟩ := hlt
      have h3 := hall k hk
      rw [vote_all_score hhist hvote k hk] at h3
      linarith
    · rw [h2] at h1; omega
  refine ⟨(best.2 % 256).toNat, ?_⟩
  unfold vote_subspace
  simp only [bind_eq_ok]
  exact ⟨hist, hhist, vote, hvote, best, hbest, by rw [if_neg hne]; rfl⟩

/-- Sparse voting succeeds when the selected samples are valid and in every
subspace some candidate has a vote below `FLT_MAX`. -/
theorem ComputeCentroidBySparseVoting_returns {A B : Arith} {self : PQKmeans}
    (hw : self.WellFormed B) {codes : List Code} {selected_ids : List Nat}
    (hsel : ∀ id ∈ selected_ids, ∃ code, codes[id]? = some code ∧ ValidCode self code)
    (hlt : ∀ m, m < self.M_ →
      ∃ k, k < self.Ks ∧ float_vote A self codes selected_ids m k < FLT_MAX) :
    ∃ v, ComputeCentroidBySparseVoting A self codes selected_ids = .ok v := by
  obtain ⟨sub0, hsub0, hKs⟩ := Ks_eq_head hw
  have hall : ∀ m ∈ List.range self.M_,
      ∃ x, vote_subspace A self codes selected_ids sub0.length m = .ok x := by
    intro m hm
    rw [hKs]
    exact vote_subspace_returns hw hsel (List.mem_range.mp hm) (hlt m (List.mem_range.mp hm))
  obtain ⟨v, hv⟩ := mapE_ok_of_forall hall
  refine ⟨v, ?_⟩
  unfold ComputeCentroidBySparseVoting
  simp only [bind_eq_ok]
  exact ⟨sub0, hsub0, hv⟩

/-- The update step succeeds on the grouping of an assignment of valid
samples when every vote it takes has a candidate below `FLT_MAX`. -/
theorem update_step_returns {A B : Arith} {self : PQKmeans} (hw : self.WellFormed B)
    {pydata : List Code} (hdata : ∀ c ∈ pydata, ValidCode self c)
    (hfin : ∀ sel m, sel.Sublist (List.range pydata.length) → m < self.M_ →
      ∃ k2, k2 < self.Ks ∧ float_vote A self pydata sel m k2 < FLT_MAX)
    (itr : Int) {assignments : List Int}
    {selected : List (List Nat)} {centroids_new : List Code}
    (hsel : ∀ k, k < self.K_.toNat → selected[k]? =
      some ((List.range pydata.length).filter (fun n => assigned assignments n = k)))
    (hlen : centroids_new.length = self.K_.toNat) :
    ∃ centroids_next, update_step A self pydata itr selected centroids_new = .ok centroids_next := by
  unfold update_step
  by_cases hlast : itr ≠ self.itr_ - 1
  · rw [if_pos hlast]
    apply foldE_range_returns _ (fun _ (C : List Code) => C.length = self.K_.toNat) _ _ hlen
    intro C k hk hP
    have hs := hsel k hk
    by_cases hempty : (List.range pydata.length).filter (fun n => assigned assignments n = k) = []
    · refine ⟨C, ?_, hP⟩
      simp only [bind_eq_ok, at?_eq_ok]
      exact ⟨_, hs, by rw [if_pos hempty]; rfl⟩
    · have hids : ∀ id ∈ (List.range pydata.length).filter (fun n => assigned assignments n = k),
          ∃ code, pydata[id]? = some code ∧ ValidCode self code := by
        intro id hid
        have hlt : id < pydata.length := List.mem_range.mp (List.mem_filter.mp hid).1
        exact ⟨pydata[id], List.getElem?_eq_getElem hlt, hdata _ (List.getElem_mem hlt)⟩
      obtain ⟨v, hv⟩ := ComputeCentroidBySparseVoting_returns (A := A) hw hids
        (fun m hm => hfin _ m (List.filter_sublist _) hm)
      refine ⟨C.set k v, ?_, by simp [hP]⟩
      simp only [bind_eq_ok, at?_eq_ok]
      refine ⟨_, hs, ?_⟩
      rw [if_neg hempty]
      simp only [bind_eq_ok]
      exact ⟨v, hv, by rw [if_pos (by rw [hP]; exact hk)]; rfl⟩
  · rw [if_neg hlast]
    exact ⟨_, rfl⟩

/-- When the shuffle permutes its argument, picking `K ≤ N` initial centroids
succeeds. -/
theorem InitializeCentroidsByRandomPicking_total {shuffle : List Nat → List Nat}
    (hperm : ∀ l, (shuffle l).Perm l) {codes : List Code} {K : Int} (hK0 : 0 ≤ K)
    (hKN : K ≤ codes.length) :
    ∃ centroids, InitializeCentroidsByRandomPicking shuffle codes K = .ok centroids := by
  unfold InitializeCentroidsByRandomPicking
  rw [if_neg (not_lt.mpr hK0)]
  simp only []
  apply mapE_ok_of_forall
  intro k hk
  have hp := hperm (List.range codes.length)
  have hlen : (shuffle (List.range codes.length)).length = codes.length := by
    rw [hp.length_eq, List.length_range]
  have hk1 : k < (shuffle (List.range codes.length)).length := by
    rw [hlen]; have := List.mem_range.mp hk; omega
  have hid : (shuffle (List.range codes.length))[k] < codes.length :=
    List.mem_range.mp (hp.mem_iff.mp (List.getElem_mem hk1))
  refine ⟨codes[(shuffle (List.range codes.length))[k]], ?_⟩
  simp only [bind_eq_ok, at?_eq_ok]
  exact ⟨_, List.getElem?_eq_getElem hk1, List.getElem?_eq_getElem hid⟩

/-- The main loop runs every round to its end when no search and no vote
meets only values that are not below `FLT_MAX`. -/
theorem fit_loop_returns {A B : Arith} {self : PQKmeans} (hw : self.WellFormed B)
    {pydata : List Code}
    (hfin : StaysFinite A self pydata) (hdata : ∀ c ∈ pydata, ValidCode self c)
    (hpos : 0 < self.K_) (r : Nat) (cn : List Code) (asg0 : List Int)
    (hlen : cn.length = self.K_.toNat) (hvalid : ∀ c ∈ cn, ValidCode self c) :
    ∃ res, (fit_loop A self pydata r cn asg0).2 = .ok res := by
  induction r generalizing cn asg0 with
  | zero => exact ⟨_, rfl⟩
  | succ r ih =>
    have hne : cn ≠ [] := by
      intro h; rw [h] at hlen; simp at hlen; omega
    obtain ⟨c0, hc0⟩ := List.exists_mem_of_ne_nil cn hne
    have hsearch : ∀ q ∈ pydata, ∃ c ∈ cn, ∃ dc,
        SymmetricDistance A self q c = .ok dc ∧ dc < FLT_MAX := by
      intro q hq
      obtain ⟨d, hd⟩ := SymmetricDistance_returns (A := A) hw (hdata q hq) (hvalid c0 hc0)
      exact ⟨c0, hc0, d, hd, hfin.1 q c0 d (hdata q hq) (hvalid c0 hc0) hd⟩
    obtain ⟨⟨asg, sel, esum⟩, hstep⟩ := assignment_step_returns hw hdata hvalid hlen hsearch
    obtain ⟨nn, -, -, -, -, hsel, -⟩ := assignment_step_ok hstep
    obtain ⟨cnext, hupd⟩ := update_step_returns (A := A) hw hdata hfin.2
      (self.itr_ - ((r : Int) + 1)) hsel hlen
    have hl := (update_step_frame hupd).1
    have hv := update_step_valid hw hvalid hupd
    obtain ⟨res, hres⟩ := ih cnext asg (by rw [hl, hlen]) hv
    refine ⟨res, ?_⟩
    unfold fit_loop
    rw [hstep]
    simp only []
    rw [hupd]
    exact hres

/-- The call of `fit` returns on an object built by the constructor, with
`0 < K < N < 2^31`, valid samples and a shuffle that permutes, when no search
and no vote meets only values that are not below `FLT_MAX`. -/
theorem fit_returns {A B : Arith} {shuffle : List Nat → List Nat} {self : PQKmeans}
    {pydata : List Code}
    (hw : self.WellFormed B) (hpos : 0 < self.K_) (hKN : self.K_ < pydata.length)
    (hint : pydata.length < 2147483648) (hdata : ∀ c ∈ pydata, ValidCode self c)
    (hperm : ∀ l, (shuffle l).Perm l) (hfin : StaysFinite A self pydata) :
    (fit A shuffle self pydata).status = .ok () := by
  obtain ⟨cn0, hinit⟩ := InitializeCentroidsByRandomPicking_total hperm (le_of_lt hpos)
    (le_of_lt hKN)
  obtain ⟨-, hlen0, hmem0⟩ := InitializeCentroidsByRandomPicking_ok hinit
  obtain ⟨res, hres⟩ := fit_loop_returns (A := A) (refresh_wellFormed hw pydata.length)
    hfin hdata hpos self.itr_.toNat cn0
    (List.replicate pydata.length 0) hlen0 (fun c hc => hdata c (hmem0 c hc))
  unfold fit
  rw [toInt32_of_lt hint, if_pos hKN, if_neg (not_lt.mpr (le_of_lt hpos))]
  simp only []
  rw [hinit]
  simp only []
  rcases hloop : fit_loop A (self.refresh pydata.length) pydata self.itr_.toNat cn0
      (self.refresh pydata.length).assignments with ⟨log, res1⟩
  have hloop2 : fit_loop A (self.refresh pydata.length) pydata self.itr_.toNat cn0
      (List.replicate pydata.length 0) = (log, res1) := hloop
  rw [hloop2] at hres
  simp only [] at hres
  subst hres
  rfl

/-- A main loop that runs to its end reports one mean error per round. -/
theorem fit_loop_reported_length {A : Arith} {self : PQKmeans} {pydata : List Code} (r : Nat)
    (cn : List Code) (asg0 : List Int) (log : List ℚ) (res : List Code × List Int)
    (h : fit_loop A self pydata r cn asg0 = (log, .ok res)) : log.length = r := by
  induction r generalizing cn asg0 log with
  | zero =>
    simp only [fit_loop] at h
    injection h with h1 h2
    rw [← h1]; rfl
  | succ r ih =>
    obtain ⟨asg, sel, esum, cnext, -, -, hlog, hrest⟩ := fit_loop_succ_ok h
    rw [hlog, List.length_cons, ih cnext asg _ (Prod.ext rfl hrest)]

/-! ## Squared distances of codewords -/

theorem unrounded_f32 (x : ℚ) : unrounded.f32 x = x := rfl

theorem unrounded_f64 (x : ℚ) : unrounded.f64 x = x := rfl

theorem L2_fold_eq (l : List (ℚ × ℚ)) (acc : ℚ) :
    l.foldl (fun dist p => unrounded.f32 (dist +
      unrounded.f32 (unrounded.f32 (p.1 - p.2) * unrounded.f32 (p.1 - p.2)))) acc =
      acc + (l.map (fun p => (p.1 - p.2) * (p.1 - p.2))).sum := by
  induction l generalizing acc with
  | nil => simp
  | cons p l ih =>
    simp only [List.foldl_cons, List.map_cons, List.sum_cons]
    rw [ih]
    simp only [unrounded_f32]
    ring

/-- Without rounding, the squared distance is the sum of the squared
differences of the coordinates. -/
theorem L2SquaredDistance_eq_ok {v w : List ℚ} {d : ℚ} :
    L2SquaredDistance unrounded v w = .ok d ↔
      v.length = w.length ∧ d = ((List.zip v w).map (fun p => (p.1 - p.2) * (p.1 - p.2))).sum := by
  unfold L2SquaredDistance
  by_cases h : v.length = w.length
  · rw [if_pos h, L2_fold_eq]
    constructor
    · intro h1
      injection h1 with h1
      exact ⟨h, by rw [← h1]; ring⟩
    · rintro ⟨-, h1⟩
      rw [h1]; simp
  · rw [if_neg h]
    constructor
    · intro h1; cases h1
    · rintro ⟨h1, -⟩; exact absurd h1 h

/-- Without rounding, the squared distance of two concatenations of blocks of
equal lengths is the sum of the squared distances of the blocks. -/
theorem L2SquaredDistance_append {v1 w1 v2 w2 : List ℚ} {d1 d2 : ℚ}
    (h1 : L2SquaredDistance unrounded v1 w1 = .ok d1)
    (h2 : L2SquaredDistance unrounded v2 w2 = .ok d2) :
    L2SquaredDistance unrounded (v1 ++ v2) (w1 ++ w2) = .ok (d1 + d2) := by
  obtain ⟨hl1, hd1⟩ := L2SquaredDistance_eq_ok.mp h1
  obtain ⟨hl2, hd2⟩ := L2SquaredDistance_eq_ok.mp h2
  rw [L2SquaredDistance_eq_ok]
  refine ⟨by simp [hl1, hl2], ?_⟩
  rw [List.zip_append hl1, List.map_append, List.sum_append, ← hd1, ← hd2]

theorem L2_fold_fixed {A : Arith} (hA : A.Lawful) (l : List (ℚ × ℚ)) (acc : ℚ)
    (h1 : A.f32 acc = acc) (h2 : 0 ≤ acc) :
    A.f32 (l.foldl
      (fun dist p => A.f32 (dist + A.f32 (A.f32 (p.1 - p.2) * A.f32 (p.1 - p.2)))) acc) =
      l.foldl
        (fun dist p => A.f32 (dist + A.f32 (A.f32 (p.1 - p.2) * A.f32 (p.1 - p.2)))) acc ∧
    0 ≤ l.foldl
      (fun dist p => A.f32 (dist + A.f32 (A.f32 (p.1 - p.2) * A.f32 (p.1 - p.2)))) acc := by
  induction l generalizing acc with
  | nil => exact ⟨h1, h2⟩
  | cons p l ih =>
    simp only [List.foldl_cons]
    apply ih
    · exact hA.idem _
    · apply hA.nonneg
      exact add_nonneg h2 (hA.nonneg _ (mul_self_nonneg _))

/-- A squared distance is never negative, also when it is rounded. -/
theorem L2SquaredDistance_nonneg {A : Arith} (hA : A.Lawful) {v w : List ℚ} {d : ℚ}
    (h : L2SquaredDistance A v w = .ok d) : 0 ≤ d := by
  unfold L2SquaredDistance at h
  by_cases hl : v.length = w.length
  · rw [if_pos hl] at h
    injection h with h
    rw [← h]
    exact (L2_fold_fixed hA _ 0 hA.zero (le_refl _)).2
  · rw [if_neg hl] at h; cases h

/-- A squared distance is a `float` value: rounding it again changes nothing. -/
theorem L2SquaredDistance_fixed {A : Arith} (hA : A.Lawful) {v w : List ℚ} {d : ℚ}
    (h : L2SquaredDistance A v w = .ok d) : A.f32 d = d := by
  unfold L2SquaredDistance at h
  by_cases hl : v.length = w.length
  · rw [if_pos hl] at h
    injection h with h
    rw [← h]
    exact (L2_fold_fixed hA _ 0 hA.zero (le_refl _)).1
  · rw [if_neg hl] at h; cases h

/-- In a well-formed object, a table entry that exists is the squared
distance of its two codewords. -/
theorem table_at_codewords {A : Arith} {self : PQKmeans} (hw : self.WellFormed A) {m a b : Nat} {d : ℚ}
    (h : self.table_at m a b = .ok d) :
    ∃ sub v1 v2, self.codewords_[m]? = some sub ∧ sub[a]? = some v1 ∧ sub[b]? = some v2 ∧
      L2SquaredDistance A v1 v2 = .ok d := by
  obtain ⟨hm, ha, hb⟩ := hw.table_at_lt h
  obtain ⟨sub, v1, v2, d1, hsub, hv1, hv2, hL, hd1⟩ := hw.table_at_ok hm ha hb
  rw [h] at hd1
  injection hd1 with hd1
  subst hd1
  exact ⟨sub, v1, v2, hsub, hv1, hv2, hL⟩

theorem tbl_nonneg {A : Arith} (hA : A.Lawful) {self : PQKmeans} (hw : self.WellFormed A)
    (m a b : Nat) :
    0 ≤ tbl self m a b := by
  unfold tbl
  cases h : self.table_at m a b with
  | error e => exact le_refl _
  | ok d =>
    obtain ⟨sub, v1, v2, -, -, -, hL⟩ := table_at_codewords hw h
    exact L2SquaredDistance_nonneg hA hL

theorem tbl_self {A : Arith} (hA : A.Lawful) {self : PQKmeans} (hw : self.WellFormed A)
    {m a : Nat} (hm : m < self.M_)
    (ha : a < self.Ks) : self.table_at m a a = .ok 0 := by
  obtain ⟨sub, v1, v2, d, -, hv1, hv2, hL, hd⟩ := hw.table_at_ok hm ha ha
  rw [hv1] at hv2
  injection hv2 with hv2
  subst hv2
  rw [L2SquaredDistance_self hA] at hL
  injection hL with hL
  rw [hL]
  exact hd

/-- Every table entry is a `float` value. -/
theorem tbl_fixed {A : Arith} (hA : A.Lawful) {self : PQKmeans} (hw : self.WellFormed A)
    (m a b : Nat) : A.f32 (tbl self m a b) = tbl self m a b := by
  unfold tbl
  cases h : self.table_at m a b with
  | error e => exact hA.zero
  | ok d =>
    obtain ⟨sub, v1, v2, -, -, -, hL⟩ := table_at_codewords hw h
    exact L2SquaredDistance_fixed hA hL

/-! ## Reconstructions -/

/-- On valid codes every table entry read by `SymmetricDistance` exists, and it
is the squared distance of the two codewords the codes select. -/
theorem valid_table_entry {A : Arith} {self : PQKmeans} (hw : self.WellFormed A) {code1 code2 : Code}
    (h1 : ValidCode self code1) (h2 : ValidCode self code2) {m : Nat} (hm : m < self.M_) :
    ∃ a b, code1[m]? = some a ∧ code2[m]? = some b ∧ a < self.Ks ∧ b < self.Ks ∧
      self.table_at m a b = .ok (tbl self m (code1.getD m 0) (code2.getD m 0)) ∧
      L2SquaredDistance A ((self.codewords_.getD m []).getD (code1.getD m 0) [])
        ((self.codewords_.getD m []).getD (code2.getD m 0) []) =
        .ok (tbl self m (code1.getD m 0) (code2.getD m 0)) := by
  obtain ⟨a, ha, halt⟩ := valid_getElem? h1 hm
  obtain ⟨b, hb, hblt⟩ := valid_getElem? h2 hm
  obtain ⟨sub, v1, v2, d, hsub, hv1, hv2, hL, hd⟩ := hw.table_at_ok hm halt hblt
  rw [getD_of_getElem? ha, getD_of_getElem? hb, getD_of_getElem? hsub, getD_of_getElem? hv1,
    getD_of_getElem? hv2, tbl_of_ok hd]
  exact ⟨a, b, ha, hb, halt, hblt, hd, hL⟩

theorem L2_reconstruct_prefix {self : PQKmeans} (hw : self.WellFormed unrounded)
    {code1 code2 : Code}
    (h1 : ValidCode self code1) (h2 : ValidCode self code2) (i : Nat) (hi : i ≤ self.M_) :
    L2SquaredDistance unrounded
      ((List.range i).flatMap (fun m => (self.codewords_.getD m []).getD (code1.getD m 0) []))
      ((List.range i).flatMap (fun m => (self.codewords_.getD m []).getD (code2.getD m 0) [])) =
      .ok ((List.range i).map
        (fun m => tbl self m (code1.getD m 0) (code2.getD m 0))).sum := by
  induction i with
  | zero => simp [L2SquaredDistance]
  | succ i ih =>
    obtain ⟨a, b, -, -, -, -, -, hL⟩ := valid_table_entry hw h1 h2 (Nat.lt_of_succ_le hi)
    rw [List.range_succ, List.flatMap_append, List.flatMap_append, List.map_append,
      List.sum_append]
    simp only [List.flatMap_singleton, List.map_cons, List.map_nil, List.sum_cons, List.sum_nil,
      add_zero]
    exact L2SquaredDistance_append (ih (Nat.le_of_succ_le hi)) hL

/-! ## The weighted vote -/

theorem column_lt {A : Arith} {self : PQKmeans} (hw : self.WellFormed A) {codes : List Code}
    (hcodes : ∀ c ∈ codes, ValidCode self c) (selected_ids : List Nat) (m : Nat) :
    ∀ c ∈ column codes selected_ids m, c < self.Ks := by
  intro c hc
  unfold column at hc
  obtain ⟨id, -, rfl⟩ := List.mem_map.mp hc
  apply getD_lt_of_forall hw.Ks_pos
  intro x hx
  cases hid : codes[id]? with
  | none => simp [List.getD_eq_getElem?_getD, hid] at hx
  | some code =>
    simp only [List.getD_eq_getElem?_getD, hid, Option.getD_some] at hx
    exact (hcodes code (List.mem_iff_getElem?.mpr ⟨_, hid⟩)).2 x hx

/-- Without rounding and within the bounds of `NoOverflow`, no search and no
vote meets only values that are not below `FLT_MAX`. -/
theorem StaysFinite_of_NoOverflow {B : Arith} {self : PQKmeans} (hw : self.WellFormed B)
    {pydata : List Code} {bound : ℚ} (hno : NoOverflow self pydata.length bound)
    (hdata : ∀ c ∈ pydata, ValidCode self c) : StaysFinite unrounded self pydata := by
  refine ⟨fun q c d hq hc hd => ?_, fun sel m hsub hm => ⟨0, hw.Ks_pos, ?_⟩⟩
  · rw [SymmetricDistance_sum hd]
    exact lt_of_le_of_lt (symD_le hno q c) hno.2.2.1
  · rw [float_vote_unrounded, weighted_score_eq self (column_lt hw hdata sel m)]
    have hlen : sel.length ≤ pydata.length := by
      have := hsub.length_le
      simpa using this
    exact lt_of_le_of_lt (vote_score_le hno pydata sel hlen m 0) hno.2.2.2

/-! ## The vote of a single sample -/

theorem filter_range_eq (Ks a : Nat) (ha : a < Ks) (f : Nat → Nat)
    (hf : ∀ k, f k ≠ 0 ↔ k = a) :
    (List.range Ks).filter (fun k1 => f k1 != 0) = [a] := by
  induction Ks with
  | zero => omega
  | succ n ih =>
    rw [filter_range_succ]
    by_cases hn : a = n
    · subst hn
      have h0 : (List.range a).filter (fun k1 => f k1 != 0) = [] := by
        rw [List.filter_eq_nil_iff]
        intro k hk
        have hk1 := List.mem_range.mp hk
        have : ¬ f k ≠ 0 := fun h => by have := (hf k).mp h; omega
        simpa using this
      rw [h0]
      have : (f a != 0) = true := by
        rw [bne_iff_ne]; exact (hf a).mpr rfl
      simp [this]
    · have : (f n != 0) = false := by
        have h1 : ¬ f n ≠ 0 := fun h => hn ((hf n).mp h).symm
        simpa using h1
      rw [ih (by omega)]
      simp [this]

/-- The vote of a single sample for a candidate is one table entry, also in
rounded arithmetic. -/
theorem float_vote_single {A : Arith} (hA : A.Lawful) {self : PQKmeans}
    (hw : self.WellFormed A) {codes : List Code} {id : Nat} {c : Code}
    (hid : codes[id]? = some c) (m k2 : Nat) (ha : c.getD m 0 < self.Ks) :
    float_vote A self codes [id] m k2 = tbl self m (c.getD m 0) k2 := by
  have hfreq : ∀ k, frequency codes [id] m k = if c.getD m 0 = k then 1 else 0 := by
    intro k
    have hc : codes.getD id [] = c := getD_of_getElem? hid
    unfold frequency
    simp only [List.countP_cons, List.countP_nil, zero_add, hc]
    by_cases h : c.getD m 0 = k <;> simp [h]
  unfold float_vote
  rw [filter_range_eq self.Ks (c.getD m 0) ha (fun k => frequency codes [id] m k)
    (by
      intro k
      show frequency codes [id] m k ≠ 0 ↔ _
      rw [hfreq]
      by_cases h : c.getD m 0 = k
      · rw [if_pos h]
        exact ⟨fun _ => h.symm, fun _ => one_ne_zero⟩
      · rw [if_neg h]
        exact ⟨fun h0 => absurd rfl h0, fun hk => absurd hk.symm h⟩)]
  simp only [List.map_cons, List.map_nil, fsum, List.foldl_cons, List.foldl_nil, hfreq,
    if_true, Nat.cast_one, zero_add]
  rw [hA.one, one_mul, hA.idem, tbl_fixed hA hw]

/-- The `float` accumulation of zeros is zero. -/
theorem fsum_zero {A : Arith} (hA : A.Lawful) (l : List ℚ) (h : ∀ x ∈ l, x = 0) :
    fsum A l = 0 := by
  unfold fsum
  induction l with
  | nil => rfl
  | cons a l ih =>
    rw [List.foldl_cons, h a (List.mem_cons_self _ _), add_zero, hA.zero]
    exact ih (fun x hx => h x (List.mem_cons_of_mem _ hx))

/-! ## The examples -/

theorem huge_object_ctor : PQKmeans.ctor ieee huge_codewords 1 1 = .ok huge_object := by
  with_unfolding_all rfl

theorem dup_object_ctor : PQKmeans.ctor ieee dup_codewords 1 1 = .ok dup_object := by
  with_unfolding_all rfl

theorem tie_object_ctor : PQKmeans.ctor ieee tie_codewords 1 2 = .ok tie_object := by
  with_unfolding_all rfl

/-! ## The shuffle -/

/-- The outcome of `fit` depends on the shuffle only through the shuffled list
of the sample indices. -/
theorem fit_congr_shuffle {A : Arith} (s1 s2 : List Nat → List Nat) (self : PQKmeans)
    (pydata : List Code)
    (h : s1 (List.range pydata.length) = s2 (List.range pydata.length)) :
    fit A s1 self pydata = fit A s2 self pydata := by
  unfold fit InitializeCentroidsByRandomPicking
  simp only [h]

/-- A permutation of `[0, 1]` is `[0, 1]` or `[1, 0]`. -/
theorem perm_pair {l : List Nat} (h : l.Perm [0, 1]) : l = [0, 1] ∨ l = [1, 0] := by
  have hlen := h.length_eq
  have hnd : l.Nodup := h.nodup_iff.mpr (by decide)
  match l, hlen, hnd, h with
  | [a, b], _, hnd, h =>
    have ha : a ∈ [0, 1] := h.mem_iff.mp (by simp)
    have hb : b ∈ [0, 1] := h.mem_iff.mp (by simp)
    simp only [List.mem_cons, List.mem_singleton, List.not_mem_nil, or_false] at ha hb
    simp only [List.nodup_cons, List.mem_singleton, List.not_mem_nil, not_false_eq_true,
      List.nodup_nil, and_true] at hnd
    rcases ha with rfl | rfl <;> rcases hb with rfl | rfl
    · exact absurd rfl hnd
    · exact Or.inl rfl
    · exact Or.inr rfl
    · exact absurd rfl hnd

/-! ## The example on a line in IEEE arithmetic -/

theorem valid_line_code {c : Code} (h : ValidCode line_object c) :
    c ∈ ([[0], [1], [2]] : List Code) := by
  obtain ⟨hlen, hlt⟩ := h
  match c, hlen, hlt with
  | [a], _, hlt =>
    have ha : a < 3 := hlt a (List.mem_singleton.mpr rfl)
    interval_cases a <;> simp

theorem line_distances :
    ∀ q ∈ ([[0], [1], [2]] : List Code), ∀ c ∈ ([[0], [1], [2]] : List Code),
      ∃ d, SymmetricDistance ieee line_object q c = .ok d ∧ d < FLT_MAX := by
  intro q hq c hc
  simp only [List.mem_cons, List.mem_singleton, List.not_mem_nil, or_false] at hq hc
  rcases hq with rfl | rfl | rfl <;> rcases hc with rfl | rfl | rfl
  · exact ⟨0, by with_unfolding_all rfl, by norm_num [FLT_MAX]⟩
  · exact ⟨1, by with_unfolding_all rfl, by norm_num [FLT_MAX]⟩
  · exact ⟨9, by with_unfolding_all rfl, by norm_num [FLT_MAX]⟩
  · exact ⟨1, by with_unfolding_all rfl, by norm_num [FLT_MAX]⟩
  · exact ⟨0, by with_unfolding_all rfl, by norm_num [FLT_MAX]⟩
  · exact ⟨4, by with_unfolding_all rfl, by norm_num [FLT_MAX]⟩
  · exact ⟨9, by with_unfolding_all rfl, by norm_num [FLT_MAX]⟩
  · exact ⟨4, by with_unfolding_all rfl, by norm_num [FLT_MAX]⟩
  · exact ⟨0, by with_unfolding_all rfl, by norm_num [FLT_MAX]⟩

theorem line_votes : ∀ sel ∈ (List.range 5).sublists,
    float_vote ieee line_object line_data sel 0 1 ≤ 13 := by
  with_unfolding_all decide

/-- In IEEE arithmetic no search and no vote on `line_data` meets only values
that are not below `FLT_MAX`. -/
theorem line_stays_finite : StaysFinite ieee line_object line_data := by
  refine ⟨fun q c d hq hc hd => ?_, fun sel m hsub hm => ?_⟩
  · obtain ⟨d1, hd1, hlt⟩ := line_distances q (valid_line_code hq) c (valid_line_code hc)
    rw [hd] at hd1
    injection hd1 with hd1
    rw [hd1]
    exact hlt
  · have hm1 : m < 1 := hm
    have hm0 : m = 0 := by omega
    subst hm0
    exact ⟨1, by decide, lt_of_le_of_lt (line_votes sel (List.mem_sublists.mpr hsub))
      (by norm_num [FLT_MAX])⟩

theorem line_votes_exact : ∀ m k2, m < line_object.M_ → k2 < line_object.Ks →
    float_vote ieee line_object line_data [1, 2, 4] m k2 =
      weighted_score line_object line_data [1, 2, 4] m k2 := by
  intro m k2 hm hk2
  have hm1 : m < 1 := hm
  have hk : k2 < 3 := hk2
  interval_cases m
  interval_cases k2 <;> with_unfolding_all rfl

/-! ## The claims -/

/-- C1. Assignment completeness: for an object built by the constructor and
`0 < K`, in any arithmetic (IEEE included), every call of `fit` that returns
publishes an assignment vector with exactly `N` entries, each entry `a` with
`0 ≤ a < K`. -/
theorem fit_assignment_complete (A : Arith) (shuffle : List Nat → List Nat)
    (cw : List (List (List ℚ))) (K itr : Int) (self : PQKmeans) (pydata : List Code)
    (hctor : PQKmeans.ctor A cw K itr = .ok self) (hK : 0 < K)
    (hok : (fit A shuffle self pydata).status = .ok ()) :
    (fit A shuffle self pydata).self.assignments.length = pydata.length ∧
      ∀ a ∈ (fit A shuffle self pydata).self.assignments, 0 ≤ a ∧ a < K := by
  obtain ⟨-, hKeq, -, -, -, hw, -⟩ := ctor_ok_inv hctor
  subst hKeq
  obtain ⟨cn0, cn, asg, hinit, hloop, hself⟩ := fit_ok_inv hok
  obtain ⟨hK0, hlen0, -⟩ := InitializeCentroidsByRandomPicking_ok hinit
  rw [hself]
  simp only []
  obtain ⟨-, hor⟩ := fit_loop_shape _ cn0 _ _ (cn, asg) hloop
  rcases hor with ⟨-, h0⟩ | ⟨h1, h2⟩
  · simp only [] at h0
    subst h0
    refine ⟨by simp, fun a ha => ?_⟩
    rw [List.eq_of_mem_replicate ha]
    exact ⟨le_refl _, hK⟩
  · refine ⟨h1, fun a ha => ?_⟩
    obtain ⟨h3, h4⟩ := h2 a ha
    refine ⟨h3, ?_⟩
    rw [hlen0] at h4
    omega

theorem fit_assignment_complete_witness :
    (fit ieee id line_object line_data).status = .ok () ∧
    (fit ieee id line_object line_data).self.assignments.length = line_data.length ∧
    ∀ a ∈ (fit ieee id line_object line_data).self.assignments, 0 ≤ a ∧ a < 2 :=
  ⟨line_fit_ok, fit_assignment_complete ieee id line_codewords 2 3 line_object line_data
    line_object_ctor (by decide) line_fit_ok⟩

/-- C2. Centroid validity: for an object built by the constructor and valid
codes, in any arithmetic (IEEE included), every call of `fit` that returns
publishes exactly `K` centroids, each of length `M` with every element below
`Ks`. -/
theorem fit_centroids_valid (A : Arith) (shuffle : List Nat → List Nat)
    (cw : List (List (List ℚ))) (K itr : Int) (self : PQKmeans) (pydata : List Code)
    (hctor : PQKmeans.ctor A cw K itr = .ok self)
    (hvalid : ∀ c ∈ pydata, ValidCode self c)
    (hok : (fit A shuffle self pydata).status = .ok ()) :
    ((fit A shuffle self pydata).self.centroids.length : Int) = K ∧
      ∀ c ∈ (fit A shuffle self pydata).self.centroids,
        c.length = cw.length ∧ ∀ x ∈ c, x < self.Ks := by
  obtain ⟨hcw, hKeq, -, -, -, hw, -⟩ := ctor_ok_inv hctor
  subst hKeq
  obtain ⟨cn0, cn, asg, hinit, hloop, hself⟩ := fit_ok_inv hok
  obtain ⟨hK0, hlen0, hmem0⟩ := InitializeCentroidsByRandomPicking_ok hinit
  rw [hself]
  simp only []
  obtain ⟨hlen, -⟩ := fit_loop_shape _ cn0 _ _ (cn, asg) hloop
  have hv := fit_loop_valid (refresh_wellFormed hw pydata.length) _ cn0 _ _ (cn, asg)
    (fun c hc => hvalid c (hmem0 c hc)) hloop
  simp only [] at hlen hv
  refine ⟨by rw [hlen, hlen0]; omega, fun c hc => ?_⟩
  obtain ⟨h1, h2⟩ := hv c hc
  refine ⟨?_, h2⟩
  rw [h1, ← hcw]
  exact hw.M_eq

theorem fit_centroids_valid_witness :
    (fit ieee id line_object line_data).status = .ok () ∧
    ((fit ieee id line_object line_data).self.centroids.length : Int) = 2 ∧
    ∀ c ∈ (fit ieee id line_object line_data).self.centroids,
      c.length = line_codewords.length ∧ ∀ x ∈ c, x < line_object.Ks :=
  ⟨line_fit_ok, fit_centroids_valid ieee id line_codewords 2 3 line_object line_data
    line_object_ctor (by decide) line_fit_ok⟩

/-- C3. Published result consistency: for an object built by the constructor
with `itr ≥ 1`, in any arithmetic (IEEE included), after every call of `fit`
that returns, each published assignment is the index that `FindNNLinear`
returns for that sample against the published centroids, which is the lowest
index of a centroid at minimum symmetric distance. -/
theorem fit_published_consistent (A : Arith) (shuffle : List Nat → List Nat)
    (cw : List (List (List ℚ))) (K itr : Int) (self : PQKmeans) (pydata : List Code)
    (hctor : PQKmeans.ctor A cw K itr = .ok self) (hitr : 1 ≤ itr)
    (hok : (fit A shuffle self pydata).status = .ok ())
    (n : Nat) (x : Code) (hx : pydata[n]? = some x) :
    ∃ (i : Nat) (d : ℚ), (fit A shuffle self pydata).self.assignments[n]? = some (i : Int) ∧
      FindNNLinear A (fit A shuffle self pydata).self x (fit A shuffle self pydata).self.centroids =
        .ok (i, d) ∧
      (∃ c, (fit A shuffle self pydata).self.centroids[i]? = some c ∧
        SymmetricDistance A (fit A shuffle self pydata).self x c = .ok d) ∧
      ∀ (j : Nat) (c : Code), (fit A shuffle self pydata).self.centroids[j]? = some c →
        ∃ dj, SymmetricDistance A (fit A shuffle self pydata).self x c = .ok dj ∧ d ≤ dj ∧
          (j < i → d < dj) := by
  obtain ⟨-, hKeq, hitreq, -, -, hw, -⟩ := ctor_ok_inv hctor
  subst hKeq hitreq
  obtain ⟨cn0, cn, asg, hinit, hloop, hself⟩ := fit_ok_inv hok
  obtain ⟨r, hr⟩ : ∃ r, self.itr_.toNat = r + 1 := ⟨self.itr_.toNat - 1, by omega⟩
  rw [hr] at hloop
  obtain ⟨nn, hnn, hasg⟩ := fit_loop_last r cn0 _ _ (cn, asg) hloop
  simp only [] at hnn hasg
  obtain ⟨p, hp, hfind⟩ := mapE_getElem? hnn hx
  rw [hself]
  simp only []
  have hfind2 : FindNNLinear A
      { self.refresh pydata.length with centroids := cn, assignments := asg } x cn =
      .ok (p.1, p.2) := by
    rw [← hfind]
    exact FindNNLinear_congr
      { self.refresh pydata.length with centroids := cn, assignments := asg }
      (self.refresh pydata.length) rfl rfl x cn
  obtain ⟨h1, h2, h3, -⟩ := FindNNLinear_ok hfind2
  refine ⟨p.1, p.2, ?_, hfind2, h1, fun j c hj => ?_⟩
  · rw [hasg, List.getElem?_map, hp]; rfl
  · obtain ⟨dj, hdj, hle⟩ := h2 j c hj
    exact ⟨dj, hdj, hle, fun hlt => h3 j c dj hlt hj hdj⟩

theorem fit_published_consistent_witness :
    (fit ieee id line_object line_data).status = .ok () ∧
    ∃ (i : Nat) (d : ℚ), (fit ieee id line_object line_data).self.assignments[2]? = some (i : Int) ∧
      FindNNLinear ieee (fit ieee id line_object line_data).self [1]
        (fit ieee id line_object line_data).self.centroids = .ok (i, d) ∧
      (∃ c, (fit ieee id line_object line_data).self.centroids[i]? = some c ∧
        SymmetricDistance ieee (fit ieee id line_object line_data).self [1] c = .ok d) ∧
      ∀ (j : Nat) (c : Code), (fit ieee id line_object line_data).self.centroids[j]? = some c →
        ∃ dj, SymmetricDistance ieee (fit ieee id line_object line_data).self [1] c = .ok dj ∧
          d ≤ dj ∧ (j < i → d < dj) :=
  ⟨line_fit_ok, fit_published_consistent ieee id line_codewords 2 3 line_object line_data
    line_object_ctor (by decide) line_fit_ok 2 [1] rfl⟩

/-- C4, as stated, fails in the arithmetic of the program: the constructor
builds `tie_object` from `tie_codewords` with `K = 1` and two iterations, the
two samples of `tie_data` are valid and `0 < K < N`; whichever sample the
shuffle picks first, `fit` returns, its first assignment step reports the
mean error `1/2` and its second one the larger `(1 + 2^(-52)) / 2`. Both
numbers are exact: they are the sums over the samples of the table entries
for the assigned centroid, divided by `N`. The vote between the two steps
rounds the exact votes `1 + 2^(-52)` and `1` to the same `float` and picks the
first. -/
theorem fit_error_increases_on_tie :
    PQKmeans.ctor ieee tie_codewords 1 2 = .ok tie_object ∧
      (∀ c ∈ tie_data, ValidCode tie_object c) ∧
      (0 < tie_object.K_ ∧ tie_object.K_ < (tie_data.length : Int) ∧ 2 ≤ tie_object.itr_) ∧
      ∀ shuffle : List Nat → List Nat, (∀ l, (shuffle l).Perm l) →
        (fit ieee shuffle tie_object tie_data).status = .ok () ∧
        (fit ieee shuffle tie_object tie_data).reported =
          [1 / 2, 4503599627370497 / 9007199254740992] ∧
        ((1 : ℚ) / 2 < 4503599627370497 / 9007199254740992) ∧
        (fit ieee shuffle tie_object tie_data).self.centroids = [[0]] ∧
        (fit ieee shuffle tie_object tie_data).self.assignments = [0, 0] ∧
        total_cost tie_object tie_data [0, 0] [[0]] / 2 = 4503599627370497 / 9007199254740992 ∧
        ∃ cn0, InitializeCentroidsByRandomPicking shuffle tie_data 1 = .ok cn0 ∧
          total_cost tie_object tie_data [0, 0] cn0 / 2 = 1 / 2 := by
  refine ⟨tie_object_ctor, by decide, by decide, fun shuffle hperm => ?_⟩
  have hp : (shuffle [0, 1]).Perm [0, 1] := hperm [0, 1]
  have hinit : ∀ l, shuffle (List.range tie_data.length) = l →
      InitializeCentroidsByRandomPicking shuffle tie_data 1 =
        InitializeCentroidsByRandomPicking (fun _ => l) tie_data 1 := by
    intro l hl
    unfold InitializeCentroidsByRandomPicking
    simp only [hl]
  rcases perm_pair hp with h | h
  · rw [fit_congr_shuffle shuffle (fun _ => [0, 1]) tie_object tie_data h, hinit _ h]
    exact ⟨by with_unfolding_all rfl, by with_unfolding_all rfl, by norm_num,
      by with_unfolding_all rfl, by with_unfolding_all rfl, by with_unfolding_all rfl,
      [[1]], by with_unfolding_all rfl, by with_unfolding_all rfl⟩
  · rw [fit_congr_shuffle shuffle (fun _ => [1, 0]) tie_object tie_data h, hinit _ h]
    exact ⟨by with_unfolding_all rfl, by with_unfolding_all rfl, by norm_num,
      by with_unfolding_all rfl, by with_unfolding_all rfl, by with_unfolding_all rfl,
      [[2]], by with_unfolding_all rfl, by with_unfolding_all rfl⟩

/-- C4, amended. Monotonic non-increase of error when the sums of `fit` are
exact: for an object built by the constructor (whatever rounding built its
distance matrices), `0 < K < N` and valid codes, if the symmetric distances,
the votes, the error sums and the means of `fit` are computed without
rounding, the mean assignment error reported by an iteration is at most the
one reported by the iteration before it; and when moreover `N` fits a 32-bit
`int`, the shuffle permutes and the table entries are bounded by a `B` with
`M * B` and `N * B` below `FLT_MAX`, every pair of consecutive iterations `t`,
`t + 1` below `itr` reports its two errors. -/
theorem fit_error_nonincreasing (A : Arith) (shuffle : List Nat → List Nat)
    (cw : List (List (List ℚ))) (K itr : Int) (self : PQKmeans) (pydata : List Code)
    (hctor : PQKmeans.ctor A cw K itr = .ok self) (hK : 0 < K) (hKN : K < pydata.length)
    (hvalid : ∀ c ∈ pydata, ValidCode self c) :
    (∀ (t : Nat) (e1 e2 : ℚ), (fit unrounded shuffle self pydata).reported[t]? = some e1 →
      (fit unrounded shuffle self pydata).reported[t + 1]? = some e2 → e2 ≤ e1) ∧
    (∀ B : ℚ, pydata.length < 2147483648 → (∀ l, (shuffle l).Perm l) →
      NoOverflow self pydata.length B → ∀ t : Nat, (t : Int) + 1 < itr →
      ∃ e1 e2, (fit unrounded shuffle self pydata).reported[t]? = some e1 ∧
        (fit unrounded shuffle self pydata).reported[t + 1]? = some e2 ∧ e2 ≤ e1) := by
  obtain ⟨-, hKeq, hitreq, -, -, hw, -⟩ := ctor_ok_inv hctor
  subst hKeq hitreq
  have hmono : ∀ (t : Nat) (e1 e2 : ℚ),
      (fit unrounded shuffle self pydata).reported[t]? = some e1 →
      (fit unrounded shuffle self pydata).reported[t + 1]? = some e2 → e2 ≤ e1 := by
    intro t e1 e2 h1 h2
    rcases fit_reported (A := unrounded) shuffle self pydata with hnil | ⟨cn0, hinit, hrep⟩
    · rw [hnil] at h1; simp at h1
    · obtain ⟨-, -, hmem0⟩ := InitializeCentroidsByRandomPicking_ok hinit
      have hchain := (fit_loop_monotone (refresh_wellFormed hw pydata.length) pydata
        self.itr_.toNat cn0 (List.replicate pydata.length 0)
        (fun c hc => hvalid c (hmem0 c hc))).1
      rw [hrep] at h1 h2
      exact chain_getElem? hchain t e1 e2 h1 h2
  refine ⟨hmono, fun B hint hperm hno t ht => ?_⟩
  have hok := fit_returns (A := unrounded) hw hK hKN hint hvalid hperm
    (StaysFinite_of_NoOverflow hw hno hvalid)
  obtain ⟨cn0, cn, asg, -, hloop, -⟩ := fit_ok_inv hok
  have hlen := fit_loop_reported_length _ _ _ _ _ hloop
  have h1 : t < (fit unrounded shuffle self pydata).reported.length := by rw [hlen]; omega
  have h2 : t + 1 < (fit unrounded shuffle self pydata).reported.length := by rw [hlen]; omega
  exact ⟨_, _, List.getElem?_eq_getElem h1, List.getElem?_eq_getElem h2,
    hmono t _ _ (List.getElem?_eq_getElem h1) (List.getElem?_eq_getElem h2)⟩

theorem fit_error_nonincreasing_witness :
    ∃ e1 e2, (fit unrounded id line_object line_data).reported[0]? = some e1 ∧
      (fit unrounded id line_object line_data).reported[0 + 1]? = some e2 ∧ e2 ≤ e1 :=
  (fit_error_nonincreasing ieee id line_codewords 2 3 line_object line_data line_object_ctor
    (by decide) (by decide) (by decide)).2 9 (by decide) (fun l => List.Perm.refl l)
    (by with_unfolding_all decide) 0 (by decide)

/-- C5. Degenerate-cluster stability: in an iteration of `fit` (its
assignment step followed by its update step, for any value of the iteration
counter, the last one included), a centroid to which the assignment step
assigned no sample has the same code after the iteration as before, in any
arithmetic (IEEE included). -/
theorem empty_cluster_keeps_code (A : Arith) (self : PQKmeans) (pydata : List Code) (itr : Int)
    (centroids_new centroids_next : List Code) (assignments : List Int)
    (selected : List (List Nat)) (error_sum : ℚ)
    (hassign : assignment_step A self pydata centroids_new = .ok (assignments, selected, error_sum))
    (hupdate : update_step A self pydata itr selected centroids_new = .ok centroids_next)
    (k : Nat) (hk : ∀ a ∈ assignments, a ≠ (k : Int)) :
    centroids_next[k]? = centroids_new[k]? := by
  apply (update_step_frame hupdate).2 k
  by_cases hkK : self.K_.toNat ≤ k
  · exact Or.inl hkK
  · right; left
    obtain ⟨nn, -, -, -, -, hsel, -⟩ := assignment_step_ok hassign
    obtain ⟨hlen, hrange, -⟩ := assignment_step_shape hassign
    rw [hsel k (not_le.mp hkK)]
    congr 1
    apply List.filter_eq_nil_iff.mpr
    intro n hn
    have hn1 : n < assignments.length := by rw [hlen]; exact List.mem_range.mp hn
    have hmem : assignments[n] ∈ assignments := List.getElem_mem _
    have hne := hk _ hmem
    have hnn := (hrange _ hmem).1
    have hget : assignments.getD n 0 = assignments[n] :=
      getD_of_getElem? (List.getElem?_eq_getElem hn1)
    simp only [assigned, hget, decide_eq_true_eq]
    omega

theorem empty_cluster_keeps_code_witness :
    ([[1], [0]] : List Code)[1]? = ([[0], [0]] : List Code)[1]? :=
  empty_cluster_keeps_code ieee line_object line_data 0 [[0], [0]] [[1], [0]] [0, 0, 0, 0, 0]
    [[0, 1, 2, 3, 4], []] 20 (by with_unfolding_all rfl) (by with_unfolding_all rfl) 1
    (by decide)

/-- C6. Determinism and independence from prior state: `fit` is a function
of its arguments, and for two objects that agree on everything the
constructor fixes (codewords, `K`, iteration count, `M`, distance matrices)
but hold arbitrary centroids and assignments, `fit` on the same codes ends
the same way, reports the same errors and, when it returns, publishes the
same centroids and assignments, in any arithmetic (IEEE included). -/
theorem fit_independent_of_prior_state (A : Arith) (shuffle : List Nat → List Nat) (s1 s2 : PQKmeans)
    (pydata : List Code) (hcw : s1.codewords_ = s2.codewords_)
    (hK : s1.K_ = s2.K_) (hitr : s1.itr_ = s2.itr_) (hM : s1.M_ = s2.M_)
    (htab : s1.distance_matrices_among_codewords_ = s2.distance_matrices_among_codewords_) :
    (fit A shuffle s1 pydata).status = (fit A shuffle s2 pydata).status ∧
      (fit A shuffle s1 pydata).reported = (fit A shuffle s2 pydata).reported ∧
      ((fit A shuffle s1 pydata).status = .ok () →
        (fit A shuffle s1 pydata).self = (fit A shuffle s2 pydata).self) := by
  have hr := refresh_congr hcw hK hitr hM htab pydata.length
  unfold fit
  rw [hK, hitr, hr]
  by_cases h1 : s2.K_ < toInt32 pydata.length
  · rw [if_pos h1, if_pos h1]
    by_cases h2 : s2.K_ < 0
    · rw [if_pos h2, if_pos h2]
      exact ⟨rfl, rfl, fun h => by cases h⟩
    · rw [if_neg h2, if_neg h2]
      exact ⟨rfl, rfl, fun _ => rfl⟩
  · rw [if_neg h1, if_neg h1]
    exact ⟨rfl, rfl, fun h => by cases h⟩

theorem fit_independent_of_prior_state_witness :
    (fit ieee id used_object small_data).status = (fit ieee id small_object small_data).status ∧
      (fit ieee id used_object small_data).reported = (fit ieee id small_object small_data).reported ∧
      ((fit ieee id used_object small_data).status = .ok () →
        (fit ieee id used_object small_data).self = (fit ieee id small_object small_data).self) :=
  fit_independent_of_prior_state ieee id used_object small_object small_data rfl rfl rfl rfl rfl

/-- C7. Distance-table symmetry and zero diagonal: in every object built by
the constructor, in any arithmetic whose rounding fixes `0` and commutes with
negation (IEEE rounding does), for every subspace `m < M` and codeword
indices `a, b < Ks` the entries `[m][a][b]` and `[m][b][a]` of the distance
matrices exist and are equal, and the entry `[m][a][a]` is zero. -/
theorem distance_table_symmetric_zero_diagonal (A : Arith) (hA : A.Lawful)
    (cw : List (List (List ℚ))) (K itr : Int)
    (self : PQKmeans) (h : PQKmeans.ctor A cw K itr = .ok self) (m a b : Nat)
    (hm : m < self.M_) (ha : a < self.Ks) (hb : b < self.Ks) :
    ∃ d, self.table_at m a b = .ok d ∧ self.table_at m b a = .ok d ∧
      self.table_at m a a = .ok 0 := by
  have hw := (ctor_ok_inv h).2.2.2.2.2.1
  obtain ⟨sub, v1, v2, d, hsub, hv1, hv2, hL, hab⟩ := hw.table_at_ok hm ha hb
  obtain ⟨sub2, w1, w2, d2, hsub2, hw1, hw2, hL2, hba⟩ := hw.table_at_ok hm hb ha
  obtain ⟨sub3, u1, u2, d3, hsub3, hu1, hu2, hL3, haa⟩ := hw.table_at_ok hm ha ha
  rw [hsub] at hsub2 hsub3
  cases hsub2; cases hsub3
  rw [hv2] at hw1; rw [hv1] at hw2 hu1 hu2
  cases hw1; cases hw2; cases hu1; cases hu2
  rw [L2SquaredDistance_comm hA hL] at hL2
  rw [L2SquaredDistance_self hA] at hL3
  cases hL2; cases hL3
  exact ⟨d, hab, hba, haa⟩

theorem distance_table_symmetric_zero_diagonal_witness :
    PQKmeans.ctor ieee small_codewords 2 3 = .ok small_object ∧
      ∃ d, small_object.table_at 0 0 1 = .ok d ∧ small_object.table_at 0 1 0 = .ok d ∧
        small_object.table_at 0 0 0 = .ok 0 :=
  ⟨small_object_ctor, distance_table_symmetric_zero_diagonal ieee ieee_lawful small_codewords
    2 3 small_object small_object_ctor 0 0 1 (by decide) (by decide) (by decide)⟩

/-- C8, as stated, fails: the constructor aborts on the example of the
specification (two subspaces, four codewords each, dimension two), because
it asserts that the number of codewords equals the dimension of the first
codeword. -/
theorem ctor_rejects_spec_example :
    (∀ sub ∈ example_codewords, sub.length = 4 ∧ ∀ v ∈ sub, v.length = 2) ∧
      PQKmeans.ctor ieee example_codewords 2 3 = .error .assertion :=
  ⟨by decide, rfl⟩

/-- C8, amended. The constructor accepts every non-empty codeword set in which
every subspace has the same number `Ks` of codewords, `1 ≤ Ks ≤ 256`, all
codewords of a subspace have the same non-zero dimension, and the first
codeword of the first subspace has dimension `Ks`: construction returns an
object with `M` subspaces whose distance-matrix entry `[m][a][b]` is the
squared distance of the codewords `a` and `b` of subspace `m`. -/
theorem ctor_accepts (A : Arith) (cw : List (List (List ℚ))) (K itr : Int) (Ks : Nat)
    (hne : cw ≠ []) (hKs : ∀ sub ∈ cw, sub.length = Ks) (h1 : 1 ≤ Ks) (h256 : Ks ≤ 256)
    (hdim : ∀ sub ∈ cw, ∀ v ∈ sub, v ≠ [] ∧ ∀ w ∈ sub, v.length = w.length)
    (hfirst : ∀ sub0 v0, cw[0]? = some sub0 → sub0[0]? = some v0 → v0.length = Ks) :
    ∃ self, PQKmeans.ctor A cw K itr = .ok self ∧ self.M_ = cw.length ∧ self.Ks = Ks ∧
      ∀ m a b, m < cw.length → a < Ks → b < Ks →
        ∃ sub v1 v2 d, cw[m]? = some sub ∧ sub[a]? = some v1 ∧ sub[b]? = some v2 ∧
          L2SquaredDistance A v1 v2 = .ok d ∧ self.table_at m a b = .ok d := by
  have hbuild : ∃ table, build_distance_matrices A cw cw.length Ks = .ok table := by
    apply build_distance_matrices_ok
    intro m k1 k2 hm hk1 hk2
    have hsub : cw[m] ∈ cw := List.getElem_mem _
    have hl := hKs _ hsub
    have hv1 : cw[m][k1] ∈ cw[m] := List.getElem_mem _
    have hv2 : cw[m][k2] ∈ cw[m] := List.getElem_mem _
    exact ⟨cw[m], cw[m][k1], cw[m][k2], List.getElem?_eq_getElem hm,
      List.getElem?_eq_getElem (by omega), List.getElem?_eq_getElem (by omega),
      (hdim _ hsub _ hv1).2 _ hv2⟩
  obtain ⟨table, htable⟩ := hbuild
  have hctor : ∃ self, PQKmeans.ctor A cw K itr = .ok self := by
    match cw, hne, hKs, hdim, hfirst, htable with
    | [], hne, _, _, _, _ => exact absurd rfl hne
    | [] :: rest, _, hKs, _, _, _ =>
      have := hKs [] (List.mem_cons_self _ _)
      simp at this; omega
    | ([] :: cs0) :: rest, _, _, hdim, _, _ =>
      exact absurd rfl (hdim _ (List.mem_cons_self _ _) [] (List.mem_cons_self _ _)).1
    | (c00 :: cs0) :: rest, _, hKs, _, hfirst, htable =>
      have hk : (c00 :: cs0).length = Ks := hKs _ (List.mem_cons_self _ _)
      have hf : c00.length = Ks := hfirst (c00 :: cs0) c00 (by simp) (by simp)
      cases c00 with
      | nil => simp at hf; omega
      | cons x xs =>
        unfold PQKmeans.ctor
        simp only []
        rw [if_neg (by rw [hk, hf]; simp), if_neg (by rw [hk]; omega), hk, htable]
        exact ⟨_, rfl⟩
  obtain ⟨self, hctor⟩ := hctor
  obtain ⟨hcw, -, -, -, -, hw, c00, cs0, rest, hcw2, -, -⟩ := ctor_ok_inv hctor
  have hM : self.M_ = cw.length := by rw [hw.M_eq, hcw]
  have hKs2 : self.Ks = Ks := by
    have := hKs (c00 :: cs0) (by rw [hcw2]; exact List.mem_cons_self _ _)
    simp only [PQKmeans.Ks, hcw, hcw2]
    exact this
  refine ⟨self, hctor, hM, hKs2, ?_⟩
  intro m a b hm ha hb
  have := hw.table_at_ok (hM ▸ hm) (hKs2 ▸ ha) (hKs2 ▸ hb)
  rw [hcw] at this
  exact this

theorem ctor_accepts_witness :
    ∃ self, PQKmeans.ctor ieee small_codewords 2 3 = .ok self ∧ self.M_ = small_codewords.length ∧
      self.Ks = 2 ∧
      ∀ m a b, m < small_codewords.length → a < 2 → b < 2 →
        ∃ sub v1 v2 d, small_codewords[m]? = some sub ∧ sub[a]? = some v1 ∧
          sub[b]? = some v2 ∧ L2SquaredDistance ieee v1 v2 = .ok d ∧
          self.table_at m a b = .ok d :=
  ctor_accepts ieee small_codewords 2 3 2 (by decide) (by decide) (by decide) (by decide)
    (by decide)
    (by
      intro sub0 v0 h0 h1
      simp only [small_codewords, List.getElem?_cons_zero, Option.some.injEq] at h0
      subst h0
      simp only [List.getElem?_cons_zero, Option.some.injEq] at h1
      subst h1
      rfl)

/-- C9, as stated, fails: two subspaces with different numbers of codewords
(one and two) are accepted by the constructor. -/
theorem ctor_accepts_uneven_subspaces :
    (∃ s1 ∈ uneven_codewords, ∃ s2 ∈ uneven_codewords, s1.length ≠ s2.length) ∧
      ∃ self, PQKmeans.ctor ieee uneven_codewords 2 3 = .ok self :=
  ⟨by decide, _, by with_unfolding_all rfl⟩

/-- C9, amended. Construction fails whenever the codeword set is empty, or
any subspace's codeword list is empty, or the first subspace holds more than
256 codewords; the fault is a failed assertion when the set is empty, the
first subspace's list is empty or `Ks > 256`. (Subspaces with different
numbers of codewords are not rejected as such.) -/
theorem ctor_rejects (A : Arith) (cw : List (List (List ℚ))) (K itr : Int)
    (h : cw = [] ∨ [] ∈ cw ∨ ∃ sub0, cw.head? = some sub0 ∧ 256 < sub0.length) :
    ∃ e, PQKmeans.ctor A cw K itr = .error e ∧
      ((cw = [] ∨ cw.head? = some [] ∨ ∃ sub0, cw.head? = some sub0 ∧ 256 < sub0.length) →
        e = .assertion) := by
  cases hc : PQKmeans.ctor A cw K itr with
  | error e =>
    refine ⟨e, rfl, fun h2 => ?_⟩
    have := ctor_assertion_cases (A := A) cw K itr h2
    rw [hc] at this
    injection this
  | ok self =>
    exfalso
    rcases h with h | h | h
    · have := ctor_assertion_cases (A := A) cw K itr (Or.inl h)
      rw [hc] at this; cases this
    · exact ctor_not_ok_of_empty_subspace cw K itr h self hc
    · have := ctor_assertion_cases (A := A) cw K itr (Or.inr (Or.inr h))
      rw [hc] at this; cases this

theorem ctor_rejects_witness :
    ∃ e, PQKmeans.ctor ieee gap_codewords 2 3 = .error e ∧
      ((gap_codewords = [] ∨ gap_codewords.head? = some [] ∨
        ∃ sub0, gap_codewords.head? = some sub0 ∧ 256 < sub0.length) → e = .assertion) :=
  ctor_rejects ieee gap_codewords 2 3 (Or.inr (Or.inl (by decide)))

/-- C10. `fit` rejects too many clusters: when `K ≥ N` (with `K` a 32-bit
`int`), `fit` aborts on its entry assertion and the object, in particular its
centroids and assignments, is exactly as before the call. -/
theorem fit_rejects_too_many_clusters (A : Arith) (shuffle : List Nat → List Nat) (self : PQKmeans)
    (pydata : List Code) (hint : self.K_ < 2147483648)
    (h : (pydata.length : Int) ≤ self.K_) :
    fit A shuffle self pydata = { self := self, reported := [], status := .error .assertion } := by
  unfold fit
  rw [toInt32_of_lt (by omega), if_neg (by omega)]

theorem fit_rejects_too_many_clusters_witness :
    fit ieee id small_object [[0], [1]] =
      { self := small_object, reported := [], status := .error .assertion } :=
  fit_rejects_too_many_clusters ieee id small_object [[0], [1]] (by decide) (by decide)

/-- C12, as stated, fails: the constructor accepts `dup_codewords`, whose two
codewords are equal; the code `[1]` is valid, and the vote of the single
sample `[1]` returns `[0]`, the first index at distance zero. -/
theorem single_sample_voting_not_identity :
    PQKmeans.ctor ieee dup_codewords 1 1 = .ok dup_object ∧ ValidCode dup_object [1] ∧
      ([[1]] : List Code)[0]? = some [1] ∧
      ComputeCentroidBySparseVoting ieee dup_object [[1]] [0] = .ok [0] := by
  refine ⟨dup_object_ctor, by decide, rfl, ?_⟩
  with_unfolding_all rfl

/-- C12, amended. On an object built by the constructor, in any arithmetic
whose rounding fixes `0` and `1`, commutes with negation, keeps the sign and
is idempotent (IEEE rounding does), the vote of a single sample with a valid
code `c` returns a code `v` of length `M` whose element in every subspace `m`
is the smallest index `x` with `distance_table[m][c[m]][x] == 0`, and
`x ≤ c[m]`; so `v` is `c` when no index below `c[m]` has a zero entry in row
`c[m]` of the table of subspace `m`. -/
theorem single_sample_voting (A : Arith) (hA : A.Lawful) (cw : List (List (List ℚ)))
    (K itr : Int) (self : PQKmeans)
    (hctor : PQKmeans.ctor A cw K itr = .ok self) (codes : List Code) (id : Nat) (code : Code)
    (hvalid : ValidCode self code) (hid : codes[id]? = some code) :
    ∃ v, ComputeCentroidBySparseVoting A self codes [id] = .ok v ∧ v.length = self.M_ ∧
      (∀ m, m < self.M_ → ∃ (x a : Nat), v[m]? = some x ∧ code[m]? = some a ∧ x ≤ a ∧
        self.table_at m a x = .ok 0 ∧ ∀ k, k < x → self.table_at m a k ≠ .ok 0) ∧
      ((∀ m a k, code[m]? = some a → k < a → self.table_at m a k ≠ .ok 0) → v = code) := by
  have hw := (ctor_ok_inv hctor).2.2.2.2.2.1
  have hsel : ∀ i ∈ [id], ∃ code, codes[i]? = some code ∧ ValidCode self code := by
    intro i hi
    rw [List.mem_singleton] at hi
    subst hi
    exact ⟨code, hid, hvalid⟩
  have hscore : ∀ m a k2, code[m]? = some a → a < self.Ks →
      float_vote A self codes [id] m k2 = tbl self m a k2 := by
    intro m a k2 ha halt
    have hg : code.getD m 0 = a := getD_of_getElem? ha
    rw [float_vote_single hA hw hid m k2 (by rw [hg]; exact halt), hg]
  have hret : ∃ v, ComputeCentroidBySparseVoting A self codes [id] = .ok v := by
    apply ComputeCentroidBySparseVoting_returns hw hsel
    intro m hm
    obtain ⟨a, ha, halt⟩ := valid_getElem? hvalid hm
    refine ⟨a, halt, ?_⟩
    rw [hscore m a a ha halt, tbl_of_ok (tbl_self hA hw hm halt)]
    with_unfolding_all decide
  obtain ⟨v, hret⟩ := hret
  obtain ⟨hvv, hsub⟩ := ComputeCentroidBySparseVoting_ok hw hret
  have hkey : ∀ m, m < self.M_ → ∃ (x a : Nat), v[m]? = some x ∧ code[m]? = some a ∧ x ≤ a ∧
      self.table_at m a x = .ok 0 ∧ ∀ k, k < x → self.table_at m a k ≠ .ok 0 := by
    intro m hm
    obtain ⟨a, ha, halt⟩ := valid_getElem? hvalid hm
    obtain ⟨x, hx, hxlt, -, hmin, hfirst⟩ := hsub m hm
    have haa : tbl self m a a = 0 := tbl_of_ok (tbl_self hA hw hm halt)
    have hax : tbl self m a x = 0 := by
      have h1 := hmin a halt
      rw [hscore m a x ha halt, hscore m a a ha halt, haa] at h1
      exact le_antisymm h1 (tbl_nonneg hA hw m a x)
    have hxa : x ≤ a := by
      by_contra hcon
      have h1 := hfirst a (by omega)
      rw [hscore m a x ha halt, hscore m a a ha halt, haa, hax] at h1
      exact lt_irrefl _ h1
    obtain ⟨-, -, -, d, -, -, -, -, hd⟩ := hw.table_at_ok hm halt hxlt
    have hd0 : d = 0 := by rw [← tbl_of_ok hd]; exact hax
    rw [hd0] at hd
    refine ⟨x, a, hx, ha, hxa, hd, fun k hk hk0 => ?_⟩
    have h1 := hfirst k hk
    rw [hscore m a x ha halt, hscore m a k ha halt, hax, tbl_of_ok hk0] at h1
    exact lt_irrefl _ h1
  refine ⟨v, hret, hvv.1, hkey, fun hnz => ?_⟩
  apply List.ext_getElem?
  intro m
  by_cases hm : m < self.M_
  · obtain ⟨x, a, hx, ha, hxa, hzero, -⟩ := hkey m hm
    have hxeq : x = a := by
      by_contra hne
      exact hnz m a x ha (by omega) hzero
    rw [hx, ha, hxeq]
  · rw [List.getElem?_eq_none (by rw [hvv.1]; omega),
      List.getElem?_eq_none (by rw [hvalid.1]; omega)]

theorem single_sample_voting_witness :
    ∃ v, ComputeCentroidBySparseVoting ieee line_object line_data [1] = .ok v ∧
      v.length = line_object.M_ ∧
      (∀ m, m < line_object.M_ → ∃ (x a : Nat), v[m]? = some x ∧ ([2] : Code)[m]? = some a ∧
        x ≤ a ∧ line_object.table_at m a x = .ok 0 ∧
        ∀ k, k < x → line_object.table_at m a k ≠ .ok 0) ∧
      ((∀ m a k, ([2] : Code)[m]? = some a → k < a → line_object.table_at m a k ≠ .ok 0) →
        v = [2]) :=
  single_sample_voting ieee ieee_lawful line_codewords 2 3 line_object line_object_ctor
    line_data 1 [2] (by decide) rfl

/-- C13. Symmetric distance is a table-lookup sum equal to the squared
Euclidean distance of the reconstructions, in exact arithmetic: on an object
built by the constructor without rounding and two valid codes,
`SymmetricDistance` without rounding returns the sum over `m < M` of the
entries `[m][c1[m]][c2[m]]` of the distance matrices, and that number is the
squared distance of the concatenated codewords of the two codes. -/
theorem symmetric_distance_is_table_sum (cw : List (List (List ℚ))) (K itr : Int)
    (self : PQKmeans) (hctor : PQKmeans.ctor unrounded cw K itr = .ok self) (code1 code2 : Code)
    (h1 : ValidCode self code1) (h2 : ValidCode self code2) :
    ∃ (d : ℚ) (entries : List ℚ), SymmetricDistance unrounded self code1 code2 = .ok d ∧
      entries.length = self.M_ ∧
      (∀ m, m < self.M_ → ∃ a b e, code1[m]? = some a ∧ code2[m]? = some b ∧
        self.table_at m a b = .ok e ∧ entries[m]? = some e) ∧
      d = entries.sum ∧
      L2SquaredDistance unrounded (reconstruct self code1) (reconstruct self code2) = .ok d := by
  have hw := (ctor_ok_inv hctor).2.2.2.2.2.1
  refine ⟨symD self code1 code2,
    (List.range self.M_).map (fun m => tbl self m (code1.getD m 0) (code2.getD m 0)),
    SymmetricDistance_total hw h1 h2, by simp, fun m hm => ?_, rfl,
    L2_reconstruct_prefix hw h1 h2 self.M_ (le_refl _)⟩
  obtain ⟨a, b, ha, hb, -, -, hd, -⟩ := valid_table_entry hw h1 h2 hm
  exact ⟨a, b, _, ha, hb, hd, by simp [hm]⟩

theorem symmetric_distance_is_table_sum_witness :
    ∃ (d : ℚ) (entries : List ℚ), SymmetricDistance unrounded line_object [0] [2] = .ok d ∧
      entries.length = line_object.M_ ∧
      (∀ m, m < line_object.M_ → ∃ a b e, ([0] : Code)[m]? = some a ∧ ([2] : Code)[m]? = some b ∧
        line_object.table_at m a b = .ok e ∧ entries[m]? = some e) ∧
      d = entries.sum ∧
      L2SquaredDistance unrounded (reconstruct line_object [0]) (reconstruct line_object [2]) =
        .ok d :=
  symmetric_distance_is_table_sum line_codewords 2 3 line_object line_object_ctor_exact [0] [2]
    (by decide) (by decide)

/-- C14. Self-distance is zero: on an object built by the constructor, in any
arithmetic whose rounding fixes `0` and commutes with negation (IEEE rounding
does), `SymmetricDistance(c, c)` returns `0` for every valid code `c`. -/
theorem self_distance_zero (A : Arith) (hA : A.Lawful) (cw : List (List (List ℚ)))
    (K itr : Int) (self : PQKmeans)
    (hctor : PQKmeans.ctor A cw K itr = .ok self) (code : Code) (hvalid : ValidCode self code) :
    SymmetricDistance A self code code = .ok 0 := by
  have hw := (ctor_ok_inv hctor).2.2.2.2.2.1
  obtain ⟨d, hd⟩ := SymmetricDistance_returns (A := A) hw hvalid hvalid
  rw [hd]
  congr 1
  rw [(SymmetricDistance_ok hd).1]
  apply fsum_zero hA
  intro x hx
  obtain ⟨m, hm, rfl⟩ := List.mem_map.mp hx
  exact tbl_of_ok (tbl_self hA hw (List.mem_range.mp hm)
    (getD_lt_of_forall hw.Ks_pos hvalid.2 m))

theorem self_distance_zero_witness : SymmetricDistance ieee line_object [2] [2] = .ok 0 :=
  self_distance_zero ieee ieee_lawful line_codewords 2 3 line_object line_object_ctor [2]
    (by decide)

/-- C15, as stated, fails in the arithmetic of the program: on `tie_object`,
built by the constructor, and the two valid samples of `tie_data`, the vote
returns `[0]` although candidate `1` has the smaller score: the scores
`sum over k1 of frequency[k1] * distance_table[0][k1][k2]` of the candidates
`0` and `1` are `1 + 2^(-52)` and `1`, and the `float` additions of the vote
round both to `1`. -/
theorem sparse_voting_not_first_minimiser :
    PQKmeans.ctor ieee tie_codewords 1 2 = .ok tie_object ∧
      (∀ c ∈ tie_data, ValidCode tie_object c) ∧
      ComputeCentroidBySparseVoting ieee tie_object tie_data [0, 1] = .ok [0] ∧
      weighted_score tie_object tie_data [0, 1] 0 0 = 4503599627370497 / 4503599627370496 ∧
      weighted_score tie_object tie_data [0, 1] 0 1 = 1 ∧
      weighted_score tie_object tie_data [0, 1] 0 1 <
        weighted_score tie_object tie_data [0, 1] 0 0 ∧
      float_vote ieee tie_object tie_data [0, 1] 0 0 = 1 ∧
      float_vote ieee tie_object tie_data [0, 1] 0 1 = 1 := by
  refine ⟨tie_object_ctor, by decide, by with_unfolding_all rfl, by with_unfolding_all rfl,
    by with_unfolding_all rfl, by with_unfolding_all decide, by with_unfolding_all rfl,
    by with_unfolding_all rfl⟩

/-- C15, amended. Sparse voting picks the first minimiser of the vote as the
program accumulates it: on an object built by the constructor and valid
samples, in any arithmetic (IEEE included), the element `m` of every code
that `ComputeCentroidBySparseVoting` returns is below `Ks`, and its vote
`float_vote` (over the `k1` with a non-zero frequency, in increasing order,
the `float` accumulation of `(float) frequency[k1] * table[m][k1][k2]`) is at
most that of every `k2 < Ks` and strictly below that of every smaller `k2`;
computed without rounding, this vote is the score
`sum over k1 of frequency[k1] * table[m][k1][k2]`, which equals the sum over
the selected samples `s` of `table[m][s[m]][k2]`, all table entries read being
present; and the vote does return a code when the selected indices are in
range and in every subspace some candidate has a vote below `FLT_MAX`. -/
theorem sparse_voting_first_minimiser (A : Arith) (cw : List (List (List ℚ))) (K itr : Int)
    (self : PQKmeans) (hctor : PQKmeans.ctor A cw K itr = .ok self) (codes : List Code)
    (selected_ids : List Nat) (hcodes : ∀ c ∈ codes, ValidCode self c)
    (hids : ∀ id ∈ selected_ids, id < codes.length) :
    (∀ v, ComputeCentroidBySparseVoting A self codes selected_ids = .ok v →
      ∀ m, m < self.M_ → ∃ x, v[m]? = some x ∧ x < self.Ks ∧
        (∀ k2, k2 < self.Ks → float_vote A self codes selected_ids m x ≤
          float_vote A self codes selected_ids m k2) ∧
        (∀ k2, k2 < x → float_vote A self codes selected_ids m x <
          float_vote A self codes selected_ids m k2)) ∧
    (∀ m k2, m < self.M_ → k2 < self.Ks →
      (∀ k1, k1 < self.Ks → self.table_at m k1 k2 = .ok (tbl self m k1 k2)) ∧
      float_vote unrounded self codes selected_ids m k2 =
        weighted_score self codes selected_ids m k2 ∧
      weighted_score self codes selected_ids m k2 =
        (selected_ids.map (fun id => tbl self m ((codes.getD id []).getD m 0) k2)).sum) ∧
    ((∀ m, m < self.M_ →
        ∃ k2, k2 < self.Ks ∧ float_vote A self codes selected_ids m k2 < FLT_MAX) →
      ∃ v, ComputeCentroidBySparseVoting A self codes selected_ids = .ok v) := by
  have hw := (ctor_ok_inv hctor).2.2.2.2.2.1
  have hsel : ∀ id ∈ selected_ids, ∃ code, codes[id]? = some code ∧ ValidCode self code := by
    intro id hid
    have hlt := hids id hid
    exact ⟨codes[id], List.getElem?_eq_getElem hlt, hcodes _ (List.getElem_mem hlt)⟩
  refine ⟨fun v hv m hm => ?_, fun m k2 hm hk2 => ⟨fun k1 hk1 => ?_, ?_, ?_⟩, fun hlt =>
    ComputeCentroidBySparseVoting_returns hw hsel hlt⟩
  · obtain ⟨x, hx, hxlt, -, hmin, hfirst⟩ := (ComputeCentroidBySparseVoting_ok hw hv).2 m hm
    exact ⟨x, hx, hxlt, hmin, hfirst⟩
  · obtain ⟨-, -, -, d, -, -, -, -, hd⟩ := hw.table_at_ok hm hk1 hk2
    rw [hd, tbl_of_ok hd]
  · exact float_vote_unrounded self codes selected_ids m k2
  · rw [weighted_score_eq self (column_lt hw hcodes selected_ids m)]
    unfold vote_score column
    rw [List.map_map]
    rfl

theorem sparse_voting_first_minimiser_witness :
    ComputeCentroidBySparseVoting ieee line_object line_data [1, 2, 4] = .ok [2] ∧
    (∀ m, m < line_object.M_ → ∃ x, ([2] : Code)[m]? = some x ∧ x < line_object.Ks ∧
      (∀ k2, k2 < line_object.Ks → float_vote ieee line_object line_data [1, 2, 4] m x ≤
        float_vote ieee line_object line_data [1, 2, 4] m k2) ∧
      (∀ k2, k2 < x → float_vote ieee line_object line_data [1, 2, 4] m x <
        float_vote ieee line_object line_data [1, 2, 4] m k2)) :=
  have hv : ComputeCentroidBySparseVoting ieee line_object line_data [1, 2, 4] = .ok [2] := by
    with_unfolding_all rfl
  ⟨hv, (sparse_voting_first_minimiser ieee line_codewords 2 3 line_object line_object_ctor
    line_data [1, 2, 4] (by decide) (by decide)).1 [2] hv⟩

/-- C16, as stated, fails: the constructor accepts `huge_codewords`, the two
samples of `huge_data` are valid codes and `0 < K = 1 < N = 2`; whichever
sample the shuffle picks as the initial centroid, the other sample is at
a distance that overflows `float` (here the value `2^128`), not below
`FLT_MAX`, so the first search of `fit` finds no minimum and `fit` fails the
assertion of `FindNNLinear`. -/
theorem fit_fails_on_huge_codewords :
    PQKmeans.ctor ieee huge_codewords 1 1 = .ok huge_object ∧
      (∀ c ∈ huge_data, ValidCode huge_object c) ∧
      (0 < huge_object.K_ ∧ huge_object.K_ < (huge_data.length : Int)) ∧
      ∀ shuffle : List Nat → List Nat, (∀ l, (shuffle l).Perm l) →
        (fit ieee shuffle huge_object huge_data).status = .error .assertion := by
  refine ⟨huge_object_ctor, by decide, by decide, fun shuffle hperm => ?_⟩
  have hp : (shuffle [0, 1]).Perm [0, 1] := hperm [0, 1]
  rcases perm_pair hp with h | h
  · rw [fit_congr_shuffle shuffle (fun _ => [0, 1]) huge_object huge_data h]
    with_unfolding_all rfl
  · rw [fit_congr_shuffle shuffle (fun _ => [1, 0]) huge_object huge_data h]
    with_unfolding_all rfl

/-- C16, amended. On an object built by the constructor, in any arithmetic
(IEEE included), with `0 < K < N < 2^31`, valid samples and a shuffle that
permutes its argument, `fit` runs to completion for every iteration count, no
assertion failing and no index out of range, provided that every symmetric
distance `SymmetricDistance` returns on two valid codes is below `FLT_MAX`
and that for every set of samples and every subspace some candidate has a
vote, as the program accumulates it, below `FLT_MAX`. -/
theorem fit_runs_to_completion (A : Arith) (shuffle : List Nat → List Nat)
    (cw : List (List (List ℚ)))
    (K itr : Int) (self : PQKmeans) (pydata : List Code)
    (hctor : PQKmeans.ctor A cw K itr = .ok self) (hK : 0 < K) (hKN : K < pydata.length)
    (hint : pydata.length < 2147483648) (hvalid : ∀ c ∈ pydata, ValidCode self c)
    (hperm : ∀ l, (shuffle l).Perm l) (hfin : StaysFinite A self pydata) :
    (fit A shuffle self pydata).status = .ok () := by
  obtain ⟨-, hKeq, -, -, -, hw, -⟩ := ctor_ok_inv hctor
  subst hKeq
  exact fit_returns hw hK hKN hint hvalid hperm hfin

theorem fit_runs_to_completion_witness :
    (fit ieee List.reverse line_object line_data).status = .ok () :=
  fit_runs_to_completion ieee List.reverse line_codewords 2 3 line_object line_data
    line_object_ctor (by decide) (by decide) (by decide) (by decide) List.reverse_perm
    line_stays_finite

/-- C17, as stated, fails: on the object built from `huge_codewords`, the
valid query `[0]` and the non-empty list of the one valid candidate `[1]`,
whose distance overflows `float` (the value `2^128`) and is not below
`FLT_MAX`, `FindNNLinear` fails its assertion. -/
theorem FindNNLinear_fails_on_nonempty_list :
    PQKmeans.ctor ieee huge_codewords 1 1 = .ok huge_object ∧ ValidCode huge_object [0] ∧
      ValidCode huge_object [1] ∧
      FindNNLinear ieee huge_object [0] [[1]] = .error .assertion := by
  refine ⟨huge_object_ctor, by decide, by decide, ?_⟩
  with_unfolding_all rfl

/-- C17, amended. `FindNNLinear` fails its assertion on the empty candidate
list and, for a valid query and valid candidates, whenever no candidate is at
a distance below `FLT_MAX`; when some candidate is at a distance below
`FLT_MAX` it does not fail but returns an index. -/
theorem FindNNLinear_failure_cases (A : Arith) (cw : List (List (List ℚ))) (K itr : Int)
    (self : PQKmeans) (hctor : PQKmeans.ctor A cw K itr = .ok self) (query : Code)
    (cs : List Code) (hq : ValidCode self query) (hcs : ∀ c ∈ cs, ValidCode self c) :
    FindNNLinear A self query [] = .error .assertion ∧
    ((∀ c ∈ cs, ∃ dc, SymmetricDistance A self query c = .ok dc ∧ FLT_MAX ≤ dc) →
      FindNNLinear A self query cs = .error .assertion) ∧
    ((∃ c ∈ cs, ∃ dc, SymmetricDistance A self query c = .ok dc ∧ dc < FLT_MAX) →
      ∃ i d, FindNNLinear A self query cs = .ok (i, d)) := by
  have hw := (ctor_ok_inv hctor).2.2.2.2.2.1
  exact ⟨rfl, FindNNLinear_fails hw hq cs hcs, FindNNLinear_returns hw hq cs hcs⟩

theorem FindNNLinear_failure_cases_witness :
    FindNNLinear ieee line_object [1] [] = .error .assertion ∧
    ((∀ c ∈ ([[2], [0]] : List Code),
        ∃ dc, SymmetricDistance ieee line_object [1] c = .ok dc ∧ FLT_MAX ≤ dc) →
      FindNNLinear ieee line_object [1] [[2], [0]] = .error .assertion) ∧
    ((∃ c ∈ ([[2], [0]] : List Code),
        ∃ dc, SymmetricDistance ieee line_object [1] c = .ok dc ∧ dc < FLT_MAX) →
      ∃ i d, FindNNLinear ieee line_object [1] [[2], [0]] = .ok (i, d)) :=
  FindNNLinear_failure_cases ieee line_codewords 2 3 line_object line_object_ctor [1] [[2], [0]]
    (by decide) (by decide)

/-- C18. Initial centroids are `K` distinct samples: when the shuffle
permutes its argument, for `0 < K ≤ N` the picking returns exactly `K`
centroids, and the first `K` entries of the shuffled list of `0 .. N-1` are
`K` pairwise distinct indices below `N` such that centroid `k` is the code of
the sample at the `k`-th of these indices. -/
theorem initial_centroids_distinct_samples (shuffle : List Nat → List Nat)
    (hperm : ∀ l, (shuffle l).Perm l) (codes : List Code) (K : Int) (hK0 : 0 < K)
    (hKN : K ≤ codes.length) :
    ∃ (centroids : List Code) (ids : List Nat),
      InitializeCentroidsByRandomPicking shuffle codes K = .ok centroids ∧
      centroids.length = K.toNat ∧
      ids = (shuffle (List.range codes.length)).take K.toNat ∧
      ids.length = K.toNat ∧ ids.Nodup ∧ (∀ i ∈ ids, i < codes.length) ∧
      ∀ k, k < K.toNat → ∃ i code, ids[k]? = some i ∧ codes[i]? = some code ∧
        centroids[k]? = some code := by
  obtain ⟨centroids, h⟩ := InitializeCentroidsByRandomPicking_total hperm (le_of_lt hK0) hKN
  have hp := hperm (List.range codes.length)
  have hKle : K.toNat ≤ codes.length := by omega
  refine ⟨centroids, _, h, (InitializeCentroidsByRandomPicking_ok h).2.1, rfl, ?_, ?_, ?_, ?_⟩
  · rw [List.length_take, hp.length_eq, List.length_range]
    omega
  · exact List.Nodup.sublist (List.take_sublist _ _)
      (hp.nodup_iff.mpr (List.nodup_range _))
  · intro i hi
    exact List.mem_range.mp (hp.mem_iff.mp (List.mem_of_mem_take hi))
  · intro k hk
    unfold InitializeCentroidsByRandomPicking at h
    rw [if_neg (by omega)] at h
    obtain ⟨-, hall⟩ := mapE_range h
    obtain ⟨code, hcode, hstep⟩ := hall k hk
    simp only [bind_eq_ok, at?_eq_ok] at hstep
    obtain ⟨i, hi, hci⟩ := hstep
    exact ⟨i, code, by rw [List.getElem?_take_of_lt hk]; exact hi, hci, hcode⟩

theorem initial_centroids_distinct_samples_witness :
    ∃ (centroids : List Code) (ids : List Nat),
      InitializeCentroidsByRandomPicking List.reverse line_data 2 = .ok centroids ∧
      centroids.length = (2 : Int).toNat ∧
      ids = (List.reverse (List.range line_data.length)).take (2 : Int).toNat ∧
      ids.length = (2 : Int).toNat ∧ ids.Nodup ∧ (∀ i ∈ ids, i < line_data.length) ∧
      ∀ k, k < (2 : Int).toNat → ∃ i code, ids[k]? = some i ∧ line_data[i]? = some code ∧
        centroids[k]? = some code :=
  initial_centroids_distinct_samples List.reverse List.reverse_perm line_data 2 (by decide)
    (by decide)

/-- C19, as stated, fails in the arithmetic of the program: on `tie_object`,
built by the constructor, the two valid samples of `tie_data` and the valid
code `[1]`, the vote returns `[0]`; the symmetric distances of the samples to
`[0]` are `2^(-52)` and `1`, those to `[1]` are `0` and `1`, both as the
program computes them and in exact arithmetic, and the sum of the former is
the larger. -/
theorem voted_centroid_not_optimal :
    PQKmeans.ctor ieee tie_codewords 1 2 = .ok tie_object ∧
      (∀ c ∈ tie_data, ValidCode tie_object c) ∧ ValidCode tie_object [1] ∧
      ComputeCentroidBySparseVoting ieee tie_object tie_data [0, 1] = .ok [0] ∧
      (∀ A ∈ [ieee, unrounded],
        SymmetricDistance A tie_object [1] [0] = .ok (1 / 4503599627370496) ∧
        SymmetricDistance A tie_object [2] [0] = .ok 1 ∧
        SymmetricDistance A tie_object [1] [1] = .ok 0 ∧
        SymmetricDistance A tie_object [2] [1] = .ok 1) ∧
      ((0 : ℚ) + 1 < 1 / 4503599627370496 + 1) := by
  refine ⟨tie_object_ctor, by decide, by decide, by with_unfolding_all rfl, ?_, by norm_num⟩
  intro A hA
  simp only [List.mem_cons, List.mem_singleton, List.not_mem_nil, or_false] at hA
  rcases hA with rfl | rfl
  · exact ⟨by with_unfolding_all rfl, by with_unfolding_all rfl, by with_unfolding_all rfl,
      by with_unfolding_all rfl⟩
  · exact ⟨by with_unfolding_all rfl, by with_unfolding_all rfl, by with_unfolding_all rfl,
      by with_unfolding_all rfl⟩

/-- C19, amended. Whole-code optimality of the voted centroid when the votes
are exact: on an object built by the constructor, in any arithmetic (IEEE
included), valid samples, selected indices in range and a valid code `c`, if
the vote the program accumulates for every candidate of every subspace equals
the exact score `sum over k1 of frequency[k1] * table[m][k1][k2]` (as it
always does without rounding), then for every code `v` that
`ComputeCentroidBySparseVoting` returns, the exact symmetric distances of the
selected samples to `v` and to `c` all exist and the sum of the former is at
most the sum of the latter; and the vote does return a code when in every
subspace some candidate has a vote below `FLT_MAX`. -/
theorem voted_centroid_optimal (A : Arith) (cw : List (List (List ℚ))) (K itr : Int)
    (self : PQKmeans) (hctor : PQKmeans.ctor A cw K itr = .ok self) (codes : List Code)
    (selected_ids : List Nat) (hcodes : ∀ c ∈ codes, ValidCode self c)
    (hids : ∀ id ∈ selected_ids, id < codes.length) (c : Code) (hc : ValidCode self c)
    (hexact : ∀ m k2, m < self.M_ → k2 < self.Ks →
      float_vote A self codes selected_ids m k2 =
        weighted_score self codes selected_ids m k2) :
    (∀ v, ComputeCentroidBySparseVoting A self codes selected_ids = .ok v →
      ∃ dv dc : List ℚ,
        List.Forall₂ (fun id d => ∃ s, codes[id]? = some s ∧
          SymmetricDistance unrounded self s v = .ok d) selected_ids dv ∧
        List.Forall₂ (fun id d => ∃ s, codes[id]? = some s ∧
          SymmetricDistance unrounded self s c = .ok d) selected_ids dc ∧
        dv.sum ≤ dc.sum) ∧
    ((∀ m, m < self.M_ →
        ∃ k2, k2 < self.Ks ∧ float_vote A self codes selected_ids m k2 < FLT_MAX) →
      ∃ v, ComputeCentroidBySparseVoting A self codes selected_ids = .ok v) ∧
    (∀ m k2, float_vote unrounded self codes selected_ids m k2 =
      weighted_score self codes selected_ids m k2) := by
  have hw := (ctor_ok_inv hctor).2.2.2.2.2.1
  have hsel : ∀ id ∈ selected_ids, ∃ code, codes[id]? = some code ∧ ValidCode self code := by
    intro id hid
    have hlt := hids id hid
    exact ⟨codes[id], List.getElem?_eq_getElem hlt, hcodes _ (List.getElem_mem hlt)⟩
  refine ⟨fun v hv => ?_, fun hlt => ComputeCentroidBySparseVoting_returns hw hsel hlt,
    fun m k2 => float_vote_unrounded self codes selected_ids m k2⟩
  obtain ⟨hvalid, hall⟩ := ComputeCentroidBySparseVoting_ok hw hv
  have hdist : ∀ (w : Code), ValidCode self w →
      List.Forall₂ (fun id d => ∃ s, codes[id]? = some s ∧
        SymmetricDistance unrounded self s w = .ok d) selected_ids
        (selected_ids.map (fun id => symD self (codes.getD id []) w)) := by
    intro w hwv
    rw [List.forall₂_map_right_iff, List.forall₂_same]
    intro id hid
    have hlt := hids id hid
    have hget : codes[id]? = some codes[id] := List.getElem?_eq_getElem hlt
    refine ⟨codes[id], hget, ?_⟩
    rw [getD_of_getElem? hget]
    exact SymmetricDistance_total hw (hcodes _ (List.getElem_mem hlt)) hwv
  refine ⟨_, _, hdist v hvalid, hdist c hc, ?_⟩
  show cluster_cost self codes selected_ids v ≤ cluster_cost self codes selected_ids c
  rw [cluster_cost_eq, cluster_cost_eq]
  apply List.sum_le_sum
  intro m hm
  have hm1 := List.mem_range.mp hm
  obtain ⟨x, hx, hxlt, hcol, hmin, -⟩ := hall m hm1
  have hcm : c.getD m 0 < self.Ks := getD_lt_of_forall hw.Ks_pos hc.2 m
  have h1 := hmin _ hcm
  rw [hexact m x hm1 hxlt, hexact m _ hm1 hcm, weighted_score_eq self hcol,
    weighted_score_eq self hcol] at h1
  rw [getD_of_getElem? hx]
  exact h1

theorem voted_centroid_optimal_witness :
    ComputeCentroidBySparseVoting ieee line_object line_data [1, 2, 4] = .ok [2] ∧
    ∃ dv dc : List ℚ,
      List.Forall₂ (fun id d => ∃ s, line_data[id]? = some s ∧
        SymmetricDistance unrounded line_object s [2] = .ok d) [1, 2, 4] dv ∧
      List.Forall₂ (fun id d => ∃ s, line_data[id]? = some s ∧
        SymmetricDistance unrounded line_object s [1] = .ok d) [1, 2, 4] dc ∧
      dv.sum ≤ dc.sum :=
  have hv : ComputeCentroidBySparseVoting ieee line_object line_data [1, 2, 4] = .ok [2] := by
    with_unfolding_all rfl
  ⟨hv, (voted_centroid_optimal ieee line_codewords 2 3 line_object line_object_ctor line_data
    [1, 2, 4] (by decide) (by decide) [1] (by decide) line_votes_exact).1 [2] hv⟩

/-- C20. Duplicate centroids starve: on an object built by the constructor,
in any arithmetic (IEEE included), valid samples and `K` valid centroids of
which those at two indices `i < j` hold the same code, every assignment step
that returns assigns no sample to `j` and leaves the cluster of `j` empty;
and the step does return when every sample has a centroid at a symmetric
distance, as `SymmetricDistance` returns it, below `FLT_MAX`. -/
theorem duplicate_centroid_starves (A : Arith) (cw : List (List (List ℚ))) (K itr : Int)
    (self : PQKmeans) (hctor : PQKmeans.ctor A cw K itr = .ok self)
    (pydata centroids_old : List Code) (hdata : ∀ c ∈ pydata, ValidCode self c)
    (hcs : ∀ c ∈ centroids_old, ValidCode self c)
    (hlen : centroids_old.length = self.K_.toNat) (i j : Nat) (hij : i < j) (code : Code)
    (hi : centroids_old[i]? = some code) (hj : centroids_old[j]? = some code) :
    (∀ (assignments : List Int) (selected : List (List Nat)) (error_sum : ℚ),
      assignment_step A self pydata centroids_old = .ok (assignments, selected, error_sum) →
      (∀ n, n < pydata.length → ∃ a : Int, assignments[n]? = some a ∧ a ≠ (j : Int)) ∧
      selected[j]? = some []) ∧
    ((∀ q ∈ pydata, ∃ c ∈ centroids_old, ∃ dc,
        SymmetricDistance A self q c = .ok dc ∧ dc < FLT_MAX) →
      ∃ r, assignment_step A self pydata centroids_old = .ok r) := by
  have hw := (ctor_ok_inv hctor).2.2.2.2.2.1
  have hjlt : j < self.K_.toNat := hlen ▸ (List.getElem?_eq_some_iff.mp hj).1
  refine ⟨fun assignments selected error_sum h => ?_, fun hfin =>
    assignment_step_returns hw hdata hcs hlen hfin⟩
  obtain ⟨nn, hnn, hass, -, -, hsel, -⟩ := assignment_step_ok h
  have hne : ∀ n, n < pydata.length → ∃ p, nn[n]? = some p ∧ p.1 ≠ j := by
    intro n hn
    obtain ⟨i0, d, hp, hfind, -⟩ := assignment_step_sample hnn n hn
    refine ⟨(i0, d), hp, fun h0 => ?_⟩
    simp only [] at h0
    subst h0
    obtain ⟨⟨c1, hc1, hsd⟩, -, hfirst, -⟩ := FindNNLinear_ok hfind
    rw [hj] at hc1
    injection hc1 with hc1
    subst hc1
    exact lt_irrefl _ (hfirst i code d hij hi hsd)
  constructor
  · intro n hn
    obtain ⟨p, hp, hpj⟩ := hne n hn
    refine ⟨(p.1 : Int), ?_, by exact_mod_cast hpj⟩
    rw [hass, List.getElem?_map, hp]
    rfl
  · rw [hsel j hjlt]
    congr 1
    rw [List.filter_eq_nil_iff]
    intro n hn
    obtain ⟨p, hp, hpj⟩ := hne n (List.mem_range.mp hn)
    rw [hass, assigned_map_cast nn n p hp]
    simpa using hpj

theorem duplicate_centroid_starves_witness :
    assignment_step ieee line_object line_data [[1], [1]] =
      .ok ([0, 0, 0, 0, 0], [[0, 1, 2, 3, 4], []], 9) ∧
    ((∀ n, n < line_data.length →
        ∃ a : Int, ([0, 0, 0, 0, 0] : List Int)[n]? = some a ∧ a ≠ ((1 : Nat) : Int)) ∧
      ([[0, 1, 2, 3, 4], []] : List (List Nat))[1]? = some []) :=
  have h : assignment_step ieee line_object line_data [[1], [1]] =
      .ok ([0, 0, 0, 0, 0], [[0, 1, 2, 3, 4], []], 9) := by
    with_unfolding_all rfl
  ⟨h, (duplicate_centroid_starves ieee line_codewords 2 3 line_object line_object_ctor
    line_data [[1], [1]] (by decide) (by decide) (by decide) 0 1 (by decide) [1] rfl rfl).1
    _ _ _ h⟩

end pqkmeans
